import Mathlib

/-!
Verification development for the bencode codec in src/bencode.py.

The Python module is shallowly embedded: bytes objects become `List Nat`
(one entry per byte), the universe of Python values the codec touches
becomes the inductive type `PyVal`, raised exceptions become the error
side of `Except PyExc`, and Python slice / index / int() semantics are
modelled byte-for-byte (including negative-index wraparound and
whitespace-or-underscore tolerant integer parsing).  The decoder and the
encoder of the source are recursive; the decoder is a genuinely partial
function (there are inputs on which the Python code loops forever), so
both are modelled with an explicit fuel parameter, `Option.none` meaning
that the modelled call did not finish within the given budget.  All
definitions are structurally recursive, so concrete runs reduce by rfl.
-/

/-- Exceptions the module can raise or propagate.  `bencodeDecodeError` and
`bencodeEncodeError` are the two classes defined in bencode.py;
`valueError` models Python ValueError (raised by bytes.index and int());
`typeError` models Python TypeError (raised by sorted on unorderable keys);
`unicodeEncodeError` models UnicodeEncodeError from str.encode. -/
inductive PyExc where
  | bencodeDecodeError
  | bencodeEncodeError
  | valueError
  | typeError
  | unicodeEncodeError
deriving DecidableEq

/-- The Python values the codec manipulates:  int, bool, str (as a list of
unicode code points), bytes (as a list of byte values), list, dict (as an
insertion-ordered association list, the representation of a CPython dict),
and None as a representative of a type outside the encodable set. -/
inductive PyVal where
  | int (n : Int)
  | bool (b : Bool)
  | str (s : List Nat)
  | bytes (bs : List Nat)
  | list (xs : List PyVal)
  | dict (d : List (PyVal × PyVal))
  | noneV

mutual
/-- Size of a value tree; used as a sufficient fuel budget for the
fueled functions below. -/
def vsize : PyVal → Nat
  | .int _ => 1
  | .bool _ => 1
  | .str _ => 1
  | .bytes _ => 1
  | .list xs => 1 + vsizeList xs
  | .dict d => 1 + vsizePairs d
  | .noneV => 1
termination_by structural v => v
def vsizeList : List PyVal → Nat
  | [] => 0
  | x :: xs => 1 + vsize x + vsizeList xs
termination_by structural l => l
def vsizePairs : List (PyVal × PyVal) → Nat
  | [] => 0
  | (k, v) :: rest => 1 + vsize k + vsize v + vsizePairs rest
termination_by structural l => l
end

/-! ### Python primitives: slicing, index lookup, int() -/

/-- Normalisation of one slice endpoint, Python style: a negative index
counts from the end (clamped at 0), a nonnegative one is clamped at the
length. -/
def pySliceIdx (L : Nat) (a : Int) : Nat :=
  if a < 0 then (L + a).toNat else min a.toNat L

/-- Python slice data[a:b] (step 1). -/
def pySlice (data : List Nat) (a b : Int) : List Nat :=
  (data.take (pySliceIdx data.length b)).drop (pySliceIdx data.length a)

/-- Python bytes.index(t, start) for a single-byte needle: absolute index of
the first occurrence at or after the (normalised) start, ValueError if
there is none. -/
def pyIndexByte (data : List Nat) (t : Nat) (start : Int) : Except PyExc Int :=
  match (data.drop (pySliceIdx data.length start)).findIdx? (fun b => b = t) with
  | some k => .ok ((pySliceIdx data.length start + k : Nat) : Int)
  | none => .error .valueError

/-- ASCII whitespace as stripped by Python int() on bytes. -/
def isPyWs (b : Nat) : Bool :=
  b = 32 || b = 9 || b = 10 || b = 11 || b = 12 || b = 13

/-- ASCII decimal digit test. -/
def isDigitB (b : Nat) : Bool :=
  48 ≤ b && b ≤ 57

/-- Strip ASCII whitespace from both ends, as Python int() does. -/
def stripWs (s : List Nat) : List Nat :=
  ((s.dropWhile isPyWs).reverse.dropWhile isPyWs).reverse

/-- Digit tail of a Python integer literal: digits with single underscores
allowed between digits, accumulating the decimal value. -/
def pyDigits : List Nat → Nat → Option Nat
  | [], acc => some acc
  | b :: rest, acc =>
      if isDigitB b then pyDigits rest (acc * 10 + (b - 48))
      else if b = 95 then
        match rest with
        | c :: more => if isDigitB c then pyDigits more (acc * 10 + (c - 48)) else none
        | [] => none
      else none

/-- Unsigned part of a Python integer literal: at least one digit, then
`pyDigits`. -/
def pyIntDigits : List Nat → Option Nat
  | b :: rest => if isDigitB b then pyDigits rest (b - 48) else none
  | [] => none

/-- Signed Python integer literal (after whitespace stripping): an optional
single plus or minus sign, then at least one digit. -/
def pyIntCore : List Nat → Option Int
  | [] => none
  | b :: rest =>
      if b = 43 then (pyIntDigits rest).map (fun n => (n : Int))
      else if b = 45 then (pyIntDigits rest).map (fun n => -(n : Int))
      else (pyIntDigits (b :: rest)).map (fun n => (n : Int))

/-- Python int() applied to a bytes object: strips ASCII whitespace, allows
one sign, digits with single interior underscores; ValueError otherwise. -/
def pyInt (s : List Nat) : Except PyExc Int :=
  match pyIntCore (stripWs s) with
  | some n => .ok n
  | none => .error .valueError

/-- Python bytes.isdigit(): nonempty and all ASCII digits. -/
def bytesIsdigit (s : List Nat) : Bool :=
  !s.isEmpty && s.all isDigitB

/-! ### Python equality and ordering -/

mutual
/-- Python == on the modelled values, with an explicit fuel (the combined
`vsize` of the two arguments, supplied by the wrapper `pyEq`, is always
sufficient: every recursive call strictly shrinks the arguments).  True ==
1, dict equality ignores order, values of unrelated types are unequal. -/
def pyEqF : Nat → PyVal → PyVal → Bool
  | 0, _, _ => false
  | _ + 1, .int m, .int n => m == n
  | _ + 1, .int m, .bool b => m == (if b then 1 else 0)
  | _ + 1, .bool b, .int n => (if b then (1 : Int) else 0) == n
  | _ + 1, .bool a, .bool b => a == b
  | _ + 1, .str s, .str t => s == t
  | _ + 1, .bytes s, .bytes t => s == t
  | f + 1, .list xs, .list ys => pyEqListF f xs ys
  | f + 1, .dict d1, .dict d2 => d1.length == d2.length && pyEqDictSubF f d1 d2
  | _ + 1, .noneV, .noneV => true
  | _ + 1, _, _ => false
def pyEqListF : Nat → List PyVal → List PyVal → Bool
  | _, [], [] => true
  | 0, _, _ => false
  | f + 1, x :: xs, y :: ys => pyEqF f x y && pyEqListF f xs ys
  | _, _, _ => false
def pyEqDictSubF : Nat → List (PyVal × PyVal) → List (PyVal × PyVal) → Bool
  | _, [], _ => true
  | 0, _, _ => false
  | f + 1, (k, v) :: rest, d2 => pyEqFindF f k v d2 && pyEqDictSubF f rest d2
def pyEqFindF : Nat → PyVal → PyVal → List (PyVal × PyVal) → Bool
  | _, _, _, [] => false
  | 0, _, _, _ => false
  | f + 1, k, v, (k2, v2) :: rest =>
      if pyEqF f k k2 then pyEqF f v v2 else pyEqFindF f k v rest
end

/-- Python == (total wrapper around `pyEqF`). -/
def pyEq (a b : PyVal) : Bool := pyEqF (vsize a + vsize b) a b

/-- Strict lexicographic order on byte or code-point sequences: exactly
Python < on two bytes objects or on two str objects. -/
def lexLtB : List Nat → List Nat → Bool
  | _, [] => false
  | [], _ :: _ => true
  | a :: s, b :: t => if a < b then true else if b < a then false else lexLtB s t

mutual
/-- Python < on the modelled values, with fuel as in `pyEqF` (the wrapper
`pyLt` supplies a sufficient budget; fuel shrinks only along list
elements).  Numeric values compare numerically, str and bytes compare
lexicographically within their own type, lists compare elementwise, and
every other combination (dicts included) raises TypeError. -/
def pyLtF : Nat → PyVal → PyVal → Except PyExc Bool
  | 0, _, _ => .error .typeError
  | _ + 1, .int m, .int n => .ok (m < n)
  | _ + 1, .int m, .bool b => .ok (m < if b then 1 else 0)
  | _ + 1, .bool b, .int n => .ok ((if b then (1 : Int) else 0) < n)
  | _ + 1, .bool a, .bool b => .ok (!a && b)
  | _ + 1, .str s, .str t => .ok (lexLtB s t)
  | _ + 1, .bytes s, .bytes t => .ok (lexLtB s t)
  | f + 1, .list xs, .list ys => pyLtListF f xs ys
  | _ + 1, _, _ => .error .typeError
def pyLtListF : Nat → List PyVal → List PyVal → Except PyExc Bool
  | 0, _, _ => .error .typeError
  | _ + 1, [], [] => .ok false
  | _ + 1, [], _ :: _ => .ok true
  | _ + 1, _ :: _, [] => .ok false
  | f + 1, x :: xs, y :: ys =>
      if pyEq x y then pyLtListF f xs ys else pyLtF f x y
end

/-- Python < (total wrapper around `pyLtF`). -/
def pyLt (a b : PyVal) : Except PyExc Bool := pyLtF (vsize a + vsize b) a b

/-- Python < on (key, value) tuples as compared by sorted(value.items()):
first components compared unless ==, then second components unless ==,
equal tuples are not less. -/
def pairLt (x y : PyVal × PyVal) : Except PyExc Bool :=
  if pyEq x.1 y.1 then
    (if pyEq x.2 y.2 then .ok false else pyLt x.2 y.2)
  else pyLt x.1 y.1

/-- Stable insertion of one item into an already sorted run, comparing with
Python < only (as list.sort does): the new, originally earlier item stays
in front of every item it is not greater than. -/
def insertPair (x : PyVal × PyVal) : List (PyVal × PyVal) → Except PyExc (List (PyVal × PyVal))
  | [] => .ok [x]
  | y :: rest =>
      match pairLt y x with
      | .error e => .error e
      | .ok true =>
          match insertPair x rest with
          | .error e => .error e
          | .ok r => .ok (y :: r)
      | .ok false => .ok (x :: y :: rest)

/-- Python sorted() on an item list, modelled as stable insertion sort (the
result and the raised-TypeError behaviour agree with CPython sort on the
inputs the encoder can produce). -/
def sortPairs : List (PyVal × PyVal) → Except PyExc (List (PyVal × PyVal))
  | [] => .ok []
  | x :: rest =>
      match sortPairs rest with
      | .error e => .error e
      | .ok r => insertPair x r

/-- CPython dict item assignment d[k] = v: if some existing key is == to k
the stored value is replaced in place (the first-inserted key object is
kept), otherwise the pair is appended. -/
def dictSet (d : List (PyVal × PyVal)) (k v : PyVal) : List (PyVal × PyVal) :=
  match d with
  | [] => [(k, v)]
  | (k0, v0) :: rest =>
      if pyEq k0 k then (k0, v) :: rest else (k0, v0) :: dictSet rest k v

/-- dict(pairs): build a dict by successive item assignment. -/
def dictFromPairs (l : List (PyVal × PyVal)) : List (PyVal × PyVal) :=
  l.foldl (fun d kv => dictSet d kv.1 kv.2) []

/-! ### UTF-8 (the module's ENCODING is utf-8, used strictly both ways) -/

/-- Unicode scalar value test: in range and not a surrogate.  Exactly the
code points str.encode can emit and a strict UTF-8 decode can produce. -/
def scalarB (c : Nat) : Bool :=
  c < 1114112 && !(55296 ≤ c && c < 57344)

/-- UTF-8 encoding of one scalar value (1 to 4 bytes). -/
def utf8EncodeChar (c : Nat) : List Nat :=
  if c < 128 then [c]
  else if c < 2048 then [192 + c / 64, 128 + c % 64]
  else if c < 65536 then [224 + c / 4096, 128 + (c / 64) % 64, 128 + c % 64]
  else [240 + c / 262144, 128 + (c / 4096) % 64, 128 + (c / 64) % 64, 128 + c % 64]

/-- Concatenated UTF-8 encoding of a code-point sequence. -/
def utf8Bytes (cps : List Nat) : List Nat :=
  (cps.map utf8EncodeChar).flatten

/-- Python str.encode(utf-8, strict): UnicodeEncodeError on a surrogate
(or out-of-range) code point, otherwise the concatenated encoding. -/
def pyUtf8Encode (cps : List Nat) : Except PyExc (List Nat) :=
  if cps.all scalarB then .ok (utf8Bytes cps)
  else .error .unicodeEncodeError

/-- One step of a strict UTF-8 decoder: the accepted byte ranges are
exactly those of the codec (no overlongs, no surrogates, max U+10FFFF). -/
def utf8DecodeOne : List Nat → Option (Nat × List Nat)
  | [] => none
  | b0 :: rest =>
    if b0 < 128 then some (b0, rest)
    else if b0 < 194 then none
    else if b0 < 224 then
      match rest with
      | b1 :: r =>
          if 128 ≤ b1 && b1 < 192 then some ((b0 - 192) * 64 + (b1 - 128), r) else none
      | [] => none
    else if b0 < 240 then
      match rest with
      | b1 :: b2 :: r =>
          if (if b0 = 224 then 160 else 128) ≤ b1 &&
             b1 < (if b0 = 237 then 160 else 192) &&
             128 ≤ b2 && b2 < 192 then
            some ((b0 - 224) * 4096 + (b1 - 128) * 64 + (b2 - 128), r)
          else none
      | _ => none
    else if b0 < 245 then
      match rest with
      | b1 :: b2 :: b3 :: r =>
          if (if b0 = 240 then 144 else 128) ≤ b1 &&
             b1 < (if b0 = 244 then 144 else 192) &&
             128 ≤ b2 && b2 < 192 && 128 ≤ b3 && b3 < 192 then
            some ((b0 - 240) * 262144 + (b1 - 128) * 4096 + (b2 - 128) * 64 + (b3 - 128), r)
          else none
      | _ => none
    else none

/-- Fueled loop of the strict decoder; one unit of fuel per decoded
character, so the byte count is always enough fuel. -/
def utf8Loop : Nat → List Nat → Option (List Nat)
  | _, [] => some []
  | 0, _ :: _ => none
  | f + 1, bs =>
      match utf8DecodeOne bs with
      | some (c, rest) => (utf8Loop f rest).map (fun cs => c :: cs)
      | none => none

/-- Python bytes.decode(utf-8, strict), returning the code points on
success and none on UnicodeDecodeError. -/
def utf8DecodeAll (bs : List Nat) : Option (List Nat) :=
  utf8Loop bs.length bs

/-! ### Decimal representations: Python str(n) and str(len) -/

/-- Little-endian ASCII digits of n (fuel-driven; fuel n is enough). -/
def natDigitsF : Nat → Nat → List Nat
  | 0, _ => []
  | f + 1, n => if n = 0 then [] else (n % 10 + 48) :: natDigitsF f (n / 10)

/-- Python str() of a natural number, as ASCII bytes. -/
def natRepr (n : Nat) : List Nat :=
  if n = 0 then [48] else (natDigitsF n n).reverse

/-- Python str() of an int, as ASCII bytes: optional minus sign, then the
decimal digits with no leading zero, no plus, no spaces. -/
def intRepr (n : Int) : List Nat :=
  if n < 0 then 45 :: natRepr (-n).toNat else natRepr n.toNat

/-! ### The encoder -/

/-- Source _encode_int: INTEGER + str(value) + END. -/
def _encode_int (value : Int) : List Nat :=
  105 :: intRepr value ++ [101]

/-- Source _encode_bool: encode int(value), so False is 0 and True is 1. -/
def _encode_bool (value : Bool) : List Nat :=
  _encode_int (if value then 1 else 0)

/-- Source _encode_bytes: str(len(value)) + COLON + value. -/
def _encode_bytes (value : List Nat) : List Nat :=
  natRepr value.length ++ 58 :: value

/-- Source _encode_str: _encode_bytes of value.encode(utf-8); propagates
UnicodeEncodeError on surrogates. -/
def _encode_str (value : List Nat) : Except PyExc (List Nat) :=
  match pyUtf8Encode value with
  | .ok bs => .ok (_encode_bytes bs)
  | .error e => .error e

mutual
/-- Source encode: dispatch on the runtime type (bool wins over int because
Python bool is a subclass of int; a sum type needs no ordering), raising
BencodeEncodeError on an unsupported type.  Fueled; `Option.none` means the
budget ran out, and the wrapper `encode` supplies a sufficient budget. -/
def encodeF : Nat → PyVal → Option (Except PyExc (List Nat))
  | 0, _ => none
  | _ + 1, .bool b => some (.ok (_encode_bool b))
  | _ + 1, .bytes bs => some (.ok (_encode_bytes bs))
  | f + 1, .dict d =>
      match sortPairs d with
      | .error e => some (.error e)
      | .ok sd =>
          match encPairsF f (dictFromPairs sd) with
          | none => none
          | some (.error e) => some (.error e)
          | some (.ok body) => some (.ok (100 :: body ++ [101]))
  | _ + 1, .int n => some (.ok (_encode_int n))
  | f + 1, .list xs =>
      match encListF f xs with
      | none => none
      | some (.error e) => some (.error e)
      | some (.ok body) => some (.ok (108 :: body ++ [101]))
  | _ + 1, .str s => some (_encode_str s)
  | _ + 1, .noneV => some (.error .bencodeEncodeError)
/-- Body loop of source _encode_list: concatenation of encode over the
elements in order. -/
def encListF : Nat → List PyVal → Option (Except PyExc (List Nat))
  | 0, _ => none
  | _ + 1, [] => some (.ok [])
  | f + 1, x :: xs =>
      match encodeF f x with
      | none => none
      | some (.error e) => some (.error e)
      | some (.ok bx) =>
          match encListF f xs with
          | none => none
          | some (.error e) => some (.error e)
          | some (.ok rest) => some (.ok (bx ++ rest))
/-- Body loop of source _encode_dict (after sorting and dict() rebuild):
encode(key) then encode(item) for each pair in order. -/
def encPairsF : Nat → List (PyVal × PyVal) → Option (Except PyExc (List Nat))
  | 0, _ => none
  | _ + 1, [] => some (.ok [])
  | f + 1, (k, v) :: rest =>
      match encodeF f k with
      | none => none
      | some (.error e) => some (.error e)
      | some (.ok bk) =>
          match encodeF f v with
          | none => none
          | some (.error e) => some (.error e)
          | some (.ok bv) =>
              match encPairsF f rest with
              | none => none
              | some (.error e) => some (.error e)
              | some (.ok rest2) => some (.ok (bk ++ bv ++ rest2))
end

/-- Source encode with an always-sufficient fuel budget (proved
sufficient in encodeF_total below). -/
def encode (v : PyVal) : Option (Except PyExc (List Nat)) :=
  encodeF (vsize v + 1) v

/-! ### The decoder -/

/-- Source _decode_int: skip the INTEGER marker, find the next END marker
(bytes.index, so ValueError when absent), int() the bytes between
(ValueError when malformed), return the value and the index past END. -/
def _decode_int (data : List Nat) (i : Int) : Except PyExc (PyVal × Int) :=
  match pyIndexByte data 101 (i + 1) with
  | .error e => .error e
  | .ok end_idx =>
      match pyInt (pySlice data (i + 1) end_idx) with
      | .error e => .error e
      | .ok num => .ok (.int num, end_idx + 1)

/-- Source _decode_str: find the COLON (ValueError when absent), int() the
length prefix (ValueError when malformed), slice out that many bytes
(Python slicing clamps, so a long length yields a short slice and an
out-of-range end index), decode as utf-8 falling back to raw bytes. -/
def _decode_str (data : List Nat) (i : Int) : Except PyExc (PyVal × Int) :=
  match pyIndexByte data 58 i with
  | .error e => .error e
  | .ok colon_idx =>
      match pyInt (pySlice data i colon_idx) with
      | .error e => .error e
      | .ok length =>
          let start := colon_idx + 1
          let byte_string := pySlice data start (start + length)
          match utf8DecodeAll byte_string with
          | some cps => .ok (.str cps, start + length)
          | none => .ok (.bytes byte_string, start + length)

mutual
/-- Source _decode: dispatch on the single byte at the cursor (INTEGER
marker, ASCII digit, DICT marker, LIST marker, else BencodeDecodeError).
Fueled: one unit per dispatch or loop iteration; `Option.none` means the
budget ran out, which is how the unbounded recursion and the genuinely
non-terminating loops of the source surface in the model. -/
def _decode : Nat → List Nat → Int → Option (Except PyExc (PyVal × Int))
  | 0, _, _ => none
  | f + 1, data, i =>
      let char := pySlice data i (i + 1)
      if char = [105] then some (_decode_int data i)
      else if bytesIsdigit char then some (_decode_str data i)
      else if char = [100] then _decode_dictLoop f data (i + 1) []
      else if char = [108] then _decode_listLoop f data (i + 1) []
      else some (.error .bencodeDecodeError)
/-- Loop of source _decode_dict: while the byte at the cursor is not END,
read a key with _decode_str, a value with _decode, store with item
assignment (so a repeated key keeps the last value); past END return the
dict and the next index. -/
def _decode_dictLoop : Nat → List Nat → Int → List (PyVal × PyVal) →
    Option (Except PyExc (PyVal × Int))
  | 0, _, _, _ => none
  | f + 1, data, i, result =>
      if pySlice data i (i + 1) = [101] then some (.ok (.dict result, i + 1))
      else
        match _decode_str data i with
        | .error e => some (.error e)
        | .ok (key, i1) =>
            match _decode f data i1 with
            | none => none
            | some (.error e) => some (.error e)
            | some (.ok (v, i2)) => _decode_dictLoop f data i2 (dictSet result key v)
/-- Loop of source _decode_list: while the byte at the cursor is not END,
decode an item and append; past END return the list and the next index. -/
def _decode_listLoop : Nat → List Nat → Int → List PyVal →
    Option (Except PyExc (PyVal × Int))
  | 0, _, _, _ => none
  | f + 1, data, i, items =>
      if pySlice data i (i + 1) = [101] then some (.ok (.list items, i + 1))
      else
        match _decode f data i with
        | none => none
        | some (.error e) => some (.error e)
        | some (.ok (item, i2)) => _decode_listLoop f data i2 (items ++ [item])
end

/-- Source decode on a bytes input (a str input is first utf-8 encoded by
the source; the claims here concern byte buffers): run _decode at cursor
0 and require the end index to equal the buffer length exactly, else
BencodeDecodeError. -/
def decode (fuel : Nat) (data : List Nat) : Option (Except PyExc PyVal) :=
  match _decode fuel data 0 with
  | none => none
  | some (.error e) => some (.error e)
  | some (.ok (result, length)) =>
      if (data.length : Int) = length then some (.ok result)
      else some (.error .bencodeDecodeError)

/-! ### Sanity checks mirroring the pytest cases of the source -/

example : _encode_int 0 = [105, 48, 101] := rfl
example : _encode_int 42 = [105, 52, 50, 101] := rfl
example : _encode_int (-42) = [105, 45, 52, 50, 101] := rfl
example : _encode_bool true = [105, 49, 101] := rfl
example : _encode_bool false = [105, 48, 101] := rfl
example : _encode_bytes [115, 112, 97, 109] = [52, 58, 115, 112, 97, 109] := rfl

/-- encode({b foo: 42, b bar: b spam}) is d3:bar4:spam3:fooi42ee. -/
example :
    encode (.dict [(.bytes [102, 111, 111], .int 42),
                   (.bytes [98, 97, 114], .bytes [115, 112, 97, 109])]) =
      some (.ok [100, 51, 58, 98, 97, 114, 52, 58, 115, 112, 97, 109,
                 51, 58, 102, 111, 111, 105, 52, 50, 101, 101]) := rfl

/-- decode(b 13:parrot sketch) is the str parrot sketch. -/
example :
    decode 9 [49, 51, 58, 112, 97, 114, 114, 111, 116, 32, 115, 107, 101, 116, 99, 104] =
      some (.ok (.str [112, 97, 114, 114, 111, 116, 32, 115, 107, 101, 116, 99, 104])) := rfl

/-- decode(b d3:bar4:spam3:fooi42ee) is the dict bar maps to spam, foo to 42. -/
example :
    decode 22 [100, 51, 58, 98, 97, 114, 52, 58, 115, 112, 97, 109,
               51, 58, 102, 111, 111, 105, 52, 50, 101, 101] =
      some (.ok (.dict [(.str [98, 97, 114], .str [115, 112, 97, 109]),
                        (.str [102, 111, 111], .int 42)])) := rfl

/-! ### Positional lemmas for the forward-parsing regime -/

theorem pySliceIdx_ofNat (L a : Nat) (h : a ≤ L) : pySliceIdx L (a : Int) = a := by
  unfold pySliceIdx
  rw [if_neg (by omega : ¬ ((a : Int) < 0))]
  simp
  omega

theorem pySlice_seg (pre seg rest : List Nat) :
    pySlice (pre ++ seg ++ rest) (pre.length : Int)
      ((pre.length : Int) + (seg.length : Int)) = seg := by
  have hlen : (pre ++ seg ++ rest).length = pre.length + seg.length + rest.length := by
    simp; omega
  have h1 : pySliceIdx (pre ++ seg ++ rest).length (pre.length : Int) = pre.length := by
    rw [hlen]; exact pySliceIdx_ofNat _ _ (by omega)
  have h2 : pySliceIdx (pre ++ seg ++ rest).length
      ((pre.length : Int) + (seg.length : Int)) = pre.length + seg.length := by
    rw [hlen]
    have hc : ((pre.length : Int) + (seg.length : Int)) = ((pre.length + seg.length : Nat) : Int) := by
      push_cast; ring
    rw [hc]
    exact pySliceIdx_ofNat _ _ (by omega)
  unfold pySlice
  rw [h1, h2, List.append_assoc, List.take_append_eq_append_take]
  rw [List.take_of_length_le (by omega : pre.length ≤ pre.length + seg.length)]
  have h3 : pre.length + seg.length - pre.length = seg.length := by omega
  rw [h3, List.take_left, List.drop_left]

theorem pySlice_char (pre : List Nat) (b : Nat) (tail : List Nat) :
    pySlice (pre ++ b :: tail) (pre.length : Int) ((pre.length : Int) + 1) = [b] := by
  have := pySlice_seg pre [b] tail
  simpa using this

theorem findIdx_first (seg : List Nat) (t : Nat) (rest : List Nat) (h : t ∉ seg) :
    (seg ++ t :: rest).findIdx? (fun b => b = t) = some seg.length := by
  induction seg with
  | nil => simp [List.findIdx?]
  | cons a s ih =>
      have ha : a ≠ t := by intro hc; exact h (by simp [hc])
      have hs : t ∉ s := fun hc => h (by simp [hc])
      simp [List.findIdx?, ha, ih hs]

theorem pyIndexByte_seg (pre seg rest : List Nat) (t : Nat) (h : t ∉ seg) :
    pyIndexByte (pre ++ (seg ++ t :: rest)) t (pre.length : Int) =
      .ok (((pre.length + seg.length : Nat) : Int)) := by
  have h1 : pySliceIdx (pre ++ (seg ++ t :: rest)).length (pre.length : Int) = pre.length := by
    have hl : (pre ++ (seg ++ t :: rest)).length =
        pre.length + (seg.length + (rest.length + 1)) := by simp
    rw [hl]; exact pySliceIdx_ofNat _ _ (by omega)
  unfold pyIndexByte
  rw [h1, List.drop_left, findIdx_first seg t rest h]

/-! ### Decimal representation lemmas -/

theorem natDigitsF_all_digit (f : Nat) : ∀ n, (natDigitsF f n).all isDigitB := by
  induction f with
  | zero => intro n; simp [natDigitsF]
  | succ f ih =>
      intro n
      by_cases h : n = 0
      · simp [natDigitsF, h]
      · simp only [natDigitsF, h, if_false, List.all_cons, Bool.and_eq_true]
        refine And.intro ?_ (ih (n / 10))
        simp [isDigitB]
        omega

theorem natDigitsF_ne_nil (f n : Nat) (h0 : 0 < n) (hf : 0 < f) : natDigitsF f n ≠ [] := by
  match f with
  | g + 1 =>
      have hn : ¬ n = 0 := by omega
      simp [natDigitsF, hn]

theorem natDigitsF_foldr (f : Nat) :
    ∀ n acc, n ≤ f →
      (natDigitsF f n).foldr (fun d a => a * 10 + (d - 48)) acc =
        acc * 10 ^ (natDigitsF f n).length + n := by
  induction f with
  | zero =>
      intro n acc h
      have : n = 0 := by omega
      simp [natDigitsF, this]
  | succ f ih =>
      intro n acc h
      by_cases h0 : n = 0
      · simp [natDigitsF, h0]
      · have hdiv : n / 10 ≤ f := by
          have := Nat.div_lt_self (Nat.pos_of_ne_zero h0) (by omega : 1 < 10)
          omega
        simp only [natDigitsF, h0, if_false, List.foldr_cons, List.length_cons]
        rw [ih (n / 10) acc hdiv]
        have hmod : n % 10 + 48 - 48 = n % 10 := by omega
        rw [hmod, pow_succ]
        calc (acc * 10 ^ (natDigitsF f (n / 10)).length + n / 10) * 10 + n % 10
            = acc * (10 ^ (natDigitsF f (n / 10)).length * 10) + (10 * (n / 10) + n % 10) := by
              ring
          _ = acc * (10 ^ (natDigitsF f (n / 10)).length * 10) + n := by
              rw [Nat.div_add_mod]

theorem natRepr_all_digit (n : Nat) : (natRepr n).all isDigitB := by
  unfold natRepr
  by_cases h : n = 0
  · simp [h, isDigitB]
  · simp only [h, if_false, List.all_reverse]
    exact natDigitsF_all_digit n n

theorem natRepr_ne_nil (n : Nat) : natRepr n ≠ [] := by
  unfold natRepr
  by_cases h : n = 0
  · simp [h]
  · simp only [h, if_false, ne_eq, List.reverse_eq_nil_iff]
    exact natDigitsF_ne_nil n n (by omega) (by omega)

theorem digit_mem_bounds (l : List Nat) (hl : l.all isDigitB) (b : Nat) (hb : b ∈ l) :
    48 ≤ b ∧ b ≤ 57 := by
  have := List.all_eq_true.mp hl b hb
  simp [isDigitB] at this
  omega

theorem pyDigits_cons (b : Nat) (rest : List Nat) (acc : Nat) :
    pyDigits (b :: rest) acc =
      if isDigitB b then pyDigits rest (acc * 10 + (b - 48))
      else if b = 95 then
        match rest with
        | c :: more => if isDigitB c then pyDigits more (acc * 10 + (c - 48)) else none
        | [] => none
      else none := by
  conv_lhs => rw [pyDigits.eq_def]

theorem pyIntCore_cons (b : Nat) (rest : List Nat) :
    pyIntCore (b :: rest) =
      (if b = 43 then (pyIntDigits rest).map (fun n => (n : Int))
       else if b = 45 then (pyIntDigits rest).map (fun n => -(n : Int))
       else (pyIntDigits (b :: rest)).map (fun n => (n : Int))) := by
  conv_lhs => rw [pyIntCore.eq_def]

theorem pyDigits_of_all_digit (l : List Nat) :
    ∀ acc, l.all isDigitB →
      pyDigits l acc = some (l.foldl (fun a d => a * 10 + (d - 48)) acc) := by
  induction l with
  | nil => intro acc h; simp [pyDigits]
  | cons b rest ih =>
      intro acc h
      simp only [List.all_cons, Bool.and_eq_true] at h
      rw [pyDigits_cons, if_pos h.1, List.foldl_cons]
      exact ih _ h.2

theorem pyIntDigits_natRepr (n : Nat) : pyIntDigits (natRepr n) = some n := by
  have hall := natRepr_all_digit n
  have hne := natRepr_ne_nil n
  match hrep : natRepr n with
  | [] => exact absurd hrep hne
  | b :: rest =>
      rw [hrep] at hall
      simp only [List.all_cons, Bool.and_eq_true] at hall
      simp only [pyIntDigits, hall.1, if_true]
      rw [pyDigits_of_all_digit rest _ hall.2]
      congr 1
      have hfold : (b :: rest).foldl (fun a d => a * 10 + (d - 48)) 0 =
          rest.foldl (fun a d => a * 10 + (d - 48)) (b - 48) := by
        simp [List.foldl_cons]
      have hval : (natRepr n).foldl (fun a d => a * 10 + (d - 48)) 0 = n := by
        unfold natRepr
        by_cases h : n = 0
        · simp [h]
        · simp only [h, if_false]
          rw [List.foldl_reverse]
          have := natDigitsF_foldr n n 0 (le_refl n)
          simpa using this
      rw [hrep] at hval
      rw [hfold] at hval
      exact hval

theorem stripWs_of_no_ws (l : List Nat) (h : ∀ b ∈ l, ¬ isPyWs b = true) :
    stripWs l = l := by
  unfold stripWs
  have h1 : l.dropWhile isPyWs = l := by
    match l with
    | [] => rfl
    | b :: rest =>
        rw [List.dropWhile_cons_of_neg]
        exact h b (by simp)
  rw [h1]
  have h2 : l.reverse.dropWhile isPyWs = l.reverse := by
    match hrev : l.reverse with
    | [] => rfl
    | b :: rest =>
        rw [List.dropWhile_cons_of_neg]
        refine h b ?_
        have : b ∈ l.reverse := by rw [hrev]; simp
        simpa using this
  rw [h2, List.reverse_reverse]

theorem digit_not_ws (b : Nat) (h : 48 ≤ b ∧ b ≤ 57) : ¬ isPyWs b = true := by
  simp [isPyWs]
  omega

theorem stripWs_natRepr (n : Nat) : stripWs (natRepr n) = natRepr n := by
  refine stripWs_of_no_ws _ ?_
  intro b hb
  exact digit_not_ws b (digit_mem_bounds _ (natRepr_all_digit n) b hb)

theorem pyInt_natRepr (n : Nat) : pyInt (natRepr n) = .ok (n : Int) := by
  unfold pyInt
  rw [stripWs_natRepr]
  have hall := natRepr_all_digit n
  have hne := natRepr_ne_nil n
  match hrep : natRepr n with
  | [] => exact absurd hrep hne
  | b :: rest =>
      rw [hrep] at hall
      simp only [List.all_cons, Bool.and_eq_true] at hall
      have hb : 48 ≤ b ∧ b ≤ 57 := by
        have := hall.1; simp [isDigitB] at this; omega
      rw [pyIntCore_cons, if_neg (by omega : ¬ b = 43), if_neg (by omega : ¬ b = 45)]
      have := pyIntDigits_natRepr n
      rw [hrep] at this
      rw [this]
      rfl

theorem pyInt_intRepr (n : Int) : pyInt (intRepr n) = .ok n := by
  unfold intRepr
  by_cases h : n < 0
  · simp only [h, if_true]
    unfold pyInt
    have hall := natRepr_all_digit (-n).toNat
    have hstrip : stripWs (45 :: natRepr (-n).toNat) = 45 :: natRepr (-n).toNat := by
      refine stripWs_of_no_ws _ ?_
      intro b hb
      rcases List.mem_cons.mp hb with h45 | hmem
      · subst h45; simp [isPyWs]
      · exact digit_not_ws b (digit_mem_bounds _ hall b hmem)
    rw [hstrip]
    rw [pyIntCore_cons, if_neg (by omega : ¬ (45 : Nat) = 43), if_pos rfl]
    rw [pyIntDigits_natRepr]
    simp
    omega
  · simp only [h, if_false]
    rw [pyInt_natRepr]
    congr 1
    omega

theorem intRepr_bounds (n : Int) (b : Nat) (hb : b ∈ intRepr n) :
    b = 45 ∨ (48 ≤ b ∧ b ≤ 57) := by
  unfold intRepr at hb
  by_cases h : n < 0
  · simp only [h, if_true] at hb
    rcases List.mem_cons.mp hb with h45 | hmem
    · exact Or.inl h45
    · exact Or.inr (digit_mem_bounds _ (natRepr_all_digit _) b hmem)
  · simp only [h, if_false] at hb
    exact Or.inr (digit_mem_bounds _ (natRepr_all_digit _) b hb)

/-! ### UTF-8 codec lemmas -/

theorem utf8DecodeOne_cons (b0 : Nat) (rest : List Nat) :
    utf8DecodeOne (b0 :: rest) =
      (if b0 < 128 then some (b0, rest)
       else if b0 < 194 then none
       else if b0 < 224 then
         match rest with
         | b1 :: r =>
             if 128 ≤ b1 && b1 < 192 then some ((b0 - 192) * 64 + (b1 - 128), r) else none
         | [] => none
       else if b0 < 240 then
         match rest with
         | b1 :: b2 :: r =>
             if (if b0 = 224 then 160 else 128) ≤ b1 &&
                b1 < (if b0 = 237 then 160 else 192) &&
                128 ≤ b2 && b2 < 192 then
               some ((b0 - 224) * 4096 + (b1 - 128) * 64 + (b2 - 128), r)
             else none
         | _ => none
       else if b0 < 245 then
         match rest with
         | b1 :: b2 :: b3 :: r =>
             if (if b0 = 240 then 144 else 128) ≤ b1 &&
                b1 < (if b0 = 244 then 144 else 192) &&
                128 ≤ b2 && b2 < 192 && 128 ≤ b3 && b3 < 192 then
               some ((b0 - 240) * 262144 + (b1 - 128) * 4096 + (b2 - 128) * 64 + (b3 - 128), r)
             else none
         | _ => none
       else none) := by
  conv_lhs => rw [utf8DecodeOne.eq_def]

theorem utf8DecodeOne_encodeChar (c : Nat) (hs : scalarB c) (rest : List Nat) :
    utf8DecodeOne (utf8EncodeChar c ++ rest) = some (c, rest) := by
  unfold scalarB at hs
  simp only [Bool.and_eq_true, Bool.not_eq_true', Bool.and_eq_false_iff,
    decide_eq_true_eq, decide_eq_false_iff_not, not_le, not_lt] at hs
  obtain ⟨hmax, hsur⟩ := hs
  unfold utf8EncodeChar
  by_cases h1 : c < 128
  · simp only [h1, if_true, List.cons_append, List.nil_append]
    rw [utf8DecodeOne_cons, if_pos h1]
  · by_cases h2 : c < 2048
    · simp only [h1, h2, if_false, if_true, List.cons_append, List.nil_append]
      rw [utf8DecodeOne_cons,
        if_neg (by omega : ¬ 192 + c / 64 < 128),
        if_neg (by omega : ¬ 192 + c / 64 < 194),
        if_pos (by omega : 192 + c / 64 < 224)]
      show (if 128 ≤ 128 + c % 64 && 128 + c % 64 < 192 then
          some ((192 + c / 64 - 192) * 64 + (128 + c % 64 - 128), rest) else none) =
        some (c, rest)
      rw [if_pos (by simp only [Bool.and_eq_true, decide_eq_true_eq]; omega :
        (128 ≤ 128 + c % 64 && 128 + c % 64 < 192) = true)]
      refine congrArg some (Prod.ext ?_ rfl)
      show (192 + c / 64 - 192) * 64 + (128 + c % 64 - 128) = c
      omega
    · by_cases h3 : c < 65536
      · simp only [h1, h2, h3, if_false, if_true, List.cons_append, List.nil_append]
        rw [utf8DecodeOne_cons,
          if_neg (by omega : ¬ 224 + c / 4096 < 128),
          if_neg (by omega : ¬ 224 + c / 4096 < 194),
          if_neg (by omega : ¬ 224 + c / 4096 < 224),
          if_pos (by omega : 224 + c / 4096 < 240)]
        show (if (if 224 + c / 4096 = 224 then 160 else 128) ≤ 128 + c / 64 % 64 &&
            128 + c / 64 % 64 < (if 224 + c / 4096 = 237 then 160 else 192) &&
            128 ≤ 128 + c % 64 && 128 + c % 64 < 192 then
          some ((224 + c / 4096 - 224) * 4096 + (128 + c / 64 % 64 - 128) * 64 +
            (128 + c % 64 - 128), rest) else none) = some (c, rest)
        have hguard : ((if 224 + c / 4096 = 224 then 160 else 128) ≤ 128 + c / 64 % 64 &&
            128 + c / 64 % 64 < (if 224 + c / 4096 = 237 then 160 else 192) &&
            128 ≤ 128 + c % 64 && 128 + c % 64 < 192) = true := by
          by_cases he0 : 224 + c / 4096 = 224
          · rw [if_pos he0, if_neg (by omega : ¬ 224 + c / 4096 = 237)]
            simp only [Bool.and_eq_true, decide_eq_true_eq]
            omega
          · rw [if_neg he0]
            by_cases hed : 224 + c / 4096 = 237
            · rw [if_pos hed]
              simp only [Bool.and_eq_true, decide_eq_true_eq]
              rcases hsur with h | h
              all_goals omega
            · rw [if_neg hed]
              simp only [Bool.and_eq_true, decide_eq_true_eq]
              omega
        rw [if_pos hguard]
        refine congrArg some (Prod.ext ?_ rfl)
        show (224 + c / 4096 - 224) * 4096 + (128 + c / 64 % 64 - 128) * 64 +
          (128 + c % 64 - 128) = c
        omega
      · simp only [h1, h2, h3, if_false, List.cons_append, List.nil_append]
        rw [utf8DecodeOne_cons,
          if_neg (by omega : ¬ 240 + c / 262144 < 128),
          if_neg (by omega : ¬ 240 + c / 262144 < 194),
          if_neg (by omega : ¬ 240 + c / 262144 < 224),
          if_neg (by omega : ¬ 240 + c / 262144 < 240),
          if_pos (by omega : 240 + c / 262144 < 245)]
        show (if (if 240 + c / 262144 = 240 then 144 else 128) ≤ 128 + c / 4096 % 64 &&
            128 + c / 4096 % 64 < (if 240 + c / 262144 = 244 then 144 else 192) &&
            128 ≤ 128 + c / 64 % 64 && 128 + c / 64 % 64 < 192 &&
            128 ≤ 128 + c % 64 && 128 + c % 64 < 192 then
          some ((240 + c / 262144 - 240) * 262144 + (128 + c / 4096 % 64 - 128) * 4096 +
            (128 + c / 64 % 64 - 128) * 64 + (128 + c % 64 - 128), rest) else none) =
          some (c, rest)
        have hguard : ((if 240 + c / 262144 = 240 then 144 else 128) ≤ 128 + c / 4096 % 64 &&
            128 + c / 4096 % 64 < (if 240 + c / 262144 = 244 then 144 else 192) &&
            128 ≤ 128 + c / 64 % 64 && 128 + c / 64 % 64 < 192 &&
            128 ≤ 128 + c % 64 && 128 + c % 64 < 192) = true := by
          by_cases hf0 : 240 + c / 262144 = 240
          · rw [if_pos hf0, if_neg (by omega : ¬ 240 + c / 262144 = 244)]
            simp only [Bool.and_eq_true, decide_eq_true_eq]
            omega
          · rw [if_neg hf0]
            by_cases hf4 : 240 + c / 262144 = 244
            · rw [if_pos hf4]
              simp only [Bool.and_eq_true, decide_eq_true_eq]
              omega
            · rw [if_neg hf4]
              simp only [Bool.and_eq_true, decide_eq_true_eq]
              omega
        rw [if_pos hguard]
        refine congrArg some (Prod.ext ?_ rfl)
        show (240 + c / 262144 - 240) * 262144 + (128 + c / 4096 % 64 - 128) * 4096 +
          (128 + c / 64 % 64 - 128) * 64 + (128 + c % 64 - 128) = c
        omega

theorem utf8EncodeChar_ne_nil (c : Nat) : utf8EncodeChar c ≠ [] := by
  unfold utf8EncodeChar
  split_ifs
  all_goals simp

theorem utf8DecodeOne_sound (l : List Nat) (c : Nat) (r : List Nat)
    (h : utf8DecodeOne l = some (c, r)) :
    scalarB c = true ∧ utf8EncodeChar c ++ r = l ∧ r.length < l.length := by
  match l with
  | [] => simp [utf8DecodeOne] at h
  | b0 :: rest =>
      rw [utf8DecodeOne_cons] at h
      by_cases h1 : b0 < 128
      · rw [if_pos h1] at h
        simp only [Option.some.injEq, Prod.mk.injEq] at h
        obtain ⟨hc, hr⟩ := h
        subst hc; subst hr
        refine ⟨by simp [scalarB]; omega, ?_, by simp⟩
        unfold utf8EncodeChar
        rw [if_pos h1]
        simp
      · rw [if_neg h1] at h
        by_cases h2 : b0 < 194
        · rw [if_pos h2] at h; exact absurd h (by simp)
        · rw [if_neg h2] at h
          by_cases h3 : b0 < 224
          · rw [if_pos h3] at h
            match rest with
            | [] => exact absurd h (by simp)
            | b1 :: r1 =>
                replace h : (if 128 ≤ b1 && b1 < 192 then
                    some ((b0 - 192) * 64 + (b1 - 128), r1) else none) = some (c, r) := h
                by_cases hg : (128 ≤ b1 && b1 < 192) = true
                · rw [if_pos hg] at h
                  simp only [Bool.and_eq_true, decide_eq_true_eq] at hg
                  simp only [Option.some.injEq, Prod.mk.injEq] at h
                  obtain ⟨hc, hr⟩ := h
                  subst hc; subst hr
                  refine ⟨by simp [scalarB]; omega, ?_, by simp; omega⟩
                  unfold utf8EncodeChar
                  rw [if_neg (by omega), if_pos (by omega)]
                  have e0 : 192 + ((b0 - 192) * 64 + (b1 - 128)) / 64 = b0 := by omega
                  have e1 : 128 + ((b0 - 192) * 64 + (b1 - 128)) % 64 = b1 := by omega
                  rw [e0, e1]
                  simp
                · rw [if_neg hg] at h; exact absurd h (by simp)
          · rw [if_neg h3] at h
            by_cases h4 : b0 < 240
            · rw [if_pos h4] at h
              match rest with
              | [] => exact absurd h (by simp)
              | [b1] => exact absurd h (by simp)
              | b1 :: b2 :: r2 =>
                  replace h : (if (if b0 = 224 then 160 else 128) ≤ b1 &&
                      b1 < (if b0 = 237 then 160 else 192) &&
                      128 ≤ b2 && b2 < 192 then
                    some ((b0 - 224) * 4096 + (b1 - 128) * 64 + (b2 - 128), r2)
                    else none) = some (c, r) := h
                  by_cases hg : ((if b0 = 224 then 160 else 128) ≤ b1 &&
                      b1 < (if b0 = 237 then 160 else 192) &&
                      128 ≤ b2 && b2 < 192) = true
                  · rw [if_pos hg] at h
                    simp only [Bool.and_eq_true, decide_eq_true_eq] at hg
                    obtain ⟨⟨⟨hg1, hg2⟩, hg3⟩, hg4⟩ := hg
                    simp only [Option.some.injEq, Prod.mk.injEq] at h
                    obtain ⟨hc, hr⟩ := h
                    subst hc; subst hr
                    have hlow : 2048 ≤ (b0 - 224) * 4096 + (b1 - 128) * 64 + (b2 - 128) := by
                      by_cases he : b0 = 224
                      · rw [if_pos he] at hg1; omega
                      · omega
                    have hnosur : (b0 - 224) * 4096 + (b1 - 128) * 64 + (b2 - 128) < 55296 ∨
                        57344 ≤ (b0 - 224) * 4096 + (b1 - 128) * 64 + (b2 - 128) := by
                      by_cases he : b0 = 237
                      · rw [if_pos he] at hg2; left; omega
                      · rw [if_neg he] at hg2
                        by_cases hlt : b0 < 237
                        · left; omega
                        · right; omega
                    have hb1l : 128 ≤ b1 := by
                      by_cases he : b0 = 224
                      · rw [if_pos he] at hg1; omega
                      · rw [if_neg he] at hg1; omega
                    have hb1u : b1 < 192 := by
                      by_cases he : b0 = 237
                      · rw [if_pos he] at hg2; omega
                      · rw [if_neg he] at hg2; omega
                    refine ⟨?_, ?_, by simp; omega⟩
                    · simp only [scalarB, Bool.and_eq_true, Bool.not_eq_true',
                        Bool.and_eq_false_iff, decide_eq_true_eq, decide_eq_false_iff_not,
                        not_le, not_lt]
                      constructor
                      · omega
                      · rcases hnosur with hh | hh
                        · left; omega
                        · right; omega
                    · unfold utf8EncodeChar
                      rw [if_neg (by omega), if_neg (by omega), if_pos (by omega)]
                      have e0 : 224 + ((b0 - 224) * 4096 + (b1 - 128) * 64 + (b2 - 128)) / 4096
                          = b0 := by omega
                      have e1 : 128 + ((b0 - 224) * 4096 + (b1 - 128) * 64 + (b2 - 128)) / 64 % 64
                          = b1 := by omega
                      have e2 : 128 + ((b0 - 224) * 4096 + (b1 - 128) * 64 + (b2 - 128)) % 64
                          = b2 := by omega
                      rw [e0, e1, e2]
                      simp
                  · rw [if_neg hg] at h; exact absurd h (by simp)
            · rw [if_neg h4] at h
              by_cases h5 : b0 < 245
              · rw [if_pos h5] at h
                match rest with
                | [] => exact absurd h (by simp)
                | [b1] => exact absurd h (by simp)
                | [b1, b2] => exact absurd h (by simp)
                | b1 :: b2 :: b3 :: r3 =>
                    replace h : (if (if b0 = 240 then 144 else 128) ≤ b1 &&
                        b1 < (if b0 = 244 then 144 else 192) &&
                        128 ≤ b2 && b2 < 192 && 128 ≤ b3 && b3 < 192 then
                      some ((b0 - 240) * 262144 + (b1 - 128) * 4096 +
                        (b2 - 128) * 64 + (b3 - 128), r3)
                      else none) = some (c, r) := h
                    by_cases hg : ((if b0 = 240 then 144 else 128) ≤ b1 &&
                        b1 < (if b0 = 244 then 144 else 192) &&
                        128 ≤ b2 && b2 < 192 && 128 ≤ b3 && b3 < 192) = true
                    · rw [if_pos hg] at h
                      simp only [Bool.and_eq_true, decide_eq_true_eq] at hg
                      obtain ⟨⟨⟨⟨⟨hg1, hg2⟩, hg3⟩, hg4⟩, hg5⟩, hg6⟩ := hg
                      simp only [Option.some.injEq, Prod.mk.injEq] at h
                      obtain ⟨hc, hr⟩ := h
                      subst hc; subst hr
                      have hlow : 65536 ≤ (b0 - 240) * 262144 + (b1 - 128) * 4096 +
                          (b2 - 128) * 64 + (b3 - 128) := by
                        by_cases he : b0 = 240
                        · rw [if_pos he] at hg1; omega
                        · omega
                      have hb1l : 128 ≤ b1 := by
                        by_cases he : b0 = 240
                        · rw [if_pos he] at hg1; omega
                        · rw [if_neg he] at hg1; omega
                      have hb1u : b1 < 192 := by
                        by_cases he : b0 = 244
                        · rw [if_pos he] at hg2; omega
                        · rw [if_neg he] at hg2; omega
                      have hhigh : (b0 - 240) * 262144 + (b1 - 128) * 4096 +
                          (b2 - 128) * 64 + (b3 - 128) < 1114112 := by
                        by_cases he : b0 = 244
                        · rw [if_pos he] at hg2; omega
                        · by_cases hlt : b0 < 244
                          · omega
                          · omega
                      refine ⟨?_, ?_, by simp; omega⟩
                      · simp only [scalarB, Bool.and_eq_true, Bool.not_eq_true',
                          Bool.and_eq_false_iff, decide_eq_true_eq, decide_eq_false_iff_not,
                          not_le, not_lt]
                        refine ⟨hhigh, Or.inr ?_⟩
                        omega
                      · unfold utf8EncodeChar
                        rw [if_neg (by omega), if_neg (by omega), if_neg (by omega)]
                        have e0 : 240 + ((b0 - 240) * 262144 + (b1 - 128) * 4096 +
                            (b2 - 128) * 64 + (b3 - 128)) / 262144 = b0 := by omega
                        have e1 : 128 + ((b0 - 240) * 262144 + (b1 - 128) * 4096 +
                            (b2 - 128) * 64 + (b3 - 128)) / 4096 % 64 = b1 := by omega
                        have e2 : 128 + ((b0 - 240) * 262144 + (b1 - 128) * 4096 +
                            (b2 - 128) * 64 + (b3 - 128)) / 64 % 64 = b2 := by omega
                        have e3 : 128 + ((b0 - 240) * 262144 + (b1 - 128) * 4096 +
                            (b2 - 128) * 64 + (b3 - 128)) % 64 = b3 := by omega
                        rw [e0, e1, e2, e3]
                        simp
                    · rw [if_neg hg] at h; exact absurd h (by simp)
              · rw [if_neg h5] at h; exact absurd h (by simp)

theorem utf8Loop_cons (f : Nat) (b : Nat) (t : List Nat) :
    utf8Loop (f + 1) (b :: t) =
      (match utf8DecodeOne (b :: t) with
       | some (c, rest) => (utf8Loop f rest).map (fun cs => c :: cs)
       | none => none) := by
  conv_lhs => rw [utf8Loop.eq_def]

theorem utf8Loop_encode (cps : List Nat) :
    ∀ f, cps.all scalarB → (utf8Bytes cps).length ≤ f →
      utf8Loop f (utf8Bytes cps) = some cps := by
  induction cps with
  | nil =>
      intro f hall hf
      show utf8Loop f [] = some []
      match f with
      | 0 => rfl
      | g + 1 => rfl
  | cons c cs ih =>
      intro f hall hf
      simp only [List.all_cons, Bool.and_eq_true] at hall
      have hbytes : utf8Bytes (c :: cs) = utf8EncodeChar c ++ utf8Bytes cs := by
        simp [utf8Bytes]
      rw [hbytes] at hf ⊢
      match henc : utf8EncodeChar c with
      | [] => exact absurd henc (utf8EncodeChar_ne_nil c)
      | b :: t =>
          rw [henc] at hf
          match f with
          | 0 => simp at hf
          | g + 1 =>
              simp only [List.cons_append]
              rw [utf8Loop_cons]
              have hdec := utf8DecodeOne_encodeChar c hall.1 (utf8Bytes cs)
              rw [henc] at hdec
              simp only [List.cons_append] at hdec
              rw [hdec]
              have hg : (utf8Bytes cs).length ≤ g := by
                simp only [List.length_append, List.length_cons] at hf
                omega
              show (utf8Loop g (utf8Bytes cs)).map (fun l => c :: l) = some (c :: cs)
              rw [ih g hall.2 hg]
              rfl

theorem utf8DecodeAll_encode (cps : List Nat) (hall : cps.all scalarB) :
    utf8DecodeAll (utf8Bytes cps) = some cps :=
  utf8Loop_encode cps (utf8Bytes cps).length hall (le_refl _)

theorem utf8Loop_sound (f : Nat) :
    ∀ bs cps, utf8Loop f bs = some cps → utf8Bytes cps = bs ∧ cps.all scalarB := by
  induction f with
  | zero =>
      intro bs cps h
      match bs with
      | [] =>
          replace h : some [] = some cps := h
          simp only [Option.some.injEq] at h
          subst h
          exact ⟨rfl, rfl⟩
      | b :: t => exact absurd h (by rw [utf8Loop]; simp)
  | succ f ih =>
      intro bs cps h
      match bs with
      | [] =>
          replace h : some [] = some cps := h
          simp only [Option.some.injEq] at h
          subst h
          exact ⟨rfl, rfl⟩
      | b :: t =>
          rw [utf8Loop_cons] at h
          match hdec : utf8DecodeOne (b :: t) with
          | none => rw [hdec] at h; exact absurd h (by simp)
          | some (c, rest) =>
              rw [hdec] at h
              replace h : (utf8Loop f rest).map (fun l => c :: l) = some cps := h
              match hloop : utf8Loop f rest with
              | none => rw [hloop] at h; exact absurd h (by simp)
              | some cs =>
                  rw [hloop] at h
                  simp only [Option.map_some', Option.some.injEq] at h
                  subst h
                  obtain ⟨hsc, henc, _⟩ := utf8DecodeOne_sound _ _ _ hdec
                  obtain ⟨hbytes, hall⟩ := ih rest cs hloop
                  constructor
                  · show utf8Bytes (c :: cs) = b :: t
                    simp only [utf8Bytes, List.map_cons, List.flatten_cons]
                    rw [show (cs.map utf8EncodeChar).flatten = utf8Bytes cs from rfl, hbytes]
                    exact henc
                  · simp [List.all_cons, hsc, hall]

theorem utf8DecodeAll_sound (bs cps : List Nat) (h : utf8DecodeAll bs = some cps) :
    utf8Bytes cps = bs ∧ cps.all scalarB :=
  utf8Loop_sound bs.length bs cps h

/-! ### Well-formedness of encodable values -/

/-- Key has the bytes type. -/
def keyIsBytes (k : PyVal) : Bool :=
  match k with
  | .bytes _ => true
  | _ => false

/-- Key has the str type with only scalar code points. -/
def keyIsStr (k : PyVal) : Bool :=
  match k with
  | .str s => s.all scalarB
  | _ => false

/-- Raw payload of a str or bytes key. -/
def keyPayload (k : PyVal) : List Nat :=
  match k with
  | .bytes bs => bs
  | .str s => s
  | _ => []

/-- Membership test among payload lists. -/
def containsB (x : List Nat) : List (List Nat) → Bool
  | [] => false
  | y :: ys => x == y || containsB x ys

/-- No duplicates among the listed payloads. -/
def nodupB : List (List Nat) → Bool
  | [] => true
  | x :: xs => !containsB x xs && nodupB xs

/-- The keys of a dict are homogeneous (all bytes, or all scalar str) and
pairwise distinct, which is what makes the Python sort succeed and makes
an insertion-ordered dict a genuine mapping. -/
def dictKeysOk (d : List (PyVal × PyVal)) : Bool :=
  (d.all (fun kv => keyIsBytes kv.1) || d.all (fun kv => keyIsStr kv.1)) &&
    nodupB (d.map (fun kv => keyPayload kv.1))

mutual
/-- Values on which the source encode must succeed: recursively built from
the recognized variants, every str free of surrogates, every dict with
homogeneous distinct keys. -/
def wfEnc : PyVal → Bool
  | .int _ => true
  | .bool _ => true
  | .str s => s.all scalarB
  | .bytes _ => true
  | .list xs => wfEncList xs
  | .dict d => dictKeysOk d && wfEncPairs d
  | .noneV => false
termination_by structural v => v
def wfEncList : List PyVal → Bool
  | [] => true
  | x :: xs => wfEnc x && wfEncList xs
termination_by structural l => l
def wfEncPairs : List (PyVal × PyVal) → Bool
  | [] => true
  | (k, v) :: rest => wfEnc k && wfEnc v && wfEncPairs rest
termination_by structural l => l
end

mutual
/-- Values of the model of the specification (integers, byte strings,
lists, dicts, with byte-string keys): the domain of the round-trip claim. -/
def wfRT : PyVal → Bool
  | .int _ => true
  | .bool _ => false
  | .str _ => false
  | .bytes _ => true
  | .list xs => wfRTList xs
  | .dict d => d.all (fun kv => keyIsBytes kv.1) && nodupB (d.map (fun kv => keyPayload kv.1)) &&
      wfRTPairs d
  | .noneV => false
termination_by structural v => v
def wfRTList : List PyVal → Bool
  | [] => true
  | x :: xs => wfRT x && wfRTList xs
termination_by structural l => l
def wfRTPairs : List (PyVal × PyVal) → Bool
  | [] => true
  | (k, v) :: rest => wfRT k && wfRT v && wfRTPairs rest
termination_by structural l => l
end

/-- Decoded form of a length-prefixed payload: text when the bytes are
valid UTF-8, raw bytes otherwise (the fallback of _decode_str). -/
def strOrBytes (payload : List Nat) : PyVal :=
  match utf8DecodeAll payload with
  | some cps => .str cps
  | none => .bytes payload

mutual
/-- The text/bytes equivalence policy of the specification, extended with
the two other identifications the codec makes: a byte string is identified
with its valid-UTF-8 text form, a bool with its 0/1 integer form, and a
dict with any reordering of its entries (entries related pairwise). -/
inductive TBE : PyVal → PyVal → Prop where
  | int (n : Int) : TBE (.int n) (.int n)
  | bool (b : Bool) : TBE (.bool b) (.int (if b then 1 else 0))
  | str (s : List Nat) : TBE (.str s) (.str s)
  | bytesTxt (bs cps : List Nat) : utf8DecodeAll bs = some cps → TBE (.bytes bs) (.str cps)
  | bytesRaw (bs : List Nat) : utf8DecodeAll bs = none → TBE (.bytes bs) (.bytes bs)
  | list (xs ys : List PyVal) : TBEList xs ys → TBE (.list xs) (.list ys)
  | dict (d sd e : List (PyVal × PyVal)) : d.Perm sd → TBEPairs sd e →
      TBE (.dict d) (.dict e)
/-- Pointwise `TBE` on lists. -/
inductive TBEList : List PyVal → List PyVal → Prop where
  | nil : TBEList [] []
  | cons (x y : PyVal) (xs ys : List PyVal) :
      TBE x y → TBEList xs ys → TBEList (x :: xs) (y :: ys)
/-- Pointwise `TBE` on both components of entry lists. -/
inductive TBEPairs : List (PyVal × PyVal) → List (PyVal × PyVal) → Prop where
  | nil : TBEPairs [] []
  | cons (k wk v wv : PyVal) (d e : List (PyVal × PyVal)) :
      TBE k wk → TBE v wv → TBEPairs d e → TBEPairs ((k, v) :: d) ((wk, wv) :: e)
end

/-! ### Shape lemmas about encoder output -/

theorem natRepr_head :
    ∀ n, ∃ b t, natRepr n = b :: t ∧ isDigitB b = true := by
  intro n
  match hrep : natRepr n with
  | [] => exact absurd hrep (natRepr_ne_nil n)
  | b :: t =>
      refine ⟨b, t, rfl, ?_⟩
      have := natRepr_all_digit n
      rw [hrep] at this
      simp only [List.all_cons, Bool.and_eq_true] at this
      exact this.1

theorem not_mem_natRepr (n t : Nat) (ht : 58 ≤ t) : t ∉ natRepr n := by
  intro hmem
  have := digit_mem_bounds _ (natRepr_all_digit n) t hmem
  omega

theorem not_mem_intRepr (n : Int) (t : Nat) (ht : 58 ≤ t) : t ∉ intRepr n := by
  intro hmem
  rcases intRepr_bounds n t hmem with h | h
  · omega
  · omega

theorem bytesIsdigit_single (b : Nat) : bytesIsdigit [b] = isDigitB b := by
  simp [bytesIsdigit]

theorem vsize_pos (v : PyVal) : 1 ≤ vsize v := by
  cases v <;> simp [vsize]

/-! ### Inversion lemmas for the fueled encoder -/

theorem encodeF_int_inv (f : Nat) (n : Int) (r : Except PyExc (List Nat))
    (h : encodeF f (.int n) = some r) : r = .ok (_encode_int n) := by
  match f with
  | 0 => exact absurd h (by rw [encodeF]; simp)
  | g + 1 =>
      replace h : some (.ok (_encode_int n)) = some r := h
      simp only [Option.some.injEq] at h
      exact h.symm

theorem encodeF_bool_inv (f : Nat) (b : Bool) (r : Except PyExc (List Nat))
    (h : encodeF f (.bool b) = some r) : r = .ok (_encode_bool b) := by
  match f with
  | 0 => exact absurd h (by rw [encodeF]; simp)
  | g + 1 =>
      replace h : some (.ok (_encode_bool b)) = some r := h
      simp only [Option.some.injEq] at h
      exact h.symm

theorem encodeF_bytes_inv (f : Nat) (bs : List Nat) (r : Except PyExc (List Nat))
    (h : encodeF f (.bytes bs) = some r) : r = .ok (_encode_bytes bs) := by
  match f with
  | 0 => exact absurd h (by rw [encodeF]; simp)
  | g + 1 =>
      replace h : some (.ok (_encode_bytes bs)) = some r := h
      simp only [Option.some.injEq] at h
      exact h.symm

theorem encodeF_str_inv (f : Nat) (s : List Nat) (r : Except PyExc (List Nat))
    (h : encodeF f (.str s) = some r) (hs : s.all scalarB = true) :
    r = .ok (_encode_bytes (utf8Bytes s)) := by
  match f with
  | 0 => exact absurd h (by rw [encodeF]; simp)
  | g + 1 =>
      replace h : some (_encode_str s) = some r := h
      simp only [Option.some.injEq] at h
      rw [← h]
      unfold _encode_str pyUtf8Encode
      rw [if_pos hs]

theorem encodeF_noneV_inv (f : Nat) (r : Except PyExc (List Nat))
    (h : encodeF f (.noneV) = some r) : r = .error .bencodeEncodeError := by
  match f with
  | 0 => exact absurd h (by rw [encodeF]; simp)
  | g + 1 =>
      replace h : some (.error .bencodeEncodeError) = some r := h
      simp only [Option.some.injEq] at h
      exact h.symm

theorem encodeF_list_inv (f : Nat) (xs : List PyVal) (bs : List Nat)
    (h : encodeF f (.list xs) = some (.ok bs)) :
    ∃ g body, f = g + 1 ∧ encListF g xs = some (.ok body) ∧ bs = 108 :: body ++ [101] := by
  match f with
  | 0 => exact absurd h (by rw [encodeF]; simp)
  | g + 1 =>
      replace h : (match encListF g xs with
        | none => (none : Option (Except PyExc (List Nat)))
        | some (Except.error e) => some (Except.error e)
        | some (Except.ok body) => some (Except.ok (108 :: body ++ [101]))) =
          some (Except.ok bs) := h
      match hl : encListF g xs with
      | none => rw [hl] at h; exact absurd h (by simp)
      | some (.error e) =>
          rw [hl] at h
          replace h : some (Except.error e) = some (Except.ok bs) := h
          simp at h
      | some (.ok body) =>
          rw [hl] at h
          replace h : some (Except.ok (108 :: body ++ [101])) = some (Except.ok bs) := h
          simp only [Option.some.injEq, Except.ok.injEq] at h
          exact ⟨g, body, rfl, hl, h.symm⟩

theorem encodeF_dict_inv (f : Nat) (d : List (PyVal × PyVal)) (bs : List Nat)
    (h : encodeF f (.dict d) = some (.ok bs)) :
    ∃ g sd body, f = g + 1 ∧ sortPairs d = .ok sd ∧
      encPairsF g (dictFromPairs sd) = some (.ok body) ∧ bs = 100 :: body ++ [101] := by
  match f with
  | 0 => exact absurd h (by rw [encodeF]; simp)
  | g + 1 =>
      replace h : (match sortPairs d with
        | Except.error e => some (Except.error e)
        | Except.ok sd =>
            match encPairsF g (dictFromPairs sd) with
            | none => (none : Option (Except PyExc (List Nat)))
            | some (Except.error e) => some (Except.error e)
            | some (Except.ok body) => some (Except.ok (100 :: body ++ [101]))) =
          some (Except.ok bs) := h
      match hs : sortPairs d with
      | .error e =>
          rw [hs] at h
          replace h : some (Except.error e) = some (Except.ok bs) := h
          simp at h
      | .ok sd =>
          rw [hs] at h
          replace h : (match encPairsF g (dictFromPairs sd) with
            | none => (none : Option (Except PyExc (List Nat)))
            | some (Except.error e) => some (Except.error e)
            | some (Except.ok body) => some (Except.ok (100 :: body ++ [101]))) =
              some (Except.ok bs) := h
          match hp : encPairsF g (dictFromPairs sd) with
          | none => rw [hp] at h; exact absurd h (by simp)
          | some (.error e) =>
              rw [hp] at h
              replace h : some (Except.error e) = some (Except.ok bs) := h
              simp at h
          | some (.ok body) =>
              rw [hp] at h
              replace h : some (Except.ok (100 :: body ++ [101])) = some (Except.ok bs) := h
              simp only [Option.some.injEq, Except.ok.injEq] at h
              exact ⟨g, sd, body, rfl, rfl, hp, h.symm⟩

theorem encListF_nil_inv (f : Nat) (body : List Nat)
    (h : encListF f [] = some (.ok body)) : body = [] := by
  match f with
  | 0 => exact absurd h (by rw [encListF]; simp)
  | g + 1 =>
      replace h : some (Except.ok ([] : List Nat)) = some (Except.ok body) := h
      simp only [Option.some.injEq, Except.ok.injEq] at h
      exact h.symm

theorem encListF_cons_inv (f : Nat) (x : PyVal) (xs : List PyVal) (body : List Nat)
    (h : encListF f (x :: xs) = some (.ok body)) :
    ∃ g bx rest, f = g + 1 ∧ encodeF g x = some (.ok bx) ∧
      encListF g xs = some (.ok rest) ∧ body = bx ++ rest := by
  match f with
  | 0 => exact absurd h (by rw [encListF]; simp)
  | g + 1 =>
      replace h : (match encodeF g x with
        | none => (none : Option (Except PyExc (List Nat)))
        | some (Except.error e) => some (Except.error e)
        | some (Except.ok bx) =>
            match encListF g xs with
            | none => none
            | some (Except.error e) => some (Except.error e)
            | some (Except.ok rest) => some (Except.ok (bx ++ rest))) =
          some (Except.ok body) := h
      match hx : encodeF g x with
      | none => rw [hx] at h; exact absurd h (by simp)
      | some (.error e) =>
          rw [hx] at h
          replace h : some (Except.error e) = some (Except.ok body) := h
          simp at h
      | some (.ok bx) =>
          rw [hx] at h
          replace h : (match encListF g xs with
            | none => (none : Option (Except PyExc (List Nat)))
            | some (Except.error e) => some (Except.error e)
            | some (Except.ok rest) => some (Except.ok (bx ++ rest))) =
              some (Except.ok body) := h
          match hl : encListF g xs with
          | none => rw [hl] at h; exact absurd h (by simp)
          | some (.error e) =>
              rw [hl] at h
              replace h : some (Except.error e) = some (Except.ok body) := h
              simp at h
          | some (.ok rest) =>
              rw [hl] at h
              replace h : some (Except.ok (bx ++ rest)) = some (Except.ok body) := h
              simp only [Option.some.injEq, Except.ok.injEq] at h
              exact ⟨g, bx, rest, rfl, hx, hl, h.symm⟩

theorem encPairsF_nil_inv (f : Nat) (body : List Nat)
    (h : encPairsF f [] = some (.ok body)) : body = [] := by
  match f with
  | 0 => exact absurd h (by rw [encPairsF]; simp)
  | g + 1 =>
      replace h : some (Except.ok ([] : List Nat)) = some (Except.ok body) := h
      simp only [Option.some.injEq, Except.ok.injEq] at h
      exact h.symm

theorem encPairsF_cons_inv (f : Nat) (k v : PyVal) (d : List (PyVal × PyVal)) (body : List Nat)
    (h : encPairsF f ((k, v) :: d) = some (.ok body)) :
    ∃ g bk bv rest, f = g + 1 ∧ encodeF g k = some (.ok bk) ∧
      encodeF g v = some (.ok bv) ∧ encPairsF g d = some (.ok rest) ∧
      body = bk ++ bv ++ rest := by
  match f with
  | 0 => exact absurd h (by rw [encPairsF]; simp)
  | g + 1 =>
      replace h : (match encodeF g k with
        | none => (none : Option (Except PyExc (List Nat)))
        | some (Except.error e) => some (Except.error e)
        | some (Except.ok bk) =>
            match encodeF g v with
            | none => none
            | some (Except.error e) => some (Except.error e)
            | some (Except.ok bv) =>
                match encPairsF g d with
                | none => none
                | some (Except.error e) => some (Except.error e)
                | some (Except.ok rest) => some (Except.ok (bk ++ bv ++ rest))) =
          some (Except.ok body) := h
      match hk : encodeF g k with
      | none => rw [hk] at h; exact absurd h (by simp)
      | some (.error e) =>
          rw [hk] at h
          replace h : some (Except.error e) = some (Except.ok body) := h
          simp at h
      | some (.ok bk) =>
          rw [hk] at h
          replace h : (match encodeF g v with
            | none => (none : Option (Except PyExc (List Nat)))
            | some (Except.error e) => some (Except.error e)
            | some (Except.ok bv) =>
                match encPairsF g d with
                | none => none
                | some (Except.error e) => some (Except.error e)
                | some (Except.ok rest) => some (Except.ok (bk ++ bv ++ rest))) =
              some (Except.ok body) := h
          match hv : encodeF g v with
          | none => rw [hv] at h; exact absurd h (by simp)
          | some (.error e) =>
              rw [hv] at h
              replace h : some (Except.error e) = some (Except.ok body) := h
              simp at h
          | some (.ok bv) =>
              rw [hv] at h
              replace h : (match encPairsF g d with
                | none => (none : Option (Except PyExc (List Nat)))
                | some (Except.error e) => some (Except.error e)
                | some (Except.ok rest) => some (Except.ok (bk ++ bv ++ rest))) =
                  some (Except.ok body) := h
              match hd : encPairsF g d with
              | none => rw [hd] at h; exact absurd h (by simp)
              | some (.error e) =>
                  rw [hd] at h
                  replace h : some (Except.error e) = some (Except.ok body) := h
                  simp at h
              | some (.ok rest) =>
                  rw [hd] at h
                  replace h : some (Except.ok (bk ++ bv ++ rest)) = some (Except.ok body) := h
                  simp only [Option.some.injEq, Except.ok.injEq] at h
                  exact ⟨g, bk, bv, rest, rfl, hk, hv, hd, h.symm⟩

/-! ### One-value parse lemmas on encoder output -/

theorem decode_int_at (n : Int) (pre rest : List Nat) :
    _decode_int (pre ++ (_encode_int n ++ rest)) (pre.length : Int) =
      .ok (.int n, ((pre.length + (_encode_int n).length : Nat) : Int)) := by
  have hshape : pre ++ (_encode_int n ++ rest) =
      (pre ++ [105]) ++ (intRepr n ++ 101 :: rest) := by
    simp [_encode_int]
  have hcur : (pre.length : Int) + 1 = (((pre ++ [105]).length : Nat) : Int) := by
    simp
  have hidx := pyIndexByte_seg (pre ++ [105]) (intRepr n) rest 101
    (not_mem_intRepr n 101 (by omega))
  have hslice : pySlice ((pre ++ [105]) ++ (intRepr n ++ 101 :: rest))
      ((((pre ++ [105]).length : Nat) : Int))
      ((((pre ++ [105]).length + (intRepr n).length : Nat) : Int)) = intRepr n := by
    have hs := pySlice_seg (pre ++ [105]) (intRepr n) (101 :: rest)
    have hc : (((pre ++ [105]).length : Nat) : Int) + ((intRepr n).length : Int) =
        ((((pre ++ [105]).length + (intRepr n).length : Nat)) : Int) := by push_cast; ring
    rw [hc] at hs
    have hassoc : pre ++ [105] ++ intRepr n ++ 101 :: rest =
        (pre ++ [105]) ++ (intRepr n ++ 101 :: rest) := by
      simp [List.append_assoc]
    rw [hassoc] at hs
    exact hs
  unfold _decode_int
  rw [hshape, hcur]
  split
  · rename_i e heq
    rw [hidx] at heq
    exact absurd heq (by simp)
  · rename_i end_idx heq
    rw [hidx] at heq
    replace heq : ((((pre ++ [105]).length + (intRepr n).length : Nat)) : Int) = end_idx := by
      simpa using heq
    rw [← heq, hslice, pyInt_intRepr]
    refine congrArg Except.ok (Prod.ext rfl ?_)
    show ((((pre ++ [105]).length + (intRepr n).length : Nat)) : Int) + 1 =
      ((pre.length + (_encode_int n).length : Nat) : Int)
    have hl : (_encode_int n).length = (intRepr n).length + 2 := by
      simp [_encode_int]
    rw [hl]
    push_cast
    simp
    ring

theorem decode_str_at (payload : List Nat) (pre rest : List Nat) :
    _decode_str (pre ++ (_encode_bytes payload ++ rest)) (pre.length : Int) =
      .ok (strOrBytes payload,
        ((pre.length + (_encode_bytes payload).length : Nat) : Int)) := by
  have hshape : pre ++ (_encode_bytes payload ++ rest) =
      pre ++ (natRepr payload.length ++ 58 :: (payload ++ rest)) := by
    simp [_encode_bytes]
  have hidx := pyIndexByte_seg pre (natRepr payload.length) (payload ++ rest) 58
    (not_mem_natRepr payload.length 58 (by omega))
  have hlenslice : pySlice (pre ++ (natRepr payload.length ++ 58 :: (payload ++ rest)))
      ((pre.length : Nat) : Int)
      (((pre.length + (natRepr payload.length).length : Nat) : Int)) =
      natRepr payload.length := by
    have hs := pySlice_seg pre (natRepr payload.length) (58 :: (payload ++ rest))
    have hc : (pre.length : Int) + ((natRepr payload.length).length : Int) =
        (((pre.length + (natRepr payload.length).length : Nat)) : Int) := by push_cast; ring
    rw [hc] at hs
    have hassoc : pre ++ natRepr payload.length ++ 58 :: (payload ++ rest) =
        pre ++ (natRepr payload.length ++ 58 :: (payload ++ rest)) := by
      simp [List.append_assoc]
    rw [hassoc] at hs
    exact hs
  have hpayslice : pySlice (pre ++ (natRepr payload.length ++ 58 :: (payload ++ rest)))
      ((((pre.length + (natRepr payload.length).length : Nat) : Int)) + 1)
      ((((pre.length + (natRepr payload.length).length : Nat) : Int)) + 1 + (payload.length : Int)) =
      payload := by
    have hs := pySlice_seg (pre ++ natRepr payload.length ++ [58]) payload rest
    have hd1 : pre ++ natRepr payload.length ++ [58] ++ payload ++ rest =
        pre ++ (natRepr payload.length ++ 58 :: (payload ++ rest)) := by
      simp [List.append_assoc]
    rw [hd1] at hs
    have hd2 : ((pre ++ natRepr payload.length ++ [58]).length : Int) =
        (((pre.length + (natRepr payload.length).length : Nat) : Int)) + 1 := by
      simp
      ring
    rw [hd2] at hs
    have hd3 : (((pre.length + (natRepr payload.length).length : Nat) : Int)) + 1 +
        ((payload.length : Nat) : Int) =
        (((pre.length + (natRepr payload.length).length : Nat) : Int)) + 1 +
          (payload.length : Int) := by
      push_cast
      ring
    rw [hd3] at hs
    exact hs
  have hpos : (((pre.length + (natRepr payload.length).length : Nat) : Int)) + 1 +
      (payload.length : Int) =
      ((pre.length + (_encode_bytes payload).length : Nat) : Int) := by
    have hl : (_encode_bytes payload).length =
        (natRepr payload.length).length + 1 + payload.length := by
      simp [_encode_bytes]
      omega
    rw [hl]
    push_cast
    ring
  unfold _decode_str
  rw [hshape]
  split
  · rename_i e heq
    rw [hidx] at heq
    exact absurd heq (by simp)
  · rename_i colon_idx heq
    rw [hidx] at heq
    replace heq : (((pre.length + (natRepr payload.length).length : Nat)) : Int) = colon_idx := by
      simpa using heq
    rw [← heq, hlenslice, pyInt_natRepr]
    split
    · rename_i e hlen
      exact absurd hlen (by simp)
    · rename_i len hlen
      replace hlen : (payload.length : Int) = len := by simpa using hlen
      rw [← hlen]
      show (match utf8DecodeAll (pySlice (pre ++ (natRepr payload.length ++ 58 :: (payload ++ rest)))
          ((((pre.length + (natRepr payload.length).length : Nat)) : Int) + 1)
          ((((pre.length + (natRepr payload.length).length : Nat)) : Int) + 1 + (payload.length : Int))) with
        | some cps => Except.ok (PyVal.str cps,
            (((pre.length + (natRepr payload.length).length : Nat)) : Int) + 1 + (payload.length : Int))
        | none => Except.ok (PyVal.bytes
            (pySlice (pre ++ (natRepr payload.length ++ 58 :: (payload ++ rest)))
              ((((pre.length + (natRepr payload.length).length : Nat)) : Int) + 1)
              ((((pre.length + (natRepr payload.length).length : Nat)) : Int) + 1 + (payload.length : Int))),
            (((pre.length + (natRepr payload.length).length : Nat)) : Int) + 1 + (payload.length : Int))) =
        Except.ok (strOrBytes payload, ((pre.length + (_encode_bytes payload).length : Nat) : Int))
      rw [hpayslice, hpos]
      unfold strOrBytes
      split
      · rfl
      · rfl

/-! ### Unfolding equations for the fueled decoder -/

theorem _decode_succ (f : Nat) (data : List Nat) (i : Int) :
    _decode (f + 1) data i =
      (if pySlice data i (i + 1) = [105] then some (_decode_int data i)
       else if bytesIsdigit (pySlice data i (i + 1)) then some (_decode_str data i)
       else if pySlice data i (i + 1) = [100] then _decode_dictLoop f data (i + 1) []
       else if pySlice data i (i + 1) = [108] then _decode_listLoop f data (i + 1) []
       else some (.error .bencodeDecodeError)) := rfl

theorem _decode_listLoop_succ (f : Nat) (data : List Nat) (i : Int) (items : List PyVal) :
    _decode_listLoop (f + 1) data i items =
      (if pySlice data i (i + 1) = [101] then some (.ok (.list items, i + 1))
       else
         match _decode f data i with
         | none => none
         | some (.error e) => some (.error e)
         | some (.ok (item, i2)) => _decode_listLoop f data i2 (items ++ [item])) := rfl

theorem _decode_dictLoop_succ (f : Nat) (data : List Nat) (i : Int)
    (result : List (PyVal × PyVal)) :
    _decode_dictLoop (f + 1) data i result =
      (if pySlice data i (i + 1) = [101] then some (.ok (.dict result, i + 1))
       else
         match _decode_str data i with
         | .error e => some (.error e)
         | .ok (key, i1) =>
             match _decode f data i1 with
             | none => none
             | some (.error e) => some (.error e)
             | some (.ok (v, i2)) => _decode_dictLoop f data i2 (dictSet result key v)) := rfl

/-! ### First byte of encoder output -/

theorem encodeF_ok_head (f : Nat) (v : PyVal) (bs : List Nat)
    (h : encodeF f v = some (.ok bs)) :
    ∃ b t, bs = b :: t ∧ b ≠ 101 := by
  match f with
  | 0 => exact absurd h (by rw [encodeF]; simp)
  | g + 1 =>
      match v with
      | .int n =>
          have := encodeF_int_inv (g + 1) n _ h
          simp only [Except.ok.injEq] at this
          refine ⟨105, intRepr n ++ [101], ?_, by omega⟩
          rw [this]
          rfl
      | .bool b =>
          have := encodeF_bool_inv (g + 1) b _ h
          simp only [Except.ok.injEq] at this
          refine ⟨105, intRepr (if b then 1 else 0) ++ [101], ?_, by omega⟩
          rw [this]
          rfl
      | .bytes p =>
          have := encodeF_bytes_inv (g + 1) p _ h
          simp only [Except.ok.injEq] at this
          obtain ⟨b, t, hrep, hdig⟩ := natRepr_head p.length
          refine ⟨b, t ++ 58 :: p, ?_, ?_⟩
          · rw [this]
            unfold _encode_bytes
            rw [hrep]
            rfl
          · simp only [isDigitB, Bool.and_eq_true, decide_eq_true_eq] at hdig
            omega
      | .str s =>
          replace h : some (_encode_str s) = some (Except.ok bs) := h
          simp only [Option.some.injEq] at h
          unfold _encode_str at h
          match hc : pyUtf8Encode s with
          | .error e => rw [hc] at h; exact absurd h (by simp)
          | .ok bytes0 =>
              rw [hc] at h
              simp only [Except.ok.injEq] at h
              obtain ⟨b, t, hrep, hdig⟩ := natRepr_head bytes0.length
              refine ⟨b, t ++ 58 :: bytes0, ?_, ?_⟩
              · rw [← h]
                unfold _encode_bytes
                rw [hrep]
                rfl
              · simp only [isDigitB, Bool.and_eq_true, decide_eq_true_eq] at hdig
                omega
      | .list xs =>
          obtain ⟨g2, body, _, _, hbs⟩ := encodeF_list_inv (g + 1) xs bs h
          exact ⟨108, body ++ [101], by simpa using hbs, by omega⟩
      | .dict d =>
          obtain ⟨g2, sd, body, _, _, _, hbs⟩ := encodeF_dict_inv (g + 1) d bs h
          exact ⟨100, body ++ [101], by simpa using hbs, by omega⟩
      | .noneV =>
          have := encodeF_noneV_inv (g + 1) _ h
          simp at this

/-! ### Size bookkeeping -/

theorem vsizeList_mem (xs : List PyVal) (x : PyVal) (h : x ∈ xs) :
    vsize x < vsizeList xs := by
  induction xs with
  | nil => simp at h
  | cons y ys ih =>
      rcases List.mem_cons.mp h with rfl | hmem
      · show vsize x < 1 + vsize x + vsizeList ys
        omega
      · have := ih hmem
        show vsize x < 1 + vsize y + vsizeList ys
        omega

theorem vsizePairs_mem (d : List (PyVal × PyVal)) (k v : PyVal) (h : (k, v) ∈ d) :
    vsize k + vsize v < vsizePairs d := by
  induction d with
  | nil => simp at h
  | cons p ps ih =>
      rcases List.mem_cons.mp h with heq | hmem
      · obtain ⟨k0, v0⟩ := p
        injection heq with h1 h2
        subst h1; subst h2
        show vsize k + vsize v < 1 + vsize k + vsize v + vsizePairs ps
        omega
      · have := ih hmem
        obtain ⟨k0, v0⟩ := p
        show vsize k + vsize v < 1 + vsize k0 + vsize v0 + vsizePairs ps
        omega

theorem vsizePairs_perm (d1 d2 : List (PyVal × PyVal)) (h : d1.Perm d2) :
    vsizePairs d1 = vsizePairs d2 := by
  induction h with
  | nil => rfl
  | cons x l ih =>
      obtain ⟨k, v⟩ := x
      show 1 + vsize k + vsize v + vsizePairs _ = 1 + vsize k + vsize v + vsizePairs _
      omega
  | swap x y l =>
      obtain ⟨k1, v1⟩ := x
      obtain ⟨k2, v2⟩ := y
      show 1 + vsize k2 + vsize v2 + (1 + vsize k1 + vsize v1 + vsizePairs l) =
        1 + vsize k1 + vsize v1 + (1 + vsize k2 + vsize v2 + vsizePairs l)
      omega
  | trans h1 h2 ih1 ih2 => omega

/-! ### Python equality on flat values -/

theorem pyEq_str_str (s t : List Nat) : pyEq (.str s) (.str t) = (s == t) := rfl

theorem pyEq_bytes_bytes (s t : List Nat) : pyEq (.bytes s) (.bytes t) = (s == t) := rfl

theorem pyEq_str_bytes (s t : List Nat) : pyEq (.str s) (.bytes t) = false := rfl

theorem pyEq_bytes_str (s t : List Nat) : pyEq (.bytes s) (.str t) = false := rfl

/-! ### dict item assignment -/

theorem dictSet_append (acc : List (PyVal × PyVal)) (k v : PyVal)
    (h : ∀ q ∈ acc, pyEq q.1 k = false) : dictSet acc k v = acc ++ [(k, v)] := by
  induction acc with
  | nil => rfl
  | cons q qs ih =>
      obtain ⟨k0, v0⟩ := q
      show (if pyEq k0 k then (k0, v) :: qs else (k0, v0) :: dictSet qs k v) = _
      rw [if_neg (by rw [h (k0, v0) (by simp)]; simp)]
      rw [ih (fun q hq => h q (by simp [hq]))]
      rfl

theorem foldl_dictSet_append (wps : List (PyVal × PyVal)) :
    ∀ acc, (∀ p ∈ wps, ∀ q ∈ acc, pyEq q.1 p.1 = false) →
      List.Pairwise (fun p q => pyEq p.1 q.1 = false) wps →
      wps.foldl (fun a p => dictSet a p.1 p.2) acc = acc ++ wps := by
  induction wps with
  | nil => intro acc _ _; simp
  | cons p ps ih =>
      intro acc hacc hpair
      simp only [List.foldl_cons]
      rw [dictSet_append acc p.1 p.2 (fun q hq => hacc p (by simp) q hq)]
      rw [List.pairwise_cons] at hpair
      rw [ih (acc ++ [(p.1, p.2)]) ?_ hpair.2]
      · simp
      · intro r hr q hq
        rcases List.mem_append.mp hq with hq1 | hq2
        · exact hacc r (by simp [hr]) q hq1
        · have : q = (p.1, p.2) := by simpa using hq2
          subst this
          exact hpair.1 r hr

/-! ### Sorting produces a permutation -/

theorem insertPair_perm (x : PyVal × PyVal) (l r : List (PyVal × PyVal))
    (h : insertPair x l = .ok r) : r.Perm (x :: l) := by
  induction l generalizing r with
  | nil =>
      replace h : Except.ok [x] = Except.ok r := h
      simp only [Except.ok.injEq] at h
      rw [← h]
  | cons y rest ih =>
      replace h : (match pairLt y x with
        | Except.error e => Except.error e
        | Except.ok true =>
            match insertPair x rest with
            | Except.error e => Except.error e
            | Except.ok r2 => Except.ok (y :: r2)
        | Except.ok false => Except.ok (x :: y :: rest)) = Except.ok r := h
      match hc : pairLt y x with
      | .error e =>
          rw [hc] at h
          exact absurd h (by simp)
      | .ok true =>
          rw [hc] at h
          match hi : insertPair x rest with
          | .error e => rw [hi] at h; exact absurd h (by simp)
          | .ok r2 =>
              rw [hi] at h
              replace h : Except.ok (y :: r2) = Except.ok r := h
              simp only [Except.ok.injEq] at h
              rw [← h]
              have hp := ih r2 hi
              have hstep1 : (y :: r2).Perm (y :: x :: rest) := hp.cons y
              have hstep2 : (y :: x :: rest).Perm (x :: y :: rest) := List.Perm.swap x y rest
              exact hstep1.trans hstep2
      | .ok false =>
          rw [hc] at h
          replace h : Except.ok (x :: y :: rest) = Except.ok r := h
          simp only [Except.ok.injEq] at h
          rw [← h]

theorem sortPairs_perm (d sd : List (PyVal × PyVal)) (h : sortPairs d = .ok sd) :
    sd.Perm d := by
  induction d generalizing sd with
  | nil =>
      replace h : Except.ok ([] : List (PyVal × PyVal)) = Except.ok sd := h
      simp only [Except.ok.injEq] at h
      rw [← h]
  | cons x rest ih =>
      replace h : (match sortPairs rest with
        | Except.error e => Except.error e
        | Except.ok r => insertPair x r) = Except.ok sd := h
      match hs : sortPairs rest with
      | .error e => rw [hs] at h; exact absurd h (by simp)
      | .ok r =>
          rw [hs] at h
          have h1 := insertPair_perm x r sd h
          have h2 := ih r hs
          exact h1.trans (h2.cons x)

/-! ### Fuel monotonicity of the encoder -/

theorem encodeF_mono :
    ∀ f, (∀ g, f ≤ g →
      (∀ v r, encodeF f v = some r → encodeF g v = some r) ∧
      (∀ l r, encListF f l = some r → encListF g l = some r) ∧
      (∀ l r, encPairsF f l = some r → encPairsF g l = some r)) := by
  intro f
  induction f with
  | zero =>
      intro g hg
      refine ⟨?_, ?_, ?_⟩
      · intro v r h; exact absurd h (by rw [encodeF]; simp)
      · intro l r h; exact absurd h (by rw [encListF]; simp)
      · intro l r h; exact absurd h (by rw [encPairsF]; simp)
  | succ f ih =>
      intro g hg
      obtain ⟨g2, rfl⟩ : ∃ g2, g = g2 + 1 := ⟨g - 1, by omega⟩
      have ihg := ih g2 (by omega)
      refine ⟨?_, ?_, ?_⟩
      · intro v r h
        match v with
        | .int n => exact h
        | .bool b => exact h
        | .bytes p => exact h
        | .str s => exact h
        | .noneV => exact h
        | .list xs =>
            replace h : (match encListF f xs with
              | none => (none : Option (Except PyExc (List Nat)))
              | some (Except.error e) => some (Except.error e)
              | some (Except.ok body) => some (Except.ok (108 :: body ++ [101]))) = some r := h
            show (match encListF g2 xs with
              | none => (none : Option (Except PyExc (List Nat)))
              | some (Except.error e) => some (Except.error e)
              | some (Except.ok body) => some (Except.ok (108 :: body ++ [101]))) = some r
            match hl : encListF f xs with
            | none => rw [hl] at h; exact absurd h (by simp)
            | some rl =>
                rw [hl] at h
                rw [ihg.2.1 xs rl hl]
                exact h
        | .dict d =>
            replace h : (match sortPairs d with
              | Except.error e => some (Except.error e)
              | Except.ok sd =>
                  match encPairsF f (dictFromPairs sd) with
                  | none => (none : Option (Except PyExc (List Nat)))
                  | some (Except.error e) => some (Except.error e)
                  | some (Except.ok body) => some (Except.ok (100 :: body ++ [101]))) = some r := h
            show (match sortPairs d with
              | Except.error e => some (Except.error e)
              | Except.ok sd =>
                  match encPairsF g2 (dictFromPairs sd) with
                  | none => (none : Option (Except PyExc (List Nat)))
                  | some (Except.error e) => some (Except.error e)
                  | some (Except.ok body) => some (Except.ok (100 :: body ++ [101]))) = some r
            match hs : sortPairs d with
            | .error e => rw [hs] at h; exact h
            | .ok sd =>
                rw [hs] at h
                replace h : (match encPairsF f (dictFromPairs sd) with
                  | none => (none : Option (Except PyExc (List Nat)))
                  | some (Except.error e) => some (Except.error e)
                  | some (Except.ok body) => some (Except.ok (100 :: body ++ [101]))) = some r := h
                show (match encPairsF g2 (dictFromPairs sd) with
                  | none => (none : Option (Except PyExc (List Nat)))
                  | some (Except.error e) => some (Except.error e)
                  | some (Except.ok body) => some (Except.ok (100 :: body ++ [101]))) = some r
                match hp : encPairsF f (dictFromPairs sd) with
                | none => rw [hp] at h; exact absurd h (by simp)
                | some rp =>
                    rw [hp] at h
                    rw [ihg.2.2 (dictFromPairs sd) rp hp]
                    exact h
      · intro l r h
        match l with
        | [] => exact h
        | x :: xs =>
            replace h : (match encodeF f x with
              | none => (none : Option (Except PyExc (List Nat)))
              | some (Except.error e) => some (Except.error e)
              | some (Except.ok bx) =>
                  match encListF f xs with
                  | none => none
                  | some (Except.error e) => some (Except.error e)
                  | some (Except.ok rest) => some (Except.ok (bx ++ rest))) = some r := h
            show (match encodeF g2 x with
              | none => (none : Option (Except PyExc (List Nat)))
              | some (Except.error e) => some (Except.error e)
              | some (Except.ok bx) =>
                  match encListF g2 xs with
                  | none => none
                  | some (Except.error e) => some (Except.error e)
                  | some (Except.ok rest) => some (Except.ok (bx ++ rest))) = some r
            match hx : encodeF f x with
            | none => rw [hx] at h; exact absurd h (by simp)
            | some rx =>
                rw [hx] at h
                rw [ihg.1 x rx hx]
                match rx with
                | .error e => exact h
                | .ok bx =>
                    replace h : (match encListF f xs with
                      | none => (none : Option (Except PyExc (List Nat)))
                      | some (Except.error e) => some (Except.error e)
                      | some (Except.ok rest) => some (Except.ok (bx ++ rest))) = some r := h
                    show (match encListF g2 xs with
                      | none => (none : Option (Except PyExc (List Nat)))
                      | some (Except.error e) => some (Except.error e)
                      | some (Except.ok rest) => some (Except.ok (bx ++ rest))) = some r
                    match hl : encListF f xs with
                    | none => rw [hl] at h; exact absurd h (by simp)
                    | some rl =>
                        rw [hl] at h
                        rw [ihg.2.1 xs rl hl]
                        exact h
      · intro l r h
        match l with
        | [] => exact h
        | (k, v) :: rest =>
            replace h : (match encodeF f k with
              | none => (none : Option (Except PyExc (List Nat)))
              | some (Except.error e) => some (Except.error e)
              | some (Except.ok bk) =>
                  match encodeF f v with
                  | none => none
                  | some (Except.error e) => some (Except.error e)
                  | some (Except.ok bv) =>
                      match encPairsF f rest with
                      | none => none
                      | some (Except.error e) => some (Except.error e)
                      | some (Except.ok r2) => some (Except.ok (bk ++ bv ++ r2))) = some r := h
            show (match encodeF g2 k with
              | none => (none : Option (Except PyExc (List Nat)))
              | some (Except.error e) => some (Except.error e)
              | some (Except.ok bk) =>
                  match encodeF g2 v with
                  | none => none
                  | some (Except.error e) => some (Except.error e)
                  | some (Except.ok bv) =>
                      match encPairsF g2 rest with
                      | none => none
                      | some (Except.error e) => some (Except.error e)
                      | some (Except.ok r2) => some (Except.ok (bk ++ bv ++ r2))) = some r
            match hk : encodeF f k with
            | none => rw [hk] at h; exact absurd h (by simp)
            | some rk =>
                rw [hk] at h
                rw [ihg.1 k rk hk]
                match rk with
                | .error e => exact h
                | .ok bk =>
                    replace h : (match encodeF f v with
                      | none => (none : Option (Except PyExc (List Nat)))
                      | some (Except.error e) => some (Except.error e)
                      | some (Except.ok bv) =>
                          match encPairsF f rest with
                          | none => none
                          | some (Except.error e) => some (Except.error e)
                          | some (Except.ok r2) => some (Except.ok (bk ++ bv ++ r2))) = some r := h
                    show (match encodeF g2 v with
                      | none => (none : Option (Except PyExc (List Nat)))
                      | some (Except.error e) => some (Except.error e)
                      | some (Except.ok bv) =>
                          match encPairsF g2 rest with
                          | none => none
                          | some (Except.error e) => some (Except.error e)
                          | some (Except.ok r2) => some (Except.ok (bk ++ bv ++ r2))) = some r
                    match hv : encodeF f v with
                    | none => rw [hv] at h; exact absurd h (by simp)
                    | some rv =>
                        rw [hv] at h
                        rw [ihg.1 v rv hv]
                        match rv with
                        | .error e => exact h
                        | .ok bv =>
                            replace h : (match encPairsF f rest with
                              | none => (none : Option (Except PyExc (List Nat)))
                              | some (Except.error e) => some (Except.error e)
                              | some (Except.ok r2) => some (Except.ok (bk ++ bv ++ r2))) =
                                some r := h
                            show (match encPairsF g2 rest with
                              | none => (none : Option (Except PyExc (List Nat)))
                              | some (Except.error e) => some (Except.error e)
                              | some (Except.ok r2) => some (Except.ok (bk ++ bv ++ r2))) = some r
                            match hr : encPairsF f rest with
                            | none => rw [hr] at h; exact absurd h (by simp)
                            | some rr =>
                                rw [hr] at h
                                rw [ihg.2.2 rest rr hr]
                                exact h

/-! ### Canonical decoded keys -/

theorem strOrBytes_inj (a b : List Nat) (h : strOrBytes a = strOrBytes b) : a = b := by
  unfold strOrBytes at h
  match ha : utf8DecodeAll a, hb : utf8DecodeAll b with
  | some ca, some cb =>
      rw [ha, hb] at h
      injection h with hcc
      subst hcc
      have sa := utf8DecodeAll_sound a ca ha
      have sb := utf8DecodeAll_sound b ca hb
      rw [← sa.1, ← sb.1]
  | some ca, none => rw [ha, hb] at h; exact absurd h (by simp)
  | none, some cb => rw [ha, hb] at h; exact absurd h (by simp)
  | none, none => rw [ha, hb] at h; injection h

theorem pyEq_strOrBytes_false (a b : List Nat) (hne : a ≠ b) :
    pyEq (strOrBytes a) (strOrBytes b) = false := by
  unfold strOrBytes
  match ha : utf8DecodeAll a, hb : utf8DecodeAll b with
  | some ca, some cb =>
      rw [pyEq_str_str]
      have sa := utf8DecodeAll_sound a ca ha
      have sb := utf8DecodeAll_sound b cb hb
      have : ca ≠ cb := by
        intro hcc
        subst hcc
        exact hne (by rw [← sa.1, ← sb.1])
      simpa using this
  | some ca, none => exact pyEq_str_bytes ca b
  | none, some cb => exact pyEq_bytes_str a cb
  | none, none =>
      rw [pyEq_bytes_bytes]
      simpa using hne

theorem pyEq_str_str_false (a b : List Nat) (hne : a ≠ b) :
    pyEq (.str a) (.str b) = false := by
  rw [pyEq_str_str]
  simpa using hne

theorem TBE_bytes_inv (kb : List Nat) (w : PyVal) (h : TBE (.bytes kb) w) :
    w = strOrBytes kb := by
  cases h with
  | bytesTxt bs cps hc => unfold strOrBytes; rw [hc]
  | bytesRaw bs hc => unfold strOrBytes; rw [hc]

theorem TBE_str_inv (s : List Nat) (w : PyVal) (h : TBE (.str s) w) : w = .str s := by
  cases h
  rfl

/-! ### Transfer lemmas for lists -/

theorem containsB_iff (x : List Nat) (l : List (List Nat)) :
    containsB x l = true ↔ x ∈ l := by
  induction l with
  | nil => simp [containsB]
  | cons y ys ih =>
      show (x == y || containsB x ys) = true ↔ _
      rw [Bool.or_eq_true, ih]
      simp [List.mem_cons]

theorem nodupB_iff (l : List (List Nat)) : nodupB l = true ↔ l.Nodup := by
  induction l with
  | nil => simp [nodupB]
  | cons x xs ih =>
      show (!containsB x xs && nodupB xs) = true ↔ _
      rw [List.nodup_cons, ← ih, Bool.and_eq_true, Bool.not_eq_true']
      constructor
      · rintro ⟨h1, h2⟩
        refine ⟨?_, h2⟩
        intro hmem
        rw [(containsB_iff x xs).mpr hmem] at h1
        exact absurd h1 (by simp)
      · rintro ⟨h1, h2⟩
        refine ⟨?_, h2⟩
        match hc : containsB x xs with
        | false => rfl
        | true => exact absurd ((containsB_iff x xs).mp hc) h1

theorem wfEncPairs_forall (d : List (PyVal × PyVal)) :
    wfEncPairs d = true ↔ ∀ p ∈ d, wfEnc p.1 = true ∧ wfEnc p.2 = true := by
  induction d with
  | nil => simp [wfEncPairs]
  | cons p ps ih =>
      obtain ⟨k, v⟩ := p
      show (wfEnc k && wfEnc v && wfEncPairs ps) = true ↔ _
      rw [Bool.and_eq_true, Bool.and_eq_true, ih]
      constructor
      · rintro ⟨⟨h1, h2⟩, h3⟩ p hp
        rcases List.mem_cons.mp hp with rfl | hmem
        · exact ⟨h1, h2⟩
        · exact h3 p hmem
      · intro h
        exact ⟨⟨(h (k, v) (by simp)).1, (h (k, v) (by simp)).2⟩,
          fun p hp => h p (by simp [hp])⟩

theorem wfEncList_forall (l : List PyVal) :
    wfEncList l = true ↔ ∀ x ∈ l, wfEnc x = true := by
  induction l with
  | nil => simp [wfEncList]
  | cons x xs ih =>
      show (wfEnc x && wfEncList xs) = true ↔ _
      rw [Bool.and_eq_true, ih]
      constructor
      · rintro ⟨h1, h2⟩ y hy
        rcases List.mem_cons.mp hy with rfl | hmem
        · exact h1
        · exact h2 y hmem
      · intro h
        exact ⟨h x (by simp), fun y hy => h y (by simp [hy])⟩

theorem forall₂_mem_r {α β : Type} (R : α → β → Prop) :
    ∀ (xs : List α) (ys : List β), List.Forall₂ R xs ys →
      ∀ y ∈ ys, ∃ x ∈ xs, R x y := by
  intro xs ys h
  induction h with
  | nil => intro y hy; simp at hy
  | cons hR hrest ih =>
      intro y hy
      rcases List.mem_cons.mp hy with rfl | hmem
      · exact ⟨_, by simp, hR⟩
      · obtain ⟨x, hx, hRx⟩ := ih y hmem
        exact ⟨x, by simp [hx], hRx⟩

theorem pairwise_of_forall₂ {α β : Type} (R : α → β → Prop) (P : α → α → Prop)
    (Q : β → β → Prop) :
    ∀ (xs : List α) (ys : List β), List.Forall₂ R xs ys → List.Pairwise P xs →
      (∀ a b a2 b2, R a a2 → R b b2 → P a b → Q a2 b2) → List.Pairwise Q ys := by
  intro xs ys h
  induction h with
  | nil => intro _ _; exact List.Pairwise.nil
  | cons hR hrest ih =>
      intro hpw himp
      rw [List.pairwise_cons] at hpw
      refine List.Pairwise.cons ?_ (ih hpw.2 himp)
      intro y hy
      obtain ⟨x, hx, hRx⟩ := forall₂_mem_r R _ _ hrest y hy
      exact himp _ _ _ _ hR hRx (hpw.1 x hx)

theorem TBEPairs_forall₂ :
    ∀ (sd wps : List (PyVal × PyVal)), TBEPairs sd wps →
      List.Forall₂ (fun p q => TBE p.1 q.1 ∧ TBE p.2 q.2) sd wps := by
  intro sd
  induction sd with
  | nil =>
      intro wps h
      cases h
      exact List.Forall₂.nil
  | cons p ps ih =>
      intro wps h
      cases h with
      | cons k wk v wv d e hk hv hrest => exact List.Forall₂.cons ⟨hk, hv⟩ (ih _ hrest)

/-! ### Main parse lemma: the decoder inverts the encoder -/

theorem pySlice_char_of_shape (data pre : List Nat) (b : Nat) (tail : List Nat)
    (hshape : data = pre ++ b :: tail) :
    pySlice data (pre.length : Int) ((pre.length : Int) + 1) = [b] := by
  subst hshape
  exact pySlice_char pre b tail

theorem vsize_list_eq (xs : List PyVal) : vsize (.list xs) = 1 + vsizeList xs := rfl

theorem vsize_dict_eq (d : List (PyVal × PyVal)) : vsize (.dict d) = 1 + vsizePairs d := rfl

theorem vsizeList_cons_eq (x : PyVal) (xs : List PyVal) :
    vsizeList (x :: xs) = 1 + vsize x + vsizeList xs := rfl

theorem vsizePairs_cons_eq (k v : PyVal) (d : List (PyVal × PyVal)) :
    vsizePairs ((k, v) :: d) = 1 + vsize k + vsize v + vsizePairs d := rfl

theorem keyIsBytes_shape (k : PyVal) (h : keyIsBytes k = true) : ∃ bs, k = .bytes bs := by
  cases k
  case bytes bs => exact ⟨bs, rfl⟩
  all_goals simp [keyIsBytes] at h

theorem keyIsStr_shape (k : PyVal) (h : keyIsStr k = true) :
    ∃ s, k = .str s ∧ s.all scalarB = true := by
  cases k
  case str s => exact ⟨s, rfl, by simpa [keyIsStr] using h⟩
  all_goals simp [keyIsStr] at h

theorem parse_encode : ∀ n : Nat,
    (∀ v f0 bs, vsize v ≤ n → wfEnc v = true → encodeF f0 v = some (.ok bs) →
      ∃ w, TBE v w ∧ ∀ pre rest f, vsize v < f →
        _decode f (pre ++ (bs ++ rest)) (pre.length : Int) =
          some (.ok (w, ((pre.length + bs.length : Nat) : Int)))) ∧
    (∀ xs f0 body, vsizeList xs ≤ n → wfEncList xs = true →
      encListF f0 xs = some (.ok body) →
      ∃ ws, TBEList xs ws ∧ ∀ pre rest acc f, vsizeList xs < f →
        _decode_listLoop f (pre ++ (body ++ 101 :: rest)) (pre.length : Int) acc =
          some (.ok (.list (acc ++ ws), ((pre.length + body.length + 1 : Nat) : Int)))) ∧
    (∀ d f0 body, vsizePairs d ≤ n → wfEncPairs d = true →
      (∀ p ∈ d, keyIsBytes p.1 = true ∨ keyIsStr p.1 = true) →
      encPairsF f0 d = some (.ok body) →
      ∃ wps, TBEPairs d wps ∧ ∀ pre rest acc f, vsizePairs d < f →
        _decode_dictLoop f (pre ++ (body ++ 101 :: rest)) (pre.length : Int) acc =
          some (.ok (.dict (wps.foldl (fun a p => dictSet a p.1 p.2) acc),
            ((pre.length + body.length + 1 : Nat) : Int)))) := by
  intro n
  induction n using Nat.strong_induction_on with
  | _ n ih =>
  refine ⟨?_, ?_, ?_⟩
  -- Part A: single values
  · intro v f0 bs hn hwf hEnc
    match v with
    | .int n0 =>
        have hbs : bs = _encode_int n0 := by
          have := encodeF_int_inv f0 n0 _ hEnc
          simpa using this
        subst hbs
        refine ⟨.int n0, TBE.int n0, ?_⟩
        intro pre rest f hf
        obtain ⟨f2, rfl⟩ : ∃ f2, f = f2 + 1 := ⟨f - 1, by have := vsize_pos (.int n0); omega⟩
        rw [_decode_succ]
        have hchar : pySlice (pre ++ (_encode_int n0 ++ rest)) (pre.length : Int)
            ((pre.length : Int) + 1) = [105] := by
          refine pySlice_char_of_shape _ pre 105 (intRepr n0 ++ [101] ++ rest) ?_
          simp [_encode_int]
        rw [hchar, if_pos rfl]
        exact congrArg some (decode_int_at n0 pre rest)
    | .bool b =>
        have hbs : bs = _encode_int (if b then 1 else 0) := by
          have := encodeF_bool_inv f0 b _ hEnc
          simpa [_encode_bool] using this
        subst hbs
        refine ⟨.int (if b then 1 else 0), TBE.bool b, ?_⟩
        intro pre rest f hf
        obtain ⟨f2, rfl⟩ : ∃ f2, f = f2 + 1 := ⟨f - 1, by have := vsize_pos (.bool b); omega⟩
        rw [_decode_succ]
        have hchar : pySlice (pre ++ (_encode_int (if b then 1 else 0) ++ rest))
            (pre.length : Int) ((pre.length : Int) + 1) = [105] := by
          refine pySlice_char_of_shape _ pre 105 (intRepr (if b then 1 else 0) ++ [101] ++ rest) ?_
          simp [_encode_int]
        rw [hchar, if_pos rfl]
        exact congrArg some (decode_int_at (if b then 1 else 0) pre rest)
    | .bytes p =>
        have hbs : bs = _encode_bytes p := by
          have := encodeF_bytes_inv f0 p _ hEnc
          simpa using this
        subst hbs
        obtain ⟨b0, t0, hrep, hdig⟩ := natRepr_head p.length
        have hdig2 : 48 ≤ b0 ∧ b0 ≤ 57 := by
          simp only [isDigitB, Bool.and_eq_true, decide_eq_true_eq] at hdig
          exact hdig
        refine ⟨strOrBytes p, ?_, ?_⟩
        · unfold strOrBytes
          match hu : utf8DecodeAll p with
          | some cps => exact TBE.bytesTxt p cps hu
          | none => exact TBE.bytesRaw p hu
        · intro pre rest f hf
          obtain ⟨f2, rfl⟩ : ∃ f2, f = f2 + 1 := ⟨f - 1, by have := vsize_pos (.bytes p); omega⟩
          rw [_decode_succ]
          have hchar : pySlice (pre ++ (_encode_bytes p ++ rest)) (pre.length : Int)
              ((pre.length : Int) + 1) = [b0] := by
            refine pySlice_char_of_shape _ pre b0 (t0 ++ 58 :: p ++ rest) ?_
            simp [_encode_bytes, hrep]
          rw [hchar]
          rw [if_neg (by simp; omega), bytesIsdigit_single, if_pos hdig]
          exact congrArg some (decode_str_at p pre rest)
    | .str s =>
        have hsc : s.all scalarB = true := by simpa [wfEnc] using hwf
        have hbs : bs = _encode_bytes (utf8Bytes s) := by
          have := encodeF_str_inv f0 s _ hEnc hsc
          simpa using this
        subst hbs
        obtain ⟨b0, t0, hrep, hdig⟩ := natRepr_head (utf8Bytes s).length
        have hdig2 : 48 ≤ b0 ∧ b0 ≤ 57 := by
          simp only [isDigitB, Bool.and_eq_true, decide_eq_true_eq] at hdig
          exact hdig
        refine ⟨.str s, TBE.str s, ?_⟩
        intro pre rest f hf
        obtain ⟨f2, rfl⟩ : ∃ f2, f = f2 + 1 := ⟨f - 1, by have := vsize_pos (.str s); omega⟩
        rw [_decode_succ]
        have hchar : pySlice (pre ++ (_encode_bytes (utf8Bytes s) ++ rest)) (pre.length : Int)
            ((pre.length : Int) + 1) = [b0] := by
          refine pySlice_char_of_shape _ pre b0 (t0 ++ 58 :: utf8Bytes s ++ rest) ?_
          simp [_encode_bytes, hrep]
        rw [hchar]
        rw [if_neg (by simp; omega), bytesIsdigit_single, if_pos hdig]
        have hval := decode_str_at (utf8Bytes s) pre rest
        have hcanon : strOrBytes (utf8Bytes s) = .str s := by
          unfold strOrBytes
          rw [utf8DecodeAll_encode s hsc]
        rw [hcanon] at hval
        exact congrArg some hval
    | .noneV =>
        have := encodeF_noneV_inv f0 _ hEnc
        simp at this
    | .list xs =>
        obtain ⟨g, body, hf0, hbody, hbs⟩ := encodeF_list_inv f0 xs bs hEnc
        subst hbs
        have hwfl : wfEncList xs = true := by simpa [wfEnc] using hwf
        have hnn : vsizeList xs ≤ n - 1 ∧ 1 ≤ n := by
          rw [vsize_list_eq] at hn
          omega
        obtain ⟨ws, hTws, hloop⟩ :=
          (ih (n - 1) (by omega)).2.1 xs g body hnn.1 hwfl hbody
        refine ⟨.list ws, TBE.list xs ws hTws, ?_⟩
        intro pre rest f hf
        obtain ⟨f2, rfl⟩ : ∃ f2, f = f2 + 1 := ⟨f - 1, by have := vsize_pos (.list xs); omega⟩
        have hshape : pre ++ ((108 :: body ++ [101]) ++ rest) =
            (pre ++ [108]) ++ (body ++ 101 :: rest) := by simp
        rw [hshape]
        have hcur : (pre.length : Int) = (((pre ++ [108]).length : Nat) : Int) - 1 := by
          simp
        rw [_decode_succ]
        have hchar : pySlice ((pre ++ [108]) ++ (body ++ 101 :: rest)) (pre.length : Int)
            ((pre.length : Int) + 1) = [108] := by
          refine pySlice_char_of_shape _ pre 108 (body ++ 101 :: rest) ?_
          simp
        rw [hchar]
        rw [if_neg (by decide), if_neg (by decide), if_neg (by decide), if_pos rfl]
        have hcur2 : (pre.length : Int) + 1 = (((pre ++ [108]).length : Nat) : Int) := by
          simp
        rw [hcur2]
        have hfuel : vsizeList xs < f2 := by
          rw [vsize_list_eq] at hf
          omega
        rw [hloop (pre ++ [108]) rest [] f2 hfuel]
        refine congrArg some (congrArg Except.ok (Prod.ext ?_ ?_))
        · simp
        · show ((((pre ++ [108]).length + body.length + 1 : Nat)) : Int) =
            ((pre.length + (108 :: body ++ [101]).length : Nat) : Int)
          refine congrArg _ ?_
          simp
          omega
    | .dict d =>
        obtain ⟨g, sd, body, hf0, hsort, hbody, hbs⟩ := encodeF_dict_inv f0 d bs hEnc
        subst hbs
        have hwfd : dictKeysOk d = true ∧ wfEncPairs d = true := by
          have : (dictKeysOk d && wfEncPairs d) = true := by simpa [wfEnc] using hwf
          simpa [Bool.and_eq_true] using this
        have hperm : sd.Perm d := sortPairs_perm d sd hsort
        -- keys of sd are pairwise distinct (payloads) and homogeneous
        have hkeysOk := hwfd.1
        unfold dictKeysOk at hkeysOk
        rw [Bool.and_eq_true, Bool.or_eq_true] at hkeysOk
        have hnodup_d : (d.map (fun kv => keyPayload kv.1)).Nodup :=
          (nodupB_iff _).mp hkeysOk.2
        have hnodup_sd : (sd.map (fun kv => keyPayload kv.1)).Nodup :=
          ((hperm.map (fun kv => keyPayload kv.1)).nodup_iff).mpr hnodup_d
        have hpw_sd : List.Pairwise (fun p q : PyVal × PyVal =>
            keyPayload p.1 ≠ keyPayload q.1) sd := by
          have := (List.pairwise_map).mp hnodup_sd
          exact this
        have hshape_sd : ∀ p ∈ sd, keyIsBytes p.1 = true ∨ keyIsStr p.1 = true := by
          intro p hp
          have hpd : p ∈ d := hperm.mem_iff.mp hp
          rcases hkeysOk.1 with hall | hall
          · exact Or.inl (by
              have := List.all_eq_true.mp hall p hpd
              simpa using this)
          · exact Or.inr (by
              have := List.all_eq_true.mp hall p hpd
              simpa using this)
        have hkeys_shape_pw : List.Pairwise (fun p q : PyVal × PyVal =>
            ((keyIsBytes p.1 = true ∧ keyIsBytes q.1 = true) ∨
             (keyIsStr p.1 = true ∧ keyIsStr q.1 = true)) ∧
            keyPayload p.1 ≠ keyPayload q.1) sd := by
          refine List.Pairwise.imp_of_mem ?_ hpw_sd
          intro p q hp hq hne
          refine ⟨?_, hne⟩
          rcases hkeysOk.1 with hall | hall
          · exact Or.inl ⟨by simpa using List.all_eq_true.mp hall p (hperm.mem_iff.mp hp),
              by simpa using List.all_eq_true.mp hall q (hperm.mem_iff.mp hq)⟩
          · exact Or.inr ⟨by simpa using List.all_eq_true.mp hall p (hperm.mem_iff.mp hp),
              by simpa using List.all_eq_true.mp hall q (hperm.mem_iff.mp hq)⟩
        have hkeys_neq : List.Pairwise (fun p q : PyVal × PyVal =>
            pyEq p.1 q.1 = false) sd := by
          refine List.Pairwise.imp ?_ hkeys_shape_pw
          rintro p q ⟨hshapes, hne⟩
          rcases hshapes with ⟨hb1, hb2⟩ | ⟨hs1, hs2⟩
          · obtain ⟨a, ha⟩ := keyIsBytes_shape p.1 hb1
            obtain ⟨b2, hb⟩ := keyIsBytes_shape q.1 hb2
            rw [ha, hb, pyEq_bytes_bytes]
            rw [ha, hb] at hne
            simp only [keyPayload] at hne
            simpa using hne
          · obtain ⟨a, ha, _⟩ := keyIsStr_shape p.1 hs1
            obtain ⟨b2, hb, _⟩ := keyIsStr_shape q.1 hs2
            rw [ha, hb]
            refine pyEq_str_str_false a b2 ?_
            rw [ha, hb] at hne
            simpa [keyPayload] using hne
        have hdfp : dictFromPairs sd = sd := by
          unfold dictFromPairs
          have := foldl_dictSet_append sd [] (by intro p hp q hq; simp at hq) hkeys_neq
          simpa using this
        rw [hdfp] at hbody
        have hwfsd : wfEncPairs sd = true := by
          rw [wfEncPairs_forall]
          intro p hp
          exact (wfEncPairs_forall d).mp hwfd.2 p (hperm.mem_iff.mp hp)
        have hnsz : vsizePairs sd ≤ n - 1 ∧ 1 ≤ n := by
          rw [vsize_dict_eq] at hn
          have := vsizePairs_perm sd d hperm
          omega
        obtain ⟨wps, hTwps, hloop⟩ :=
          (ih (n - 1) (by omega)).2.2 sd g body hnsz.1 hwfsd hshape_sd hbody
        -- decoded keys are still pairwise distinct
        have hwps_neq : List.Pairwise (fun p q : PyVal × PyVal =>
            pyEq p.1 q.1 = false) wps := by
          refine pairwise_of_forall₂ _ _ _ sd wps (TBEPairs_forall₂ sd wps hTwps)
            hkeys_shape_pw ?_
          rintro a b a2 b2 hR1 hR2 ⟨hshapes, hne⟩
          rcases hshapes with ⟨hb1, hb2⟩ | ⟨hs1, hs2⟩
          · obtain ⟨kb1, hk1⟩ := keyIsBytes_shape a.1 hb1
            obtain ⟨kb2, hk2⟩ := keyIsBytes_shape b.1 hb2
            have hw1 : a2.1 = strOrBytes kb1 := TBE_bytes_inv kb1 a2.1 (hk1 ▸ hR1.1)
            have hw2 : b2.1 = strOrBytes kb2 := TBE_bytes_inv kb2 b2.1 (hk2 ▸ hR2.1)
            rw [hw1, hw2]
            refine pyEq_strOrBytes_false kb1 kb2 ?_
            intro hcc
            subst hcc
            rw [hk1, hk2] at hne
            simp [keyPayload] at hne
          · obtain ⟨ks1, hk1, _⟩ := keyIsStr_shape a.1 hs1
            obtain ⟨ks2, hk2, _⟩ := keyIsStr_shape b.1 hs2
            have hw1 : a2.1 = .str ks1 := TBE_str_inv ks1 a2.1 (hk1 ▸ hR1.1)
            have hw2 : b2.1 = .str ks2 := TBE_str_inv ks2 b2.1 (hk2 ▸ hR2.1)
            rw [hw1, hw2]
            refine pyEq_str_str_false ks1 ks2 ?_
            intro hcc
            subst hcc
            rw [hk1, hk2] at hne
            simp [keyPayload] at hne
        refine ⟨.dict wps, TBE.dict d sd wps hperm.symm hTwps, ?_⟩
        intro pre rest f hf
        obtain ⟨f2, rfl⟩ : ∃ f2, f = f2 + 1 := ⟨f - 1, by have := vsize_pos (.dict d); omega⟩
        have hshape : pre ++ ((100 :: body ++ [101]) ++ rest) =
            (pre ++ [100]) ++ (body ++ 101 :: rest) := by simp
        rw [hshape]
        rw [_decode_succ]
        have hchar : pySlice ((pre ++ [100]) ++ (body ++ 101 :: rest)) (pre.length : Int)
            ((pre.length : Int) + 1) = [100] := by
          refine pySlice_char_of_shape _ pre 100 (body ++ 101 :: rest) ?_
          simp
        rw [hchar]
        rw [if_neg (by decide), if_neg (by decide), if_pos rfl]
        have hcur2 : (pre.length : Int) + 1 = (((pre ++ [100]).length : Nat) : Int) := by
          simp
        rw [hcur2]
        have hfuel : vsizePairs sd < f2 := by
          rw [vsize_dict_eq] at hf
          have := vsizePairs_perm sd d hperm
          omega
        rw [hloop (pre ++ [100]) rest [] f2 hfuel]
        have hfold : wps.foldl (fun a p => dictSet a p.1 p.2) [] = wps := by
          have := foldl_dictSet_append wps [] (by intro p hp q hq; simp at hq) hwps_neq
          simpa using this
        rw [hfold]
        refine congrArg some (congrArg Except.ok (Prod.ext rfl ?_))
        show ((((pre ++ [100]).length + body.length + 1 : Nat)) : Int) =
          ((pre.length + (100 :: body ++ [101]).length : Nat) : Int)
        refine congrArg _ ?_
        simp
        omega
  -- Part B: list bodies
  · intro xs f0 body hn hwf hEnc
    match xs with
    | [] =>
        have hbody : body = [] := encListF_nil_inv f0 body hEnc
        subst hbody
        refine ⟨[], TBEList.nil, ?_⟩
        intro pre rest acc f hf
        obtain ⟨f2, rfl⟩ : ∃ f2, f = f2 + 1 := ⟨f - 1, by omega⟩
        rw [_decode_listLoop_succ]
        have hchar : pySlice (pre ++ ([] ++ 101 :: rest)) (pre.length : Int)
            ((pre.length : Int) + 1) = [101] := by
          refine pySlice_char_of_shape _ pre 101 rest ?_
          simp
        rw [hchar, if_pos rfl]
        refine congrArg some (congrArg Except.ok (Prod.ext (by simp) ?_))
        show (pre.length : Int) + 1 = ((pre.length + List.length ([] : List Nat) + 1 : Nat) : Int)
        push_cast
        simp
    | x :: xs2 =>
        obtain ⟨g, bx, bodyrest, hf0, hx, hxs, hbody⟩ := encListF_cons_inv f0 x xs2 body hEnc
        subst hbody
        have hwf2 : wfEnc x = true ∧ wfEncList xs2 = true := by
          have : (wfEnc x && wfEncList xs2) = true := by simpa [wfEncList] using hwf
          simpa [Bool.and_eq_true] using this
        have hsz : vsize x ≤ n - 1 ∧ vsizeList xs2 ≤ n - 1 ∧ 1 ≤ n := by
          rw [vsizeList_cons_eq] at hn
          have := vsize_pos x
          omega
        obtain ⟨w, hTw, hparse⟩ := (ih (n - 1) (by omega)).1 x g bx hsz.1 hwf2.1 hx
        obtain ⟨ws2, hTws2, hloop2⟩ :=
          (ih (n - 1) (by omega)).2.1 xs2 g bodyrest hsz.2.1 hwf2.2 hxs
        refine ⟨w :: ws2, TBEList.cons x w xs2 ws2 hTw hTws2, ?_⟩
        intro pre rest acc f hf
        obtain ⟨f2, rfl⟩ : ∃ f2, f = f2 + 1 := ⟨f - 1, by omega⟩
        obtain ⟨b0, t0, hbx, hbne⟩ := encodeF_ok_head g x bx hx
        have hshape : pre ++ ((bx ++ bodyrest) ++ 101 :: rest) =
            pre ++ (bx ++ (bodyrest ++ 101 :: rest)) := by simp
        rw [hshape]
        rw [_decode_listLoop_succ]
        have hchar : pySlice (pre ++ (bx ++ (bodyrest ++ 101 :: rest))) (pre.length : Int)
            ((pre.length : Int) + 1) = [b0] := by
          refine pySlice_char_of_shape _ pre b0 (t0 ++ (bodyrest ++ 101 :: rest)) ?_
          simp [hbx]
        rw [hchar]
        rw [if_neg (by simpa using hbne)]
        have hfx : vsize x < f2 := by
          rw [vsizeList_cons_eq] at hf
          omega
        rw [hparse pre (bodyrest ++ 101 :: rest) f2 hfx]
        show _decode_listLoop f2 (pre ++ (bx ++ (bodyrest ++ 101 :: rest)))
            (((pre.length + bx.length : Nat) : Int)) (acc ++ [w]) =
          some (.ok (.list (acc ++ w :: ws2),
            ((pre.length + (bx ++ bodyrest).length + 1 : Nat) : Int)))
        have hshape2 : pre ++ (bx ++ (bodyrest ++ 101 :: rest)) =
            (pre ++ bx) ++ (bodyrest ++ 101 :: rest) := by simp
        rw [hshape2]
        have hcur : (((pre.length + bx.length : Nat)) : Int) =
            (((pre ++ bx).length : Nat) : Int) := by simp
        rw [hcur]
        have hfxs : vsizeList xs2 < f2 := by
          rw [vsizeList_cons_eq] at hf
          omega
        rw [hloop2 (pre ++ bx) rest (acc ++ [w]) f2 hfxs]
        refine congrArg some (congrArg Except.ok (Prod.ext ?_ ?_))
        · simp
        · show (((pre ++ bx).length + bodyrest.length + 1 : Nat) : Int) =
            ((pre.length + (bx ++ bodyrest).length + 1 : Nat) : Int)
          refine congrArg _ ?_
          simp
          omega
  -- Part C: dict bodies
  · intro d f0 body hn hwf hkeys hEnc
    match d with
    | [] =>
        have hbody : body = [] := encPairsF_nil_inv f0 body hEnc
        subst hbody
        refine ⟨[], TBEPairs.nil, ?_⟩
        intro pre rest acc f hf
        obtain ⟨f2, rfl⟩ : ∃ f2, f = f2 + 1 := ⟨f - 1, by omega⟩
        rw [_decode_dictLoop_succ]
        have hchar : pySlice (pre ++ ([] ++ 101 :: rest)) (pre.length : Int)
            ((pre.length : Int) + 1) = [101] := by
          refine pySlice_char_of_shape _ pre 101 rest ?_
          simp
        rw [hchar, if_pos rfl]
        refine congrArg some (congrArg Except.ok (Prod.ext rfl ?_))
        show (pre.length : Int) + 1 = ((pre.length + List.length ([] : List Nat) + 1 : Nat) : Int)
        push_cast
        simp
    | (k, v) :: d2 =>
        obtain ⟨g, bk, bv, bodyrest, hf0, hk, hv, hd2, hbody⟩ :=
          encPairsF_cons_inv f0 k v d2 body hEnc
        subst hbody
        have hwf2 : wfEnc k = true ∧ wfEnc v = true ∧ wfEncPairs d2 = true := by
          have : (wfEnc k && wfEnc v && wfEncPairs d2) = true := by
            simpa [wfEncPairs] using hwf
          simp only [Bool.and_eq_true] at this
          exact ⟨this.1.1, this.1.2, this.2⟩
        -- the key is a bytes or scalar str; in both cases bk is _encode_bytes of a payload
        have hkshape := hkeys (k, v) (by simp)
        have hkey : ∃ pb, bk = _encode_bytes pb ∧ TBE k (strOrBytes pb) := by
          rcases hkshape with hb | hs0
          · obtain ⟨kb, hkb⟩ := keyIsBytes_shape k hb
            subst hkb
            refine ⟨kb, ?_, ?_⟩
            · have := encodeF_bytes_inv g kb _ hk
              simpa using this
            · unfold strOrBytes
              match hu : utf8DecodeAll kb with
              | some cps => exact TBE.bytesTxt kb cps hu
              | none => exact TBE.bytesRaw kb hu
          · obtain ⟨ks, hks, hsc⟩ := keyIsStr_shape k hs0
            subst hks
            refine ⟨utf8Bytes ks, ?_, ?_⟩
            · have := encodeF_str_inv g ks _ hk hsc
              simpa using this
            · have hse : strOrBytes (utf8Bytes ks) = .str ks := by
                unfold strOrBytes
                rw [utf8DecodeAll_encode ks hsc]
              rw [hse]
              exact TBE.str ks
        obtain ⟨pb, hbk, hTkey⟩ := hkey
        have hsz : vsize v ≤ n - 1 ∧ vsizePairs d2 ≤ n - 1 ∧ 1 ≤ n := by
          rw [vsizePairs_cons_eq] at hn
          have := vsize_pos v
          have := vsize_pos k
          omega
        obtain ⟨wv, hTv, hparse⟩ := (ih (n - 1) (by omega)).1 v g bv hsz.1 hwf2.2.1 hv
        obtain ⟨wps2, hTwps2, hloop2⟩ :=
          (ih (n - 1) (by omega)).2.2 d2 g bodyrest hsz.2.1 hwf2.2.2
            (fun p hp => hkeys p (by simp [hp])) hd2
        refine ⟨(strOrBytes pb, wv) :: wps2,
          TBEPairs.cons k (strOrBytes pb) v wv d2 wps2 hTkey hTv hTwps2, ?_⟩
        intro pre rest acc f hf
        obtain ⟨f2, rfl⟩ : ∃ f2, f = f2 + 1 := ⟨f - 1, by omega⟩
        subst hbk
        obtain ⟨b0, t0, hrep, hdig⟩ := natRepr_head pb.length
        have hshape : pre ++ ((_encode_bytes pb ++ bv ++ bodyrest) ++ 101 :: rest) =
            pre ++ (_encode_bytes pb ++ (bv ++ (bodyrest ++ 101 :: rest))) := by simp
        rw [hshape]
        rw [_decode_dictLoop_succ]
        have hchar : pySlice (pre ++ (_encode_bytes pb ++ (bv ++ (bodyrest ++ 101 :: rest))))
            (pre.length : Int) ((pre.length : Int) + 1) = [b0] := by
          refine pySlice_char_of_shape _ pre b0
            (t0 ++ 58 :: pb ++ (bv ++ (bodyrest ++ 101 :: rest))) ?_
          simp [_encode_bytes, hrep]
        rw [hchar]
        have hdig2 : 48 ≤ b0 ∧ b0 ≤ 57 := by
          simp only [isDigitB, Bool.and_eq_true, decide_eq_true_eq] at hdig
          exact hdig
        rw [if_neg (by simp; omega)]
        rw [decode_str_at pb pre (bv ++ (bodyrest ++ 101 :: rest))]
        show (match _decode f2 (pre ++ (_encode_bytes pb ++ (bv ++ (bodyrest ++ 101 :: rest))))
            (((pre.length + (_encode_bytes pb).length : Nat) : Int)) with
          | none => none
          | some (Except.error e) => some (Except.error e)
          | some (Except.ok (v2, i2)) =>
              _decode_dictLoop f2 (pre ++ (_encode_bytes pb ++ (bv ++ (bodyrest ++ 101 :: rest))))
                i2 (dictSet acc (strOrBytes pb) v2)) =
          some (.ok (.dict (((strOrBytes pb, wv) :: wps2).foldl
              (fun a p => dictSet a p.1 p.2) acc),
            ((pre.length + (_encode_bytes pb ++ bv ++ bodyrest).length + 1 : Nat) : Int)))
        have hshape2 : pre ++ (_encode_bytes pb ++ (bv ++ (bodyrest ++ 101 :: rest))) =
            (pre ++ _encode_bytes pb) ++ (bv ++ (bodyrest ++ 101 :: rest)) := by simp
        rw [hshape2]
        have hcur : (((pre.length + (_encode_bytes pb).length : Nat)) : Int) =
            (((pre ++ _encode_bytes pb).length : Nat) : Int) := by simp
        rw [hcur]
        have hfv : vsize v < f2 := by
          rw [vsizePairs_cons_eq] at hf
          omega
        rw [hparse (pre ++ _encode_bytes pb) (bodyrest ++ 101 :: rest) f2 hfv]
        show _decode_dictLoop f2
            ((pre ++ _encode_bytes pb) ++ (bv ++ (bodyrest ++ 101 :: rest)))
            ((((pre ++ _encode_bytes pb).length + bv.length : Nat)) : Int)
            (dictSet acc (strOrBytes pb) wv) =
          some (.ok (.dict (((strOrBytes pb, wv) :: wps2).foldl
              (fun a p => dictSet a p.1 p.2) acc),
            ((pre.length + (_encode_bytes pb ++ bv ++ bodyrest).length + 1 : Nat) : Int)))
        have hshape3 : (pre ++ _encode_bytes pb) ++ (bv ++ (bodyrest ++ 101 :: rest)) =
            ((pre ++ _encode_bytes pb) ++ bv) ++ (bodyrest ++ 101 :: rest) := by simp
        rw [hshape3]
        have hcur2 : ((((pre ++ _encode_bytes pb).length + bv.length : Nat)) : Int) =
            ((((pre ++ _encode_bytes pb) ++ bv).length : Nat) : Int) := by
          simp
          ring
        rw [hcur2]
        have hfd : vsizePairs d2 < f2 := by
          rw [vsizePairs_cons_eq] at hf
          omega
        rw [hloop2 ((pre ++ _encode_bytes pb) ++ bv) rest (dictSet acc (strOrBytes pb) wv) f2 hfd]
        refine congrArg some (congrArg Except.ok (Prod.ext ?_ ?_))
        · show PyVal.dict (wps2.foldl (fun a p => dictSet a p.1 p.2)
              (dictSet acc (strOrBytes pb) wv)) =
            PyVal.dict (((strOrBytes pb, wv) :: wps2).foldl (fun a p => dictSet a p.1 p.2) acc)
          rfl
        · show ((((pre ++ _encode_bytes pb) ++ bv).length + bodyrest.length + 1 : Nat) : Int) =
            ((pre.length + (_encode_bytes pb ++ bv ++ bodyrest).length + 1 : Nat) : Int)
          refine congrArg _ ?_
          simp
          omega

/-! ### Totality of the encoder on well-formed values -/

theorem dictKeysOk_pairwise (d : List (PyVal × PyVal)) (h : dictKeysOk d = true) :
    List.Pairwise (fun p q : PyVal × PyVal =>
      pyEq p.1 q.1 = false ∧ pyEq q.1 p.1 = false) d := by
  unfold dictKeysOk at h
  rw [Bool.and_eq_true, Bool.or_eq_true] at h
  have hnodup : (d.map (fun kv => keyPayload kv.1)).Nodup := (nodupB_iff _).mp h.2
  have hpw : List.Pairwise (fun p q : PyVal × PyVal =>
      keyPayload p.1 ≠ keyPayload q.1) d := (List.pairwise_map).mp hnodup
  refine List.Pairwise.imp_of_mem ?_ hpw
  intro p q hp hq hne
  rcases h.1 with hall | hall
  · obtain ⟨a, ha⟩ := keyIsBytes_shape p.1 (by simpa using List.all_eq_true.mp hall p hp)
    obtain ⟨b, hb⟩ := keyIsBytes_shape q.1 (by simpa using List.all_eq_true.mp hall q hq)
    rw [ha, hb] at hne ⊢
    simp only [keyPayload] at hne
    rw [pyEq_bytes_bytes, pyEq_bytes_bytes]
    constructor
    · simpa using hne
    · simpa using fun hc => hne hc.symm
  · obtain ⟨a, ha, _⟩ := keyIsStr_shape p.1 (by simpa using List.all_eq_true.mp hall p hp)
    obtain ⟨b, hb, _⟩ := keyIsStr_shape q.1 (by simpa using List.all_eq_true.mp hall q hq)
    rw [ha, hb] at hne ⊢
    simp only [keyPayload] at hne
    rw [pyEq_str_str, pyEq_str_str]
    constructor
    · simpa using hne
    · simpa using fun hc => hne hc.symm

theorem dictKeysOk_comparable (d : List (PyVal × PyVal)) (h : dictKeysOk d = true) :
    List.Pairwise (fun p q : PyVal × PyVal =>
      (∃ b, pairLt p q = .ok b) ∧ (∃ b, pairLt q p = .ok b)) d := by
  have hneq := dictKeysOk_pairwise d h
  unfold dictKeysOk at h
  rw [Bool.and_eq_true, Bool.or_eq_true] at h
  refine List.Pairwise.imp_of_mem ?_ hneq
  intro p q hp hq hne
  have hπ : ∀ x y : PyVal × PyVal, x ∈ d → y ∈ d → pyEq x.1 y.1 = false →
      ∃ b, pairLt x y = .ok b := by
    intro x y hx hy hxy
    unfold pairLt
    rw [hxy]
    rw [if_neg Bool.false_ne_true]
    rcases h.1 with hall | hall
    · obtain ⟨a, ha⟩ := keyIsBytes_shape x.1 (by simpa using List.all_eq_true.mp hall x hx)
      obtain ⟨b, hb⟩ := keyIsBytes_shape y.1 (by simpa using List.all_eq_true.mp hall y hy)
      rw [ha, hb]
      exact ⟨lexLtB a b, rfl⟩
    · obtain ⟨a, ha, _⟩ := keyIsStr_shape x.1 (by simpa using List.all_eq_true.mp hall x hx)
      obtain ⟨b, hb, _⟩ := keyIsStr_shape y.1 (by simpa using List.all_eq_true.mp hall y hy)
      rw [ha, hb]
      exact ⟨lexLtB a b, rfl⟩
  exact ⟨hπ p q hp hq hne.1, hπ q p hq hp hne.2⟩

theorem insertPair_total (x : PyVal × PyVal) (l : List (PyVal × PyVal))
    (h : ∀ y ∈ l, ∃ b, pairLt y x = .ok b) : ∃ r, insertPair x l = .ok r := by
  induction l with
  | nil => exact ⟨[x], rfl⟩
  | cons y rest ih =>
      obtain ⟨b, hb⟩ := h y (by simp)
      obtain ⟨r2, hr2⟩ := ih (fun z hz => h z (by simp [hz]))
      match b with
      | true =>
          refine ⟨y :: r2, ?_⟩
          show (match pairLt y x with
            | Except.error e => Except.error e
            | Except.ok true =>
                match insertPair x rest with
                | Except.error e => Except.error e
                | Except.ok r => Except.ok (y :: r)
            | Except.ok false => Except.ok (x :: y :: rest)) = Except.ok (y :: r2)
          rw [hb, hr2]
      | false =>
          refine ⟨x :: y :: rest, ?_⟩
          show (match pairLt y x with
            | Except.error e => Except.error e
            | Except.ok true =>
                match insertPair x rest with
                | Except.error e => Except.error e
                | Except.ok r => Except.ok (y :: r)
            | Except.ok false => Except.ok (x :: y :: rest)) = Except.ok (x :: y :: rest)
          rw [hb]

theorem sortPairs_total (d : List (PyVal × PyVal))
    (h : List.Pairwise (fun p q : PyVal × PyVal =>
      (∃ b, pairLt p q = .ok b) ∧ (∃ b, pairLt q p = .ok b)) d) :
    ∃ sd, sortPairs d = .ok sd := by
  induction d with
  | nil => exact ⟨[], rfl⟩
  | cons x rest ih =>
      rw [List.pairwise_cons] at h
      obtain ⟨sr, hsr⟩ := ih h.2
      have hperm := sortPairs_perm rest sr hsr
      obtain ⟨r, hr⟩ := insertPair_total x sr (by
        intro y hy
        exact (h.1 y (hperm.mem_iff.mp hy)).2)
      refine ⟨r, ?_⟩
      show (match sortPairs rest with
        | Except.error e => Except.error e
        | Except.ok r2 => insertPair x r2) = Except.ok r
      rw [hsr]
      exact hr

theorem pyEq_symm_false (d : List (PyVal × PyVal)) :
    List.Pairwise (fun p q : PyVal × PyVal =>
      pyEq p.1 q.1 = false ∧ pyEq q.1 p.1 = false) d →
    List.Pairwise (fun p q : PyVal × PyVal => pyEq p.1 q.1 = false) d :=
  fun h => h.imp (fun hpq => hpq.1)

theorem encodeF_total : ∀ f : Nat,
    (∀ v, wfEnc v = true → vsize v < f → ∃ bs, encodeF f v = some (.ok bs)) ∧
    (∀ xs, wfEncList xs = true → vsizeList xs < f → ∃ body, encListF f xs = some (.ok body)) ∧
    (∀ d, wfEncPairs d = true → vsizePairs d < f → ∃ body, encPairsF f d = some (.ok body)) := by
  intro f
  induction f with
  | zero =>
      refine ⟨?_, ?_, ?_⟩
      · intro v hwf hsz
        omega
      · intro xs hwf hsz
        omega
      · intro d hwf hsz
        omega
  | succ f ih =>
      refine ⟨?_, ?_, ?_⟩
      · intro v hwf hsz
        match v with
        | .int n => exact ⟨_, rfl⟩
        | .bool b => exact ⟨_, rfl⟩
        | .bytes p => exact ⟨_, rfl⟩
        | .str s =>
            have hsc : s.all scalarB = true := by simpa [wfEnc] using hwf
            refine ⟨_encode_bytes (utf8Bytes s), ?_⟩
            show some (_encode_str s) = _
            unfold _encode_str pyUtf8Encode
            rw [if_pos hsc]
        | .noneV => simp [wfEnc] at hwf
        | .list xs =>
            have hwfl : wfEncList xs = true := by simpa [wfEnc] using hwf
            have hszl : vsizeList xs < f := by rw [vsize_list_eq] at hsz; omega
            obtain ⟨body, hbody⟩ := ih.2.1 xs hwfl hszl
            refine ⟨108 :: body ++ [101], ?_⟩
            show (match encListF f xs with
              | none => (none : Option (Except PyExc (List Nat)))
              | some (Except.error e) => some (Except.error e)
              | some (Except.ok body) => some (Except.ok (108 :: body ++ [101]))) = _
            rw [hbody]
        | .dict d =>
            have hwfd : dictKeysOk d = true ∧ wfEncPairs d = true := by
              have : (dictKeysOk d && wfEncPairs d) = true := by simpa [wfEnc] using hwf
              simpa [Bool.and_eq_true] using this
            obtain ⟨sd, hsd⟩ := sortPairs_total d (dictKeysOk_comparable d hwfd.1)
            have hperm := sortPairs_perm d sd hsd
            have hpw_d := dictKeysOk_pairwise d hwfd.1
            have hpw_sd : List.Pairwise (fun p q : PyVal × PyVal =>
                pyEq p.1 q.1 = false ∧ pyEq q.1 p.1 = false) sd := by
              refine (List.Perm.pairwise_iff ?_ hperm).mpr hpw_d
              intro a b hab
              exact ⟨hab.2, hab.1⟩
            have hdfp : dictFromPairs sd = sd := by
              unfold dictFromPairs
              have := foldl_dictSet_append sd [] (by intro p hp q hq; simp at hq)
                (pyEq_symm_false sd hpw_sd)
              simpa using this
            have hwfsd : wfEncPairs sd = true := by
              rw [wfEncPairs_forall]
              intro p hp
              exact (wfEncPairs_forall d).mp hwfd.2 p (hperm.mem_iff.mp hp)
            have hszsd : vsizePairs sd < f := by
              rw [vsize_dict_eq] at hsz
              have := vsizePairs_perm sd d hperm
              omega
            obtain ⟨body, hbody⟩ := ih.2.2 sd hwfsd hszsd
            refine ⟨100 :: body ++ [101], ?_⟩
            show (match sortPairs d with
              | Except.error e => some (Except.error e)
              | Except.ok sd2 =>
                  match encPairsF f (dictFromPairs sd2) with
                  | none => (none : Option (Except PyExc (List Nat)))
                  | some (Except.error e) => some (Except.error e)
                  | some (Except.ok body) => some (Except.ok (100 :: body ++ [101]))) = _
            rw [hsd]
            show (match encPairsF f (dictFromPairs sd) with
              | none => (none : Option (Except PyExc (List Nat)))
              | some (Except.error e) => some (Except.error e)
              | some (Except.ok body) => some (Except.ok (100 :: body ++ [101]))) = _
            rw [hdfp, hbody]
      · intro xs hwf hsz
        match xs with
        | [] => exact ⟨[], rfl⟩
        | x :: xs2 =>
            have hwf2 : wfEnc x = true ∧ wfEncList xs2 = true := by
              have : (wfEnc x && wfEncList xs2) = true := by simpa [wfEncList] using hwf
              simpa [Bool.and_eq_true] using this
            rw [vsizeList_cons_eq] at hsz
            obtain ⟨bx, hbx⟩ := ih.1 x hwf2.1 (by omega)
            obtain ⟨rest, hrest⟩ := ih.2.1 xs2 hwf2.2 (by omega)
            refine ⟨bx ++ rest, ?_⟩
            show (match encodeF f x with
              | none => (none : Option (Except PyExc (List Nat)))
              | some (Except.error e) => some (Except.error e)
              | some (Except.ok bx) =>
                  match encListF f xs2 with
                  | none => none
                  | some (Except.error e) => some (Except.error e)
                  | some (Except.ok rest) => some (Except.ok (bx ++ rest))) = _
            rw [hbx]
            show (match encListF f xs2 with
              | none => (none : Option (Except PyExc (List Nat)))
              | some (Except.error e) => some (Except.error e)
              | some (Except.ok rest) => some (Except.ok (bx ++ rest))) = _
            rw [hrest]
      · intro d hwf hsz
        match d with
        | [] => exact ⟨[], rfl⟩
        | (k, v) :: d2 =>
            have hwf2 : wfEnc k = true ∧ wfEnc v = true ∧ wfEncPairs d2 = true := by
              have : (wfEnc k && wfEnc v && wfEncPairs d2) = true := by
                simpa [wfEncPairs] using hwf
              simp only [Bool.and_eq_true] at this
              exact ⟨this.1.1, this.1.2, this.2⟩
            rw [vsizePairs_cons_eq] at hsz
            obtain ⟨bk, hbk⟩ := ih.1 k hwf2.1 (by omega)
            obtain ⟨bv, hbv⟩ := ih.1 v hwf2.2.1 (by omega)
            obtain ⟨rest, hrest⟩ := ih.2.2 d2 hwf2.2.2 (by omega)
            refine ⟨bk ++ bv ++ rest, ?_⟩
            show (match encodeF f k with
              | none => (none : Option (Except PyExc (List Nat)))
              | some (Except.error e) => some (Except.error e)
              | some (Except.ok bk) =>
                  match encodeF f v with
                  | none => none
                  | some (Except.error e) => some (Except.error e)
                  | some (Except.ok bv) =>
                      match encPairsF f d2 with
                      | none => none
                      | some (Except.error e) => some (Except.error e)
                      | some (Except.ok rest) => some (Except.ok (bk ++ bv ++ rest))) = _
            rw [hbk]
            show (match encodeF f v with
              | none => (none : Option (Except PyExc (List Nat)))
              | some (Except.error e) => some (Except.error e)
              | some (Except.ok bv) =>
                  match encPairsF f d2 with
                  | none => none
                  | some (Except.error e) => some (Except.error e)
                  | some (Except.ok rest) => some (Except.ok (bk ++ bv ++ rest))) = _
            rw [hbv]
            show (match encPairsF f d2 with
              | none => (none : Option (Except PyExc (List Nat)))
              | some (Except.error e) => some (Except.error e)
              | some (Except.ok rest) => some (Except.ok (bk ++ bv ++ rest))) = _
            rw [hrest]

theorem encode_total (v : PyVal) (hwf : wfEnc v = true) :
    ∃ bs, encode v = some (.ok bs) :=
  (encodeF_total (vsize v + 1)).1 v hwf (by omega)

/-! ### Decode inverts encode at the top level -/

theorem decode_encode (v : PyVal) (hwf : wfEnc v = true) :
    ∃ bs w, encode v = some (.ok bs) ∧ TBE v w ∧
      ∀ f, vsize v < f → decode f bs = some (.ok w) := by
  obtain ⟨bs, hbs⟩ := encode_total v hwf
  obtain ⟨w, hT, hparse⟩ :=
    (parse_encode (vsize v)).1 v (vsize v + 1) bs (le_refl _) hwf hbs
  refine ⟨bs, w, hbs, hT, ?_⟩
  intro f hf
  have h0 := hparse [] [] f hf
  have hdata : ([] : List Nat) ++ (bs ++ []) = bs := by simp
  rw [hdata] at h0
  have hcur : ((List.length ([] : List Nat) : Nat) : Int) = (0 : Int) := by simp
  rw [hcur] at h0
  unfold decode
  rw [h0]
  show (if ((bs.length : Nat) : Int) = ((List.length ([] : List Nat) + bs.length : Nat) : Int)
      then some (Except.ok w) else some (Except.error PyExc.bencodeDecodeError)) =
    some (Except.ok w)
  rw [if_pos (by simp)]

theorem decode_encode_extra (v : PyVal) (hwf : wfEnc v = true) (extra : List Nat)
    (hextra : extra ≠ []) :
    ∃ bs, encode v = some (.ok bs) ∧
      ∀ f, vsize v < f → decode f (bs ++ extra) = some (.error .bencodeDecodeError) := by
  obtain ⟨bs, hbs⟩ := encode_total v hwf
  obtain ⟨w, hT, hparse⟩ :=
    (parse_encode (vsize v)).1 v (vsize v + 1) bs (le_refl _) hwf hbs
  refine ⟨bs, hbs, ?_⟩
  intro f hf
  have h0 := hparse [] extra f hf
  have hdata : ([] : List Nat) ++ (bs ++ extra) = bs ++ extra := by simp
  rw [hdata] at h0
  have hcur : ((List.length ([] : List Nat) : Nat) : Int) = (0 : Int) := by simp
  rw [hcur] at h0
  unfold decode
  rw [h0]
  show (if (((bs ++ extra).length : Nat) : Int) =
        ((List.length ([] : List Nat) + bs.length : Nat) : Int)
      then some (Except.ok w) else some (Except.error PyExc.bencodeDecodeError)) =
    some (Except.error PyExc.bencodeDecodeError)
  have hlen : ¬ ((((bs ++ extra).length : Nat) : Int) =
      ((List.length ([] : List Nat) + bs.length : Nat) : Int)) := by
    intro hc
    have hc2 : (bs ++ extra).length = List.length ([] : List Nat) + bs.length := by
      exact_mod_cast hc
    rw [List.length_append] at hc2
    have hz : extra.length = 0 := by simp only [List.length_nil] at hc2; omega
    exact hextra (List.eq_nil_of_length_eq_zero hz)
  rw [if_neg hlen]

/-! ### The strict lexicographic order and sortedness of sortPairs -/

theorem lexLtB_cons (a b : Nat) (s t : List Nat) :
    lexLtB (a :: s) (b :: t) =
      (if a < b then true else if b < a then false else lexLtB s t) := rfl

theorem lexLtB_irrefl : ∀ a : List Nat, lexLtB a a = false := by
  intro a
  induction a with
  | nil => rfl
  | cons x s ih =>
      rw [lexLtB_cons]
      rw [if_neg (lt_irrefl x), if_neg (lt_irrefl x)]
      exact ih

theorem lexLtB_asymm : ∀ a b : List Nat, lexLtB a b = true → lexLtB b a = false := by
  intro a
  induction a with
  | nil =>
      intro b hb
      match b with
      | [] => rfl
      | x :: t => rfl
  | cons x s ih =>
      intro b hb
      match b with
      | [] => simp [lexLtB] at hb
      | y :: t =>
          rw [lexLtB_cons] at hb
          rw [lexLtB_cons]
          by_cases hxy : x < y
          · rw [if_neg (by omega), if_pos hxy]
          · rw [if_neg hxy] at hb
            by_cases hyx : y < x
            · rw [if_pos hyx] at hb
              exact absurd hb (by simp)
            · rw [if_neg hyx] at hb
              rw [if_neg hyx, if_neg hxy]
              exact ih t hb

theorem lexLtB_total : ∀ a b : List Nat, a ≠ b →
    lexLtB a b = true ∨ lexLtB b a = true := by
  intro a
  induction a with
  | nil =>
      intro b hb
      match b with
      | [] => exact absurd rfl hb
      | x :: t => exact Or.inl rfl
  | cons x s ih =>
      intro b hb
      match b with
      | [] => exact Or.inr rfl
      | y :: t =>
          by_cases hxy : x < y
          · left; rw [lexLtB_cons, if_pos hxy]
          · by_cases hyx : y < x
            · right; rw [lexLtB_cons, if_pos hyx]
            · have hxe : x = y := by omega
              subst hxe
              have hst : s ≠ t := by
                intro hc; exact hb (by rw [hc])
              rcases ih t hst with h | h
              · left; rw [lexLtB_cons, if_neg hxy, if_neg hxy]; exact h
              · right; rw [lexLtB_cons, if_neg hxy, if_neg hxy]; exact h

theorem lexLtB_trans : ∀ a b c : List Nat,
    lexLtB a b = true → lexLtB b c = true → lexLtB a c = true := by
  intro a
  induction a with
  | nil =>
      intro b c hab hbc
      match b with
      | [] => simp [lexLtB] at hab
      | y :: t =>
          match c with
          | [] => simp [lexLtB] at hbc
          | z :: u => rfl
  | cons x s ih =>
      intro b c hab hbc
      match b with
      | [] => simp [lexLtB] at hab
      | y :: t =>
          match c with
          | [] => simp [lexLtB] at hbc
          | z :: u =>
              rw [lexLtB_cons] at hab hbc
              rw [lexLtB_cons]
              by_cases hxy : x < y
              · rw [if_pos hxy] at hab
                by_cases hyz : y < z
                · rw [if_pos (by omega : x < z)]
                · rw [if_neg hyz] at hbc
                  by_cases hzy : z < y
                  · rw [if_pos hzy] at hbc
                    exact absurd hbc (by simp)
                  · have : y = z := by omega
                    rw [if_pos (by omega : x < z)]
              · rw [if_neg hxy] at hab
                by_cases hyx : y < x
                · rw [if_pos hyx] at hab
                  exact absurd hab (by simp)
                · rw [if_neg hyx] at hab
                  have hxe : x = y := by omega
                  subst hxe
                  by_cases hyz : x < z
                  · rw [if_pos hyz]
                  · rw [if_neg hyz] at hbc
                    by_cases hzy : z < x
                    · rw [if_pos hzy] at hbc
                      exact absurd hbc (by simp)
                    · rw [if_neg hzy] at hbc
                      rw [if_neg hyz, if_neg hzy]
                      exact ih t u hab hbc

/-- The order in which a well-formed dict's entries end up after the
sorted() call: strictly ascending payload order of the keys. -/
def rankLtB (p q : PyVal × PyVal) : Bool :=
  lexLtB (keyPayload p.1) (keyPayload q.1)

theorem rankLtB_asymm (p q : PyVal × PyVal) (h1 : rankLtB p q = true)
    (h2 : rankLtB q p = true) : False := by
  unfold rankLtB at h1 h2
  rw [lexLtB_asymm _ _ h1] at h2
  exact absurd h2 (by simp)

theorem insertPair_sorted (x : PyVal × PyVal) :
    ∀ l r, insertPair x l = .ok r →
    (∀ y ∈ l, pairLt y x = .ok (rankLtB y x) ∧ keyPayload y.1 ≠ keyPayload x.1) →
    List.Pairwise (fun p q => rankLtB p q = true) l →
    List.Pairwise (fun p q => rankLtB p q = true) r := by
  intro l
  induction l with
  | nil =>
      intro r hr hcmp hs
      have : r = [x] := by
        have h2 : Except.ok (ε := PyExc) [x] = Except.ok r := hr
        simpa using h2.symm
      rw [this]
      simp
  | cons y rest ih =>
      intro r hr hcmp hs
      rw [List.pairwise_cons] at hs
      obtain ⟨hyx, hpay⟩ := hcmp y (by simp)
      have hstep : (match pairLt y x with
          | Except.error e => Except.error e
          | Except.ok true =>
              match insertPair x rest with
              | Except.error e => Except.error e
              | Except.ok r2 => Except.ok (y :: r2)
          | Except.ok false => Except.ok (x :: y :: rest)) = Except.ok r := hr
      rw [hyx] at hstep
      by_cases hb : rankLtB y x = true
      · rw [hb] at hstep
        match h2 : insertPair x rest with
        | .error e => rw [h2] at hstep; exact absurd hstep (by simp)
        | .ok r2 =>
            rw [h2] at hstep
            have hre : y :: r2 = r := by simpa using hstep
            rw [← hre]
            rw [List.pairwise_cons]
            refine ⟨?_, ih r2 h2 (fun z hz => hcmp z (by simp [hz])) hs.2⟩
            intro z hz
            have hz2 : z ∈ x :: rest := (insertPair_perm x rest r2 h2).mem_iff.mp hz
            rcases List.mem_cons.mp hz2 with hz3 | hz3
            · rw [hz3]; exact hb
            · exact hs.1 z hz3
      · rw [Bool.not_eq_true] at hb
        rw [hb] at hstep
        have hre : x :: y :: rest = r := by simpa using hstep
        rw [← hre]
        have hxy : rankLtB x y = true := by
          unfold rankLtB at hb ⊢
          rcases lexLtB_total _ _ (fun hc => hpay hc.symm) with h | h
          · exact h
          · rw [h] at hb; exact absurd hb (by simp)
        rw [List.pairwise_cons]
        constructor
        · intro z hz
          rcases List.mem_cons.mp hz with hz2 | hz2
          · rw [hz2]; exact hxy
          · have hyz : rankLtB y z = true := hs.1 z hz2
            unfold rankLtB at hxy hyz ⊢
            exact lexLtB_trans _ _ _ hxy hyz
        · rw [List.pairwise_cons]
          exact hs

theorem sortPairs_sorted : ∀ d sd, sortPairs d = .ok sd →
    List.Pairwise (fun p q : PyVal × PyVal =>
      pairLt p q = .ok (rankLtB p q) ∧ pairLt q p = .ok (rankLtB q p) ∧
        keyPayload p.1 ≠ keyPayload q.1) d →
    List.Pairwise (fun p q => rankLtB p q = true) sd := by
  intro d
  induction d with
  | nil =>
      intro sd hsd hcmp
      have h2 : Except.ok (ε := PyExc) ([] : List (PyVal × PyVal)) = Except.ok sd := hsd
      have : sd = [] := by simpa using h2.symm
      rw [this]
      simp
  | cons x rest ih =>
      intro sd hsd hcmp
      rw [List.pairwise_cons] at hcmp
      have hstep : (match sortPairs rest with
          | Except.error e => Except.error e
          | Except.ok r => insertPair x r) = Except.ok sd := hsd
      match h2 : sortPairs rest with
      | .error e => rw [h2] at hstep; exact absurd hstep (by simp)
      | .ok sr =>
          rw [h2] at hstep
          have hperm := sortPairs_perm rest sr h2
          refine insertPair_sorted x sr sd hstep ?_ (ih sr h2 hcmp.2)
          intro y hy
          have hy2 : y ∈ rest := hperm.mem_iff.mp hy
          obtain ⟨h3, h4, h5⟩ := hcmp.1 y hy2
          exact ⟨h4, fun hc => h5 hc.symm⟩

theorem dictKeysOk_rank (d : List (PyVal × PyVal)) (h : dictKeysOk d = true) :
    List.Pairwise (fun p q : PyVal × PyVal =>
      pairLt p q = .ok (rankLtB p q) ∧ pairLt q p = .ok (rankLtB q p) ∧
        keyPayload p.1 ≠ keyPayload q.1) d := by
  have hneq := dictKeysOk_pairwise d h
  unfold dictKeysOk at h
  rw [Bool.and_eq_true, Bool.or_eq_true] at h
  have hnodup : (d.map (fun kv => keyPayload kv.1)).Nodup := (nodupB_iff _).mp h.2
  have hpw : List.Pairwise (fun p q : PyVal × PyVal =>
      keyPayload p.1 ≠ keyPayload q.1) d := (List.pairwise_map).mp hnodup
  have hcomb := List.Pairwise.and hneq hpw
  refine List.Pairwise.imp_of_mem ?_ hcomb
  intro p q hp hq hand
  obtain ⟨⟨hne1, hne2⟩, hpay⟩ := hand
  have hπ : ∀ x y : PyVal × PyVal, x ∈ d → y ∈ d → pyEq x.1 y.1 = false →
      pairLt x y = .ok (rankLtB x y) := by
    intro x y hx hy hxy
    unfold pairLt
    rw [hxy]
    rw [if_neg Bool.false_ne_true]
    unfold rankLtB
    rcases h.1 with hall | hall
    · obtain ⟨a, ha⟩ := keyIsBytes_shape x.1 (by simpa using List.all_eq_true.mp hall x hx)
      obtain ⟨b, hb⟩ := keyIsBytes_shape y.1 (by simpa using List.all_eq_true.mp hall y hy)
      rw [ha, hb]
      rfl
    · obtain ⟨a, ha, _⟩ := keyIsStr_shape x.1 (by simpa using List.all_eq_true.mp hall x hx)
      obtain ⟨b, hb, _⟩ := keyIsStr_shape y.1 (by simpa using List.all_eq_true.mp hall y hy)
      rw [ha, hb]
      rfl
  exact ⟨hπ p q hp hq hne1, hπ q p hq hp hne2, hpay⟩

theorem sorted_perm_eq (R : (PyVal × PyVal) → (PyVal × PyVal) → Prop)
    (hasym : ∀ a b, R a b → R b a → False) :
    ∀ l1 l2 : List (PyVal × PyVal), l1.Perm l2 →
      List.Pairwise R l1 → List.Pairwise R l2 → l1 = l2 := by
  intro l1
  induction l1 with
  | nil =>
      intro l2 hperm _ _
      exact (List.Perm.nil_eq hperm).symm.symm
  | cons a t1 ih =>
      intro l2 hperm hs1 hs2
      match l2 with
      | [] => exact absurd hperm.symm (by simp)
      | b :: t2 =>
          by_cases hab : a = b
          · subst hab
            have hp2 := hperm.cons_inv
            rw [List.pairwise_cons] at hs1 hs2
            rw [ih t2 hp2 hs1.2 hs2.2]
          · exfalso
            have ha2 : a ∈ b :: t2 := hperm.mem_iff.mp (by simp)
            have ha3 : a ∈ t2 := by
              rcases List.mem_cons.mp ha2 with h | h
              · exact absurd h hab
              · exact h
            have hb2 : b ∈ a :: t1 := hperm.symm.mem_iff.mp (by simp)
            have hb3 : b ∈ t1 := by
              rcases List.mem_cons.mp hb2 with h | h
              · exact absurd h.symm hab
              · exact h
            rw [List.pairwise_cons] at hs1 hs2
            exact hasym a b (hs1.1 b hb3) (hs2.1 a ha3)

theorem dictKeysOk_perm (d1 d2 : List (PyVal × PyVal)) (hperm : d1.Perm d2)
    (h : dictKeysOk d1 = true) : dictKeysOk d2 = true := by
  unfold dictKeysOk at h ⊢
  rw [Bool.and_eq_true, Bool.or_eq_true] at h ⊢
  constructor
  · rcases h.1 with hall | hall
    · left
      rw [List.all_eq_true] at hall ⊢
      intro p hp
      exact hall p (hperm.symm.mem_iff.mp hp)
    · right
      rw [List.all_eq_true] at hall ⊢
      intro p hp
      exact hall p (hperm.symm.mem_iff.mp hp)
  · rw [nodupB_iff] at h ⊢
    exact ((hperm.map (fun kv => keyPayload kv.1)).nodup_iff).mp h.2

theorem wfEnc_dict_perm (d1 d2 : List (PyVal × PyVal)) (hperm : d1.Perm d2)
    (h : wfEnc (.dict d1) = true) : wfEnc (.dict d2) = true := by
  have h2 : (dictKeysOk d1 && wfEncPairs d1) = true := by simpa [wfEnc] using h
  rw [Bool.and_eq_true] at h2
  have hk := dictKeysOk_perm d1 d2 hperm h2.1
  have hw : wfEncPairs d2 = true := by
    rw [wfEncPairs_forall]
    intro p hp
    exact (wfEncPairs_forall d1).mp h2.2 p (hperm.symm.mem_iff.mp hp)
  show (dictKeysOk d2 && wfEncPairs d2) = true
  rw [hk, hw]
  rfl

theorem sortPairs_unique (d1 d2 : List (PyVal × PyVal)) (hperm : d1.Perm d2)
    (h1 : dictKeysOk d1 = true) (h2 : dictKeysOk d2 = true)
    (sd1 sd2 : List (PyVal × PyVal))
    (hs1 : sortPairs d1 = .ok sd1) (hs2 : sortPairs d2 = .ok sd2) : sd1 = sd2 := by
  have hsort1 := sortPairs_sorted d1 sd1 hs1 (dictKeysOk_rank d1 h1)
  have hsort2 := sortPairs_sorted d2 sd2 hs2 (dictKeysOk_rank d2 h2)
  have hp : sd1.Perm sd2 :=
    ((sortPairs_perm d1 sd1 hs1).trans hperm).trans (sortPairs_perm d2 sd2 hs2).symm
  exact sorted_perm_eq (fun p q => rankLtB p q = true) rankLtB_asymm sd1 sd2 hp hsort1 hsort2

theorem encode_dict_perm (d1 d2 : List (PyVal × PyVal)) (hperm : d1.Perm d2)
    (hwf : wfEnc (.dict d1) = true) :
    encode (.dict d1) = encode (.dict d2) := by
  have hwf2 := wfEnc_dict_perm d1 d2 hperm hwf
  have hk1 : dictKeysOk d1 = true := by
    have : (dictKeysOk d1 && wfEncPairs d1) = true := by simpa [wfEnc] using hwf
    exact (Bool.and_eq_true _ _ |>.mp this).1
  have hk2 : dictKeysOk d2 = true := by
    have : (dictKeysOk d2 && wfEncPairs d2) = true := by simpa [wfEnc] using hwf2
    exact (Bool.and_eq_true _ _ |>.mp this).1
  obtain ⟨sd1, hs1⟩ := sortPairs_total d1 (dictKeysOk_comparable d1 hk1)
  obtain ⟨sd2, hs2⟩ := sortPairs_total d2 (dictKeysOk_comparable d2 hk2)
  have hsd : sd1 = sd2 := sortPairs_unique d1 d2 hperm hk1 hk2 sd1 sd2 hs1 hs2
  have hv : vsize (.dict d1) = vsize (.dict d2) := by
    rw [vsize_dict_eq, vsize_dict_eq, vsizePairs_perm d1 d2 hperm]
  have e1 : encode (.dict d1) =
      (match encPairsF (vsize (.dict d1)) (dictFromPairs sd1) with
        | none => (none : Option (Except PyExc (List Nat)))
        | some (Except.error e) => some (Except.error e)
        | some (Except.ok body) => some (Except.ok (100 :: body ++ [101]))) := by
    show (match sortPairs d1 with
      | Except.error e => some (Except.error e)
      | Except.ok sd =>
          match encPairsF (vsize (.dict d1)) (dictFromPairs sd) with
          | none => (none : Option (Except PyExc (List Nat)))
          | some (Except.error e) => some (Except.error e)
          | some (Except.ok body) => some (Except.ok (100 :: body ++ [101]))) = _
    rw [hs1]
  have e2 : encode (.dict d2) =
      (match encPairsF (vsize (.dict d2)) (dictFromPairs sd2) with
        | none => (none : Option (Except PyExc (List Nat)))
        | some (Except.error e) => some (Except.error e)
        | some (Except.ok body) => some (Except.ok (100 :: body ++ [101]))) := by
    show (match sortPairs d2 with
      | Except.error e => some (Except.error e)
      | Except.ok sd =>
          match encPairsF (vsize (.dict d2)) (dictFromPairs sd) with
          | none => (none : Option (Except PyExc (List Nat)))
          | some (Except.error e) => some (Except.error e)
          | some (Except.ok body) => some (Except.ok (100 :: body ++ [101]))) = _
    rw [hs2]
  rw [e1, e2, hsd, hv]

/-! ### UTF-8 encoding is monotone for the byte-lexicographic order -/

theorem lexLtB_head_lt (a b : Nat) (s t : List Nat) (h : a < b) :
    lexLtB (a :: s) (b :: t) = true := by
  rw [lexLtB_cons, if_pos h]

theorem lexLtB_head_eq (a : Nat) (s t : List Nat) :
    lexLtB (a :: s) (a :: t) = lexLtB s t := by
  rw [lexLtB_cons, if_neg (lt_irrefl a), if_neg (lt_irrefl a)]

theorem utf8EncodeChar_append_lt (c1 c2 : Nat) (hlt : c1 < c2) (r1 r2 : List Nat) :
    lexLtB (utf8EncodeChar c1 ++ r1) (utf8EncodeChar c2 ++ r2) = true := by
  have hdd1 : c1 / 64 / 64 = c1 / 4096 := by
    rw [Nat.div_div_eq_div_mul]
  have hdd2 : c2 / 64 / 64 = c2 / 4096 := by
    rw [Nat.div_div_eq_div_mul]
  have hdd3 : c1 / 4096 / 64 = c1 / 262144 := by
    rw [Nat.div_div_eq_div_mul]
  have hdd4 : c2 / 4096 / 64 = c2 / 262144 := by
    rw [Nat.div_div_eq_div_mul]
  unfold utf8EncodeChar
  by_cases a1 : c1 < 128
  · rw [if_pos a1]
    by_cases b1 : c2 < 128
    · rw [if_pos b1]
      exact lexLtB_head_lt _ _ _ _ hlt
    · rw [if_neg b1]
      by_cases b2 : c2 < 2048
      · rw [if_pos b2]
        exact lexLtB_head_lt _ _ _ _ (by omega)
      · rw [if_neg b2]
        by_cases b3 : c2 < 65536
        · rw [if_pos b3]
          exact lexLtB_head_lt _ _ _ _ (by omega)
        · rw [if_neg b3]
          exact lexLtB_head_lt _ _ _ _ (by omega)
  · rw [if_neg a1]
    by_cases a2 : c1 < 2048
    · rw [if_pos a2]
      by_cases b1 : c2 < 128
      · omega
      · rw [if_neg b1]
        by_cases b2 : c2 < 2048
        · rw [if_pos b2]
          simp only [List.cons_append, List.nil_append]
          by_cases hq : c1 / 64 < c2 / 64
          · exact lexLtB_head_lt _ _ _ _ (by omega)
          · have he : 192 + c1 / 64 = 192 + c2 / 64 := by omega
            rw [he, lexLtB_head_eq]
            exact lexLtB_head_lt _ _ _ _ (by omega)
        · rw [if_neg b2]
          by_cases b3 : c2 < 65536
          · rw [if_pos b3]
            exact lexLtB_head_lt _ _ _ _ (by omega)
          · rw [if_neg b3]
            exact lexLtB_head_lt _ _ _ _ (by omega)
    · rw [if_neg a2]
      by_cases a3 : c1 < 65536
      · rw [if_pos a3]
        by_cases b1 : c2 < 128
        · omega
        · rw [if_neg b1]
          by_cases b2 : c2 < 2048
          · omega
          · rw [if_neg b2]
            by_cases b3 : c2 < 65536
            · rw [if_pos b3]
              simp only [List.cons_append, List.nil_append]
              by_cases hq2 : c1 / 4096 < c2 / 4096
              · exact lexLtB_head_lt _ _ _ _ (by omega)
              · have he2 : 224 + c1 / 4096 = 224 + c2 / 4096 := by omega
                rw [he2, lexLtB_head_eq]
                by_cases hq1 : c1 / 64 < c2 / 64
                · refine lexLtB_head_lt _ _ _ _ ?_
                  omega
                · have he1 : 128 + c1 / 64 % 64 = 128 + c2 / 64 % 64 := by omega
                  rw [he1, lexLtB_head_eq]
                  exact lexLtB_head_lt _ _ _ _ (by omega)
            · rw [if_neg b3]
              exact lexLtB_head_lt _ _ _ _ (by omega)
      · rw [if_neg a3]
        by_cases b1 : c2 < 128
        · omega
        · rw [if_neg b1]
          by_cases b2 : c2 < 2048
          · omega
          · rw [if_neg b2]
            by_cases b3 : c2 < 65536
            · omega
            · rw [if_neg b3]
              simp only [List.cons_append, List.nil_append]
              by_cases hq3 : c1 / 262144 < c2 / 262144
              · exact lexLtB_head_lt _ _ _ _ (by omega)
              · have he3 : 240 + c1 / 262144 = 240 + c2 / 262144 := by omega
                rw [he3, lexLtB_head_eq]
                by_cases hq2 : c1 / 4096 < c2 / 4096
                · refine lexLtB_head_lt _ _ _ _ ?_
                  omega
                · have he2 : 128 + c1 / 4096 % 64 = 128 + c2 / 4096 % 64 := by omega
                  rw [he2, lexLtB_head_eq]
                  by_cases hq1 : c1 / 64 < c2 / 64
                  · refine lexLtB_head_lt _ _ _ _ ?_
                    omega
                  · have he1 : 128 + c1 / 64 % 64 = 128 + c2 / 64 % 64 := by omega
                    rw [he1, lexLtB_head_eq]
                    exact lexLtB_head_lt _ _ _ _ (by omega)

theorem utf8Bytes_cons (a : Nat) (s : List Nat) :
    utf8Bytes (a :: s) = utf8EncodeChar a ++ utf8Bytes s := by
  unfold utf8Bytes
  rw [List.map_cons, List.flatten_cons]

theorem lexLtB_append_same : ∀ x u v : List Nat, lexLtB (x ++ u) (x ++ v) = lexLtB u v := by
  intro x
  induction x with
  | nil => intro u v; rfl
  | cons a s ih =>
      intro u v
      simp only [List.cons_append]
      rw [lexLtB_head_eq]
      exact ih u v

theorem utf8Bytes_mono : ∀ s t : List Nat, lexLtB s t = true →
    lexLtB (utf8Bytes s) (utf8Bytes t) = true := by
  intro s
  induction s with
  | nil =>
      intro t h
      match t with
      | [] => simp [lexLtB] at h
      | b :: t2 =>
          rw [utf8Bytes_cons]
          obtain ⟨x, xs, hx⟩ := List.exists_cons_of_ne_nil (utf8EncodeChar_ne_nil b)
          rw [hx]
          rfl
  | cons a s2 ih =>
      intro t h
      match t with
      | [] => simp [lexLtB] at h
      | b :: t2 =>
          rw [lexLtB_cons] at h
          rw [utf8Bytes_cons, utf8Bytes_cons]
          by_cases hab : a < b
          · exact utf8EncodeChar_append_lt a b hab _ _
          · rw [if_neg hab] at h
            by_cases hba : b < a
            · rw [if_pos hba] at h
              exact absurd h (by simp)
            · rw [if_neg hba] at h
              have : a = b := by omega
              subst this
              rw [lexLtB_append_same]
              exact ih t2 h

/-! ### The wire form of a dict key and the emitted pair encodings -/

/-- The raw bytes a key occupies on the wire: a bytes key is emitted as is,
a str key is emitted UTF-8 encoded. -/
def keyWireBytes (k : PyVal) : List Nat :=
  match k with
  | .bytes bs => bs
  | .str s => utf8Bytes s
  | _ => []

theorem encPairsF_pieces : ∀ (d : List (PyVal × PyVal)) (f : Nat) (body : List Nat),
    encPairsF f d = some (.ok body) →
    ∃ kvs : List (List Nat × List Nat),
      List.Forall₂ (fun (p : PyVal × PyVal) (e : List Nat × List Nat) =>
        (∃ fk, encodeF fk p.1 = some (.ok e.1)) ∧
        (∃ fv, encodeF fv p.2 = some (.ok e.2))) d kvs ∧
      body = (kvs.map (fun e => e.1 ++ e.2)).flatten := by
  intro d
  induction d with
  | nil =>
      intro f body h
      refine ⟨[], List.Forall₂.nil, ?_⟩
      rw [encPairsF_nil_inv f body h]
      rfl
  | cons p d2 ih =>
      intro f body h
      obtain ⟨k, v⟩ := p
      obtain ⟨g, bk, bv, rest, hf, hk, hv, hrest, hbody⟩ := encPairsF_cons_inv f k v d2 body h
      obtain ⟨kvs, hall, hflat⟩ := ih g rest hrest
      refine ⟨(bk, bv) :: kvs, List.Forall₂.cons ⟨⟨g, hk⟩, ⟨g, hv⟩⟩ hall, ?_⟩
      rw [hbody, hflat]
      simp

theorem encode_dict_sorted (d : List (PyVal × PyVal)) (hwf : wfEnc (.dict d) = true) :
    ∃ sd body kvs,
      sortPairs d = .ok sd ∧ sd.Perm d ∧
      encode (.dict d) = some (.ok (100 :: body ++ [101])) ∧
      List.Forall₂ (fun (p : PyVal × PyVal) (e : List Nat × List Nat) =>
        (∃ fk, encodeF fk p.1 = some (.ok e.1)) ∧
        (∃ fv, encodeF fv p.2 = some (.ok e.2))) sd kvs ∧
      body = (kvs.map (fun e => e.1 ++ e.2)).flatten ∧
      List.Pairwise (fun p q : PyVal × PyVal =>
        lexLtB (keyWireBytes p.1) (keyWireBytes q.1) = true) sd := by
  have hk : dictKeysOk d = true := by
    have : (dictKeysOk d && wfEncPairs d) = true := by simpa [wfEnc] using hwf
    exact (Bool.and_eq_true _ _ |>.mp this).1
  obtain ⟨bs, hbs⟩ := encode_total (.dict d) hwf
  obtain ⟨g, sd, body, hf, hs, hpF, hbs2⟩ := encodeF_dict_inv _ d bs hbs
  have hperm := sortPairs_perm d sd hs
  have hksd : dictKeysOk sd = true := dictKeysOk_perm d sd hperm.symm hk
  have hpw_sd : List.Pairwise (fun p q : PyVal × PyVal =>
      pyEq p.1 q.1 = false) sd := pyEq_symm_false sd (dictKeysOk_pairwise sd hksd)
  have hdfp : dictFromPairs sd = sd := by
    unfold dictFromPairs
    have := foldl_dictSet_append sd [] (by intro p hp q hq; simp at hq) hpw_sd
    simpa using this
  rw [hdfp] at hpF
  obtain ⟨kvs, hall, hflat⟩ := encPairsF_pieces sd g body hpF
  have hsorted : List.Pairwise (fun p q => rankLtB p q = true) sd :=
    sortPairs_sorted d sd hs (dictKeysOk_rank d hk)
  have hwire : List.Pairwise (fun p q : PyVal × PyVal =>
      lexLtB (keyWireBytes p.1) (keyWireBytes q.1) = true) sd := by
    have hksd2 := hksd
    unfold dictKeysOk at hksd2
    rw [Bool.and_eq_true, Bool.or_eq_true] at hksd2
    refine List.Pairwise.imp_of_mem ?_ hsorted
    intro p q hp hq hrank
    unfold rankLtB at hrank
    rcases hksd2.1 with hall2 | hall2
    · obtain ⟨a, ha⟩ := keyIsBytes_shape p.1 (by simpa using List.all_eq_true.mp hall2 p hp)
      obtain ⟨b, hb⟩ := keyIsBytes_shape q.1 (by simpa using List.all_eq_true.mp hall2 q hq)
      rw [ha, hb] at hrank ⊢
      exact hrank
    · obtain ⟨a, ha, _⟩ := keyIsStr_shape p.1 (by simpa using List.all_eq_true.mp hall2 p hp)
      obtain ⟨b, hb, _⟩ := keyIsStr_shape q.1 (by simpa using List.all_eq_true.mp hall2 q hq)
      rw [ha, hb] at hrank ⊢
      show lexLtB (utf8Bytes a) (utf8Bytes b) = true
      exact utf8Bytes_mono a b hrank
  rw [hbs2] at hbs
  exact ⟨sd, body, kvs, hs, hperm, hbs, hall, hflat, hwire⟩

/-! ### An INTEGER marker with no END in reach leaks a ValueError -/

theorem decode_int_missing_end (rest : List Nat) (f : Nat) (hf : 1 ≤ f)
    (hno : ∀ b ∈ rest, b ≠ 101) :
    decode f (105 :: rest) = some (.error PyExc.valueError) := by
  obtain ⟨f2, rfl⟩ : ∃ f2, f = f2 + 1 := ⟨f - 1, by omega⟩
  have hint : _decode_int (105 :: rest) 0 = .error .valueError := by
    unfold _decode_int
    have hidx : pyIndexByte (105 :: rest) 101 (0 + 1) = .error .valueError := by
      unfold pyIndexByte
      have hsl : pySliceIdx (105 :: rest).length ((0 : Int) + 1) = 1 := by
        have h2 := pySliceIdx_ofNat (105 :: rest).length 1 (by simp)
        simpa using h2
      rw [hsl]
      have hfind : ((105 :: rest).drop 1).findIdx? (fun b => b = 101) = none := by
        rw [List.drop_one, List.tail_cons, List.findIdx?_eq_none_iff]
        intro x hx
        simpa using hno x hx
      rw [hfind]
    rw [hidx]
  unfold decode
  rw [_decode_succ]
  rw [if_pos (by simpa using pySlice_char [] 105 rest)]
  rw [hint]

/-! ### The round-trip domain is contained in the encoder's domain -/

theorem wfRT_wfEnc : ∀ n : Nat,
    (∀ v, vsize v ≤ n → wfRT v = true → wfEnc v = true) ∧
    (∀ xs, vsizeList xs ≤ n → wfRTList xs = true → wfEncList xs = true) ∧
    (∀ d, vsizePairs d ≤ n → wfRTPairs d = true → wfEncPairs d = true) := by
  intro n
  induction n using Nat.strong_induction_on with
  | _ n ih =>
  refine ⟨?_, ?_, ?_⟩
  · intro v hn hwf
    match v with
    | .int m => rfl
    | .bool b => simp [wfRT] at hwf
    | .str s => simp [wfRT] at hwf
    | .bytes bs => rfl
    | .noneV => simp [wfRT] at hwf
    | .list xs =>
        have hxs : wfRTList xs = true := by simpa [wfRT] using hwf
        have hsz : vsizeList xs ≤ n - 1 := by rw [vsize_list_eq] at hn; omega
        have hn1 : n - 1 < n := by
          have := vsize_pos (.list xs)
          omega
        show wfEncList xs = true
        exact (ih (n - 1) hn1).2.1 xs hsz hxs
    | .dict d =>
        have hd : (d.all (fun kv => keyIsBytes kv.1) &&
            nodupB (d.map (fun kv => keyPayload kv.1)) && wfRTPairs d) = true := by
          simpa [wfRT] using hwf
        rw [Bool.and_eq_true, Bool.and_eq_true] at hd
        have hsz : vsizePairs d ≤ n - 1 := by rw [vsize_dict_eq] at hn; omega
        have hn1 : n - 1 < n := by
          have := vsize_pos (.dict d)
          omega
        have hp := (ih (n - 1) hn1).2.2 d hsz hd.2
        show (dictKeysOk d && wfEncPairs d) = true
        rw [hp]
        unfold dictKeysOk
        rw [hd.1.1, hd.1.2]
        rfl
  · intro xs hn hwf
    match xs with
    | [] => rfl
    | x :: xs2 =>
        have h2 : (wfRT x && wfRTList xs2) = true := by simpa [wfRTList] using hwf
        rw [Bool.and_eq_true] at h2
        rw [vsizeList_cons_eq] at hn
        have hn1 : n - 1 < n := by omega
        have hx := (ih (n - 1) hn1).1 x (by omega) h2.1
        have hxs := (ih (n - 1) hn1).2.1 xs2 (by omega) h2.2
        show (wfEnc x && wfEncList xs2) = true
        rw [hx, hxs]
        rfl
  · intro d hn hwf
    match d with
    | [] => rfl
    | (k, v) :: d2 =>
        have h2 : (wfRT k && wfRT v && wfRTPairs d2) = true := by
          simpa [wfRTPairs] using hwf
        rw [Bool.and_eq_true, Bool.and_eq_true] at h2
        rw [vsizePairs_cons_eq] at hn
        have hn1 : n - 1 < n := by omega
        have hk := (ih (n - 1) hn1).1 k (by omega) h2.1.1
        have hv := (ih (n - 1) hn1).1 v (by omega) h2.1.2
        have hd2 := (ih (n - 1) hn1).2.2 d2 (by omega) h2.2
        show (wfEnc k && wfEnc v && wfEncPairs d2) = true
        rw [hk, hv, hd2]
        rfl

/-! ### The encoder's integer text has no plus, no space, no leading zero -/

theorem natDigitsF_zero' (f : Nat) : natDigitsF f 0 = [] := by
  cases f <;> rfl

theorem natDigitsF_getLast (f : Nat) : ∀ n d, 0 < n → n ≤ f →
    (natDigitsF f n).getLast? = some d → d ≠ 48 := by
  induction f with
  | zero => intro n d h1 h2 _; omega
  | succ g ih =>
      intro n d h1 h2 hl
      rw [show natDigitsF (g + 1) n =
        (if n = 0 then [] else (n % 10 + 48) :: natDigitsF g (n / 10)) from rfl] at hl
      rw [if_neg (by omega)] at hl
      by_cases hq : n / 10 = 0
      · rw [hq, natDigitsF_zero'] at hl
        simp at hl
        omega
      · have hne := natDigitsF_ne_nil g (n / 10) (by omega) (by omega)
        obtain ⟨y, ys, hys⟩ := List.exists_cons_of_ne_nil hne
        rw [hys, List.getLast?_cons_cons, ← hys] at hl
        exact ih (n / 10) d (by omega) (by omega) hl

theorem natRepr_no_leading_zero (n : Nat) (hn : n ≠ 0) (t : List Nat) :
    natRepr n ≠ 48 :: t := by
  intro hc
  unfold natRepr at hc
  rw [if_neg hn] at hc
  have h2 : (natDigitsF n n).getLast? = some 48 := by
    rw [← List.head?_reverse, hc]
    rfl
  exact natDigitsF_getLast n n 48 (by omega) (le_refl n) h2 rfl

theorem intRepr_no_leading (n : Int) (hn : n ≠ 0) (t : List Nat) :
    intRepr n ≠ 48 :: t ∧ intRepr n ≠ 45 :: 48 :: t := by
  unfold intRepr
  by_cases h : n < 0
  · rw [if_pos h]
    constructor
    · intro hc
      simp at hc
    · intro hc
      have h2 : natRepr (-n).toNat = 48 :: t := by simpa using hc
      exact natRepr_no_leading_zero (-n).toNat (by omega) t h2
  · rw [if_neg h]
    constructor
    · exact natRepr_no_leading_zero n.toNat (by omega) t
    · intro hc
      have hall := natRepr_all_digit n.toNat
      rw [hc] at hall
      simp [isDigitB] at hall

/-! ### Decoding a dict wire image with repeated keys: the last value wins -/

theorem decode_dict_duplicates (d : List (PyVal × PyVal))
    (hwf : wfEncPairs d = true)
    (hkeys : ∀ p ∈ d, keyIsBytes p.1 = true ∨ keyIsStr p.1 = true) :
    ∃ body wps, encPairsF (vsizePairs d + 1) d = some (.ok body) ∧
      TBEPairs d wps ∧
      ∀ f, vsizePairs d + 1 < f →
        decode f (100 :: body ++ [101]) =
          some (.ok (.dict (wps.foldl (fun a p => dictSet a p.1 p.2) []))) := by
  obtain ⟨body, hbody⟩ := (encodeF_total (vsizePairs d + 1)).2.2 d hwf (by omega)
  obtain ⟨wps, hT, hloop⟩ := (parse_encode (vsizePairs d)).2.2 d (vsizePairs d + 1) body
    (le_refl _) hwf hkeys hbody
  refine ⟨body, wps, hbody, hT, ?_⟩
  intro f hf
  obtain ⟨f2, rfl⟩ : ∃ f2, f = f2 + 1 := ⟨f - 1, by omega⟩
  have h0 := hloop [100] [] [] f2 (by omega)
  have hdata : ([100] : List Nat) ++ (body ++ 101 :: []) = 100 :: body ++ [101] := by simp
  rw [hdata] at h0
  have hcur : ((List.length ([100] : List Nat) : Nat) : Int) = (0 : Int) + 1 := by simp
  rw [hcur] at h0
  have hchar : pySlice (100 :: body ++ [101]) (0 : Int) ((0 : Int) + 1) = [100] := by
    simpa using pySlice_char [] 100 (body ++ [101])
  unfold decode
  rw [_decode_succ]
  rw [if_neg (by rw [hchar]; decide), if_neg (by rw [hchar]; decide), if_pos hchar]
  rw [h0]
  show (if (((100 :: body ++ [101]).length : Nat) : Int) =
        ((List.length ([100] : List Nat) + body.length + 1 : Nat) : Int)
      then some (Except.ok (PyVal.dict (wps.foldl (fun a p => dictSet a p.1 p.2) [])))
      else some (Except.error PyExc.bencodeDecodeError)) = _
  rw [if_pos (by simp; omega)]

/-! ### The claims -/

/-- C1: for any two dict inputs containing the same key-to-value pairs but
with the keys inserted in different orders (i.e. permuted entry lists, the
keys being distinct and sortable as encode requires), encode produces
byte-identical output. -/
theorem claim_C1 (d1 d2 : List (PyVal × PyVal)) (hperm : d1.Perm d2)
    (hwf : wfEnc (.dict d1) = true) :
    encode (.dict d1) = encode (.dict d2) :=
  encode_dict_perm d1 d2 hperm hwf

/-- C1, witnessed at the mapping b -> 1, a -> 2 inserted in its two orders. -/
theorem claim_C1_witness :
    ([(PyVal.bytes [98], PyVal.int 1), (PyVal.bytes [97], PyVal.int 2)].Perm
      [(PyVal.bytes [97], PyVal.int 2), (PyVal.bytes [98], PyVal.int 1)]) ∧
    wfEnc (.dict [(.bytes [98], .int 1), (.bytes [97], .int 2)]) = true ∧
    encode (.dict [(.bytes [98], .int 1), (.bytes [97], .int 2)]) =
      encode (.dict [(.bytes [97], .int 2), (.bytes [98], .int 1)]) :=
  ⟨List.Perm.swap _ _ _, rfl,
    claim_C1 [(.bytes [98], .int 1), (.bytes [97], .int 2)]
      [(.bytes [97], .int 2), (.bytes [98], .int 1)] (List.Perm.swap _ _ _) rfl⟩

/-- C2: for every value of the model (ints, byte strings, lists, dicts with
byte-string keys, nested arbitrarily), decode of encode reproduces the value
up to the text/bytes equivalence policy `TBE`, under which a byte string and
its valid-UTF-8 text form are identified. -/
theorem claim_C2 (v : PyVal) (h : wfRT v = true) :
    ∃ bs w, encode v = some (.ok bs) ∧ TBE v w ∧
      ∀ f, vsize v < f → decode f bs = some (.ok w) :=
  decode_encode v ((wfRT_wfEnc (vsize v)).1 v (le_refl _) h)

/-- C2, witnessed at the nested value [1, b"a"]. -/
theorem claim_C2_witness :
    wfRT (.list [.int 1, .bytes [97]]) = true ∧
    (∃ bs w, encode (.list [.int 1, .bytes [97]]) = some (.ok bs) ∧
      TBE (.list [.int 1, .bytes [97]]) w ∧
      ∀ f, vsize (.list [.int 1, .bytes [97]]) < f → decode f bs = some (.ok w)) :=
  ⟨rfl, claim_C2 (.list [.int 1, .bytes [97]]) rfl⟩

/-- C3 as stated is false: the buffer d0:8:aaaaaaaa-21:i1ee decodes on its
own to the complete value {"": 1} (the negative length -21 turns into a
negative slice index that reaches the buffer's own tail), yet appending the
four extra bytes i9ee does not raise BencodeDecodeError: the negative index
now lands on the appended bytes and the whole buffer decodes successfully. -/
theorem claim_C3_counterexample :
    decode 10 [100, 48, 58, 56, 58, 97, 97, 97, 97, 97, 97, 97, 97,
      45, 50, 49, 58, 105, 49, 101, 101] =
      some (.ok (.dict [(.str [], .int 1)])) ∧
    decode 10 ([100, 48, 58, 56, 58, 97, 97, 97, 97, 97, 97, 97, 97,
      45, 50, 49, 58, 105, 49, 101, 101] ++ [105, 57, 101, 101]) =
      some (.ok (.dict [(.str [], .str [97, 97, 97, 97, 97, 97, 97, 97]),
        (.str [105, 49, 101, 101], .int 9)])) :=
  ⟨rfl, rfl⟩

/-- C3, amended: for every buffer consisting of one value produced by
encode followed by at least one extra byte, top-level decode raises
BencodeDecodeError, because the end cursor after parsing the first value
must equal the buffer length exactly. -/
theorem claim_C3 (v : PyVal) (hwf : wfEnc v = true) (extra : List Nat)
    (hextra : extra ≠ []) :
    ∃ bs, encode v = some (.ok bs) ∧
      ∀ f, vsize v < f → decode f (bs ++ extra) = some (.error .bencodeDecodeError) :=
  decode_encode_extra v hwf extra hextra

/-- C3, witnessed at the value 5 with one trailing byte. -/
theorem claim_C3_witness :
    wfEnc (.int 5) = true ∧ ([101] : List Nat) ≠ [] ∧
    (∃ bs, encode (.int 5) = some (.ok bs) ∧
      ∀ f, vsize (.int 5) < f →
        decode f (bs ++ [101]) = some (.error .bencodeDecodeError)) :=
  ⟨rfl, by simp, claim_C3 (.int 5) rfl [101] (by simp)⟩

/-- C4 is refuted by the code: on the buffer "3" (a digit, so the
ByteString branch) the colon lookup bytes.index raises a ValueError that no
handler converts, so decode faults with ValueError instead of returning a
value or raising BencodeDecodeError. -/
theorem claim_C4 (f : Nat) (hf : 1 ≤ f) :
    decode f [51] = some (.error PyExc.valueError) := by
  obtain ⟨f2, rfl⟩ : ∃ f2, f = f2 + 1 := ⟨f - 1, by omega⟩
  have hchar : pySlice [51] (0 : Int) ((0 : Int) + 1) = [51] := rfl
  unfold decode
  rw [_decode_succ]
  rw [if_neg (by rw [hchar]; decide), if_pos (by rw [hchar]; decide)]
  rfl

/-- C4, witnessed at fuel 1. -/
theorem claim_C4_witness : decode 1 [51] = some (.error PyExc.valueError) :=
  claim_C4 1 (by decide)

/-- C5 is refuted by the code: on any buffer whose cursor byte is the
INTEGER marker but which has no END byte afterwards, the bytes.index lookup
failure escapes as a raw ValueError, not as a decode error. -/
theorem claim_C5 (rest : List Nat) (f : Nat) (hf : 1 ≤ f)
    (hno : ∀ b ∈ rest, b ≠ 101) :
    decode f (105 :: rest) = some (.error PyExc.valueError) :=
  decode_int_missing_end rest f hf hno

/-- C5, witnessed at the buffer "i42". -/
theorem claim_C5_witness : decode 1 [105, 52, 50] = some (.error PyExc.valueError) :=
  claim_C5 [52, 50] 1 (by decide) (by decide)

/-- C6 is refuted by the code: the buffer "li1" opens a list whose end
marker never appears, and decode faults with the ValueError leaked from the
integer item's END lookup instead of raising BencodeDecodeError. -/
theorem claim_C6 (f : Nat) (hf : 3 ≤ f) :
    decode f [108, 105, 49] = some (.error PyExc.valueError) := by
  obtain ⟨f2, rfl⟩ : ∃ f2, f = f2 + 1 + 1 + 1 := ⟨f - 3, by omega⟩
  have hchar : pySlice [108, 105, 49] (0 : Int) ((0 : Int) + 1) = [108] := rfl
  have hchar1 : pySlice [108, 105, 49] ((0 : Int) + 1) ((0 : Int) + 1 + 1) = [105] := rfl
  unfold decode
  rw [_decode_succ]
  rw [if_neg (by rw [hchar]; decide), if_neg (by rw [hchar]; decide),
    if_neg (by rw [hchar]; decide), if_pos hchar]
  rw [_decode_listLoop_succ]
  rw [if_neg (by rw [hchar1]; decide)]
  rw [_decode_succ]
  rw [if_pos hchar1]
  rfl

/-- C6, witnessed at fuel 3. -/
theorem claim_C6_witness : decode 3 [108, 105, 49] = some (.error PyExc.valueError) :=
  claim_C6 3 (by decide)

/-- C7: encode emits a dict's entries sorted by key in ascending
byte-lexicographic order of the key's raw wire bytes, each entry as
encode(key) followed by encode(value), between the d marker and the e
marker. -/
theorem claim_C7 (d : List (PyVal × PyVal)) (hwf : wfEnc (.dict d) = true) :
    ∃ sd body kvs,
      sortPairs d = .ok sd ∧ sd.Perm d ∧
      encode (.dict d) = some (.ok (100 :: body ++ [101])) ∧
      List.Forall₂ (fun (p : PyVal × PyVal) (e : List Nat × List Nat) =>
        (∃ fk, encodeF fk p.1 = some (.ok e.1)) ∧
        (∃ fv, encodeF fv p.2 = some (.ok e.2))) sd kvs ∧
      body = (kvs.map (fun e => e.1 ++ e.2)).flatten ∧
      List.Pairwise (fun p q : PyVal × PyVal =>
        lexLtB (keyWireBytes p.1) (keyWireBytes q.1) = true) sd :=
  encode_dict_sorted d hwf

/-- C7, witnessed at the two-entry dict b -> 1, a -> 2. -/
theorem claim_C7_witness :
    wfEnc (.dict [(.bytes [98], .int 1), (.bytes [97], .int 2)]) = true ∧
    (∃ sd body kvs,
      sortPairs [(PyVal.bytes [98], PyVal.int 1), (PyVal.bytes [97], PyVal.int 2)] =
        .ok sd ∧
      sd.Perm [(PyVal.bytes [98], PyVal.int 1), (PyVal.bytes [97], PyVal.int 2)] ∧
      encode (.dict [(.bytes [98], .int 1), (.bytes [97], .int 2)]) =
        some (.ok (100 :: body ++ [101])) ∧
      List.Forall₂ (fun (p : PyVal × PyVal) (e : List Nat × List Nat) =>
        (∃ fk, encodeF fk p.1 = some (.ok e.1)) ∧
        (∃ fv, encodeF fv p.2 = some (.ok e.2))) sd kvs ∧
      body = (kvs.map (fun e => e.1 ++ e.2)).flatten ∧
      List.Pairwise (fun p q : PyVal × PyVal =>
        lexLtB (keyWireBytes p.1) (keyWireBytes q.1) = true) sd) :=
  ⟨rfl, claim_C7 [(.bytes [98], .int 1), (.bytes [97], .int 2)] rfl⟩

/-- C8 as stated is false on its totality half: the str value holding the
lone surrogate U+D800 is of a recognized type, yet encode raises
UnicodeEncodeError from str.encode rather than returning bytes. -/
theorem claim_C8_counterexample :
    encode (.str [55296]) = some (.error PyExc.unicodeEncodeError) := rfl

/-- C8, amended: a value outside the recognized variants fails with
BencodeEncodeError and is never silently coerced, and encode returns bytes
without raising on every recognized-type value whose strs are
surrogate-free and whose dicts have distinct same-type keys. -/
theorem claim_C8 :
    encode .noneV = some (.error PyExc.bencodeEncodeError) ∧
    ∀ v, wfEnc v = true → ∃ bs, encode v = some (.ok bs) :=
  ⟨rfl, fun v h => encode_total v h⟩

/-- C8, witnessed at the value 3. -/
theorem claim_C8_witness :
    wfEnc (.int 3) = true ∧ ∃ bs, encode (.int 3) = some (.ok bs) :=
  ⟨rfl, claim_C8.2 (.int 3) rfl⟩

/-- C9: decode accepts the non-canonical integer encodings i007e, i+5e and
"i 5 e" (leading zeros, a plus sign, surrounding ASCII whitespace), while
encode's integer text is always minus-sign-plus-digits with no plus, no
space and no leading zero. -/
theorem claim_C9 :
    (∀ f, 1 ≤ f →
      decode f [105, 48, 48, 55, 101] = some (.ok (.int 7)) ∧
      decode f [105, 43, 53, 101] = some (.ok (.int 5)) ∧
      decode f [105, 32, 53, 32, 101] = some (.ok (.int 5))) ∧
    (∀ n : Int, encode (.int n) = some (.ok (105 :: intRepr n ++ [101])) ∧
      43 ∉ intRepr n ∧ 32 ∉ intRepr n ∧
      (n ≠ 0 → ∀ t, intRepr n ≠ 48 :: t ∧ intRepr n ≠ 45 :: 48 :: t)) := by
  constructor
  · intro f hf
    obtain ⟨f2, rfl⟩ : ∃ f2, f = f2 + 1 := ⟨f - 1, by omega⟩
    refine ⟨?_, ?_, ?_⟩
    · have hchar : pySlice [105, 48, 48, 55, 101] (0 : Int) ((0 : Int) + 1) = [105] := rfl
      unfold decode
      rw [_decode_succ, if_pos hchar]
      rfl
    · have hchar : pySlice [105, 43, 53, 101] (0 : Int) ((0 : Int) + 1) = [105] := rfl
      unfold decode
      rw [_decode_succ, if_pos hchar]
      rfl
    · have hchar : pySlice [105, 32, 53, 32, 101] (0 : Int) ((0 : Int) + 1) = [105] := rfl
      unfold decode
      rw [_decode_succ, if_pos hchar]
      rfl
  · intro n
    refine ⟨rfl, ?_, ?_, fun hn t => intRepr_no_leading n hn t⟩
    · intro hc
      rcases intRepr_bounds n 43 hc with h | h <;> omega
    · intro hc
      rcases intRepr_bounds n 32 hc with h | h <;> omega

/-- C9, witnessed at fuel 1 and the integer 5. -/
theorem claim_C9_witness :
    decode 1 [105, 48, 48, 55, 101] = some (.ok (.int 7)) ∧
    ((5 : Int) ≠ 0 ∧ intRepr (5 : Int) ≠ 48 :: ([] : List Nat)) :=
  ⟨(claim_C9.1 1 (by decide)).1,
    ⟨by decide, ((claim_C9.2 5).2.2.2 (by decide) []).1⟩⟩

/-- C10: for every entry sequence with well-formed keys and values, repeated
keys included, the dict wire image d <entries> e decodes successfully to the
dict built by item assignment in order, so a repeated key is bound to the
value of its last occurrence. -/
theorem claim_C10 (d : List (PyVal × PyVal))
    (hwf : wfEncPairs d = true)
    (hkeys : ∀ p ∈ d, keyIsBytes p.1 = true ∨ keyIsStr p.1 = true) :
    ∃ body wps, encPairsF (vsizePairs d + 1) d = some (.ok body) ∧
      TBEPairs d wps ∧
      ∀ f, vsizePairs d + 1 < f →
        decode f (100 :: body ++ [101]) =
          some (.ok (.dict (wps.foldl (fun a p => dictSet a p.1 p.2) []))) :=
  decode_dict_duplicates d hwf hkeys

/-- C10, witnessed at the entry list a -> 1, a -> 2 with its repeated key. -/
theorem claim_C10_witness :
    wfEncPairs [(PyVal.bytes [97], PyVal.int 1), (PyVal.bytes [97], PyVal.int 2)] = true ∧
    (∃ body wps,
      encPairsF (vsizePairs [(PyVal.bytes [97], PyVal.int 1),
          (PyVal.bytes [97], PyVal.int 2)] + 1)
        [(PyVal.bytes [97], PyVal.int 1), (PyVal.bytes [97], PyVal.int 2)] =
          some (.ok body) ∧
      TBEPairs [(PyVal.bytes [97], PyVal.int 1), (PyVal.bytes [97], PyVal.int 2)] wps ∧
      ∀ f, vsizePairs [(PyVal.bytes [97], PyVal.int 1),
          (PyVal.bytes [97], PyVal.int 2)] + 1 < f →
        decode f (100 :: body ++ [101]) =
          some (.ok (.dict (wps.foldl (fun a p => dictSet a p.1 p.2) [])))) :=
  ⟨rfl, claim_C10 [(.bytes [97], .int 1), (.bytes [97], .int 2)] rfl (by decide)⟩
